import Mathlib

/-!
A shallow embedding of the core of the `tau-engine` detection engine:
the expression IR shared by `src/optimiser.rs` and `src/solver.rs`, the
optimiser passes `coalesce` and `shake`, and the tri-valued solver.

Modelling conventions:
* Rust strings are modelled by Lean `String`; byte positions and byte
  lengths (`str::len`) are modelled by character positions and character
  counts (they agree on ASCII data, which is all the engine's tests use).
* The `regex` and `aho_corasick` crates are external collaborators (the
  spec treats them as building blocks).  A compiled `Regex`/`RegexSet` is
  modelled by its pattern text, which is exactly what the optimiser reads
  back out of it (`as_str`, `patterns`).  A compiled Aho-Corasick DFA is
  modelled by the needle list and case flag it was built from.
* Rust `HashMap` accumulation in `shake` is modelled by an
  insertion-ordered association list (`mapPush`): a key's bucket lives at
  the position of the key's first insertion.  Rust's iteration order for
  `HashMap` is unspecified; the insertion order is one admissible order,
  and none of the proved statements below depend on a particular order.
* Panics (`unreachable!`, `expect`) and running out of recursion fuel are
  both modelled by `Option.none`.
* `solve_expression` recurses through the identifier map, which need not
  terminate on cyclic maps; it therefore carries fuel that is consumed
  only when an `Identifier` is resolved.  `shake` re-invokes itself on
  rebuilt trees, so it carries fuel consumed at every call.
-/

namespace Tau

/-- `tokeniser::BoolSym` (the operators that can appear in boolean nodes). -/
inductive BoolSym where
  | and
  | or
  | equal
  | greaterThan
  | greaterThanOrEqual
  | lessThan
  | lessThanOrEqual
  deriving DecidableEq, Repr

/-- `tokeniser::MiscSym` (cast targets). -/
inductive MiscSym where
  | int
  | str
  deriving DecidableEq, Repr

/-- `parser::Match` — the quantifier attached to `Expression::Match`. -/
inductive MatchSym where
  | all
  | of (count : Nat)
  deriving DecidableEq, Repr

/-- `parser::MatchType` — per-needle anchoring tag kept alongside a fused
Aho-Corasick automaton. -/
inductive MatchType where
  | contains (value : String)
  | endsWith (value : String)
  | exact (value : String)
  | startsWith (value : String)
  deriving DecidableEq, Repr

/-- `MatchType::value` — the needle string carried by a tag. -/
def MatchType.value : MatchType → String
  | .contains v => v
  | .endsWith v => v
  | .exact v => v
  | .startsWith v => v

/-- Model of a compiled `aho_corasick::AhoCorasick` automaton: the needles
it was built from and the `ascii_case_insensitive` flag.  The `dfa(true)`
build option affects only performance and is not modelled. -/
structure AhoCorasick where
  patterns : List String
  asciiCaseInsensitive : Bool
  deriving DecidableEq, Repr

/-- `parser::Search` — the search kinds a `Expression::Search` node can
carry.  `Regex`/`RegexSet` are modelled by their pattern text (see the
header comment). -/
inductive Search where
  | any
  | exact (value : String)
  | contains (value : String)
  | endsWith (value : String)
  | startsWith (value : String)
  | regex (pattern : String) (insensitive : Bool)
  | regexSet (patterns : List String) (insensitive : Bool)
  | ahoCorasick (automaton : AhoCorasick) (contexts : List MatchType) (insensitive : Bool)
  deriving DecidableEq, Repr

/-- `parser::Expression` — the expression IR.  This is the optimiser's
(newer) shape of the enum: `Search` carries a cast flag and the group,
match, float and null variants are present.  The `f64` payload of `Float`
is never inspected by either pass and is modelled opaquely by an `Int`. -/
inductive Expression where
  | boolean (b : Bool)
  | booleanExpression (left : Expression) (op : BoolSym) (right : Expression)
  | booleanGroup (op : BoolSym) (expressions : List Expression)
  | cast (field : String) (sym : MiscSym)
  | field (name : String)
  | float (bits : Int)
  | identifier (name : String)
  | integer (i : Int)
  | matchExpr (sym : MatchSym) (expression : Expression)
  | negate (expression : Expression)
  | nested (field : String) (expression : Expression)
  | null
  | search (kind : Search) (field : String) (cast : Bool)
  deriving Repr

/-- The identifier map handed to `coalesce` and the solver
(`HashMap<String, Expression>` modelled as an association list). -/
abbrev Identifiers := List (String × Expression)

/-! ## Documents

The `Document` trait and its `Value` sum are external collaborators; the
core only needs `find` plus the `as_*`/`to_*` accessors used by
`solver.rs`.  Documents are modelled as association lists of fields. -/

/-- The document value sum (`value::Value`), restricted to the shapes the
solver inspects. -/
inductive Value where
  | null
  | bool (b : Bool)
  | int (i : Int)
  | str (s : String)
  | arr (values : List Value)
  | obj (fields : List (String × Value))

/-- A document: a mapping from field names to values.  Dotted-path
resolution lives in the document collaborator (out of scope); `find` is
modelled as a plain lookup. -/
abbrev Document := List (String × Value)

/-- `Document::find`. -/
def find (document : Document) (f : String) : Option Value :=
  document.lookup f

/-- `Value::as_str`. -/
def Value.as_str : Value → Option String
  | .str s => some s
  | _ => none

/-- `Value::as_bool`. -/
def Value.as_bool : Value → Option Bool
  | .bool b => some b
  | _ => none

/-- `Value::as_object`. -/
def Value.as_object : Value → Option Document
  | .obj o => some o
  | _ => none

/-- `Value::to_i64` (modelled for the shapes the solver meets: integers
coerce, everything else does not). -/
def Value.to_i64 : Value → Option Int
  | .int i => some i
  | _ => none

/-- `Value::to_string` (modelled: strings yield themselves, integers
render in decimal, other shapes do not coerce). -/
def Value.to_string : Value → Option String
  | .str s => some s
  | .int i => some (ToString.toString i)
  | _ => none

/-! ## String searching primitives -/

/-- Lowercase an ASCII letter, leave everything else unchanged (the fold
used by `ascii_case_insensitive` automata). -/
def asciiLowercase (c : Char) : Char :=
  if 'A' ≤ c ∧ c ≤ 'Z' then Char.ofNat (c.toNat + 32) else c

/-- Apply the ASCII case fold when `insensitive` is set. -/
def caseFold (insensitive : Bool) (l : List Char) : List Char :=
  if insensitive then l.map asciiLowercase else l

/-- `str::contains` with a literal pattern (substring test). -/
def strContains (value pattern : String) : Bool :=
  decide (pattern.data <:+: value.data)

/-- `str::starts_with` with a literal pattern. -/
def strStartsWith (value pattern : String) : Bool :=
  decide (pattern.data <+: value.data)

/-- `str::ends_with` with a literal pattern. -/
def strEndsWith (value pattern : String) : Bool :=
  decide (pattern.data <:+ value.data)

/-- Model of `Regex::is_match` / one member of a `RegexSet`.  The regex
engine is an out-of-scope library primitive (spec §1); no claim below
depends on its verdict, and it is modelled as constantly false. -/
def regexIsMatch (_pattern : String) (_insensitive : Bool) (_value : String) : Bool :=
  false

/-- One overlapping Aho-Corasick hit: the source pattern index and the
span (start inclusive, stop exclusive) it matched at. -/
structure AhoHit where
  pattern : Nat
  start : Nat
  stop : Nat
  deriving DecidableEq, Repr

/-- Does needle `p` of automaton `aut` match `hay` at offset `s`? -/
def needleMatchesAt (aut : AhoCorasick) (hay : List Char) (p : List Char) (s : Nat) : Bool :=
  s + p.length ≤ hay.length &&
    caseFold aut.asciiCaseInsensitive ((hay.drop s).take p.length)
      = caseFold aut.asciiCaseInsensitive p

/-- Model of `AhoCorasick::find_overlapping_iter`: every
`(pattern_index, start, end)` occurrence of a needle in the value.  The
library contract (spec §6) promises exactly these hits; the iteration
order is irrelevant to every statement proved below. -/
def findOverlapping (aut : AhoCorasick) (value : String) : List AhoHit :=
  aut.patterns.enum.flatMap fun ip =>
    (List.range (value.data.length + 1)).filterMap fun s =>
      if needleMatchesAt aut value.data ip.2.data s then
        some ⟨ip.1, s, s + ip.2.data.length⟩
      else
        none

/-! ## The solver (`solver.rs`) -/

/-- `solver::SolverResult` — the tri-valued outcome. -/
inductive SolverResult where
  | true
  | false
  | missing
  deriving DecidableEq, Repr

/-- The hit-consuming loop of the `Search::AhoCorasick` arm of
`solver::search`: walk the overlapping hits and return `True` on the
first hit whose context tag accepts its span; `False` when the hits are
exhausted.  `len` is `value.len()`.  An out-of-range pattern index would
panic in Rust (`m[i.pattern()]`); it cannot occur for automata built by
`shake` (contexts and needles have equal length) and is skipped here. -/
def ahoLoop (contexts : List MatchType) (len : Nat) : List AhoHit → SolverResult
  | [] => .false
  | hit :: rest =>
    match contexts.get? hit.pattern with
    | some (.contains _) => .true
    | some (.endsWith _) =>
      if hit.stop = len then .true else ahoLoop contexts len rest
    | some (.exact _) =>
      if hit.start = 0 ∧ hit.stop = len then .true else ahoLoop contexts len rest
    | some (.startsWith _) =>
      if hit.start = 0 then .true else ahoLoop contexts len rest
    | none => ahoLoop contexts len rest

/-- `solver::search` — match one search kind against one string value.
The `Any` and `RegexSet` kinds are absent from the solver in `src`
(it predates them); they are modelled from the spec (§4.2.4): `Any`
succeeds on any string value, `RegexSet` succeeds when any member
matches. -/
def search (kind : Search) (value : String) : SolverResult :=
  match kind with
  | .exact i => if i = value then .true else .false
  | .contains i => if strContains value i then .true else .false
  | .endsWith i => if strEndsWith value i then .true else .false
  | .startsWith i => if strStartsWith value i then .true else .false
  | .regex pattern insensitive =>
    if regexIsMatch pattern insensitive value then .true else .false
  | .regexSet patterns insensitive =>
    if patterns.any (fun p => regexIsMatch p insensitive value) then .true else .false
  | .any => .true
  | .ahoCorasick automaton contexts _ =>
    ahoLoop contexts value.data.length (findOverlapping automaton value)

/-- The array arm of the solver's `Expression::Search` case: walk the
array, search each element that is a string, stop at the first `True`;
otherwise `False`. -/
def searchArr (kind : Search) : List Value → SolverResult
  | [] => .false
  | v :: rest =>
    match v.as_str with
    | some x =>
      match search kind x with
      | .true => .true
      | _ => searchArr kind rest
    | none => searchArr kind rest

/-- Resolve one side of an arithmetic comparison to an `i64`
(`solver.rs` lines 122-181): a `Field` coerces with `to_i64` (absent
field → `Missing`, uncoercible → `False`), a `Cast(_, Int)` coerces by
string-parse, an `Integer` literal stands for itself, anything else is an
invalid side (`False`). -/
def comparisonSide (side : Expression) (document : Document) : Except SolverResult Int :=
  match side with
  | .field f =>
    match find document f with
    | none => .error .missing
    | some i =>
      match i.to_i64 with
      | some v => .ok v
      | none => .error .false
  | .cast c .int =>
    match find document c with
    | none => .error .missing
    | some i =>
      match i.to_string with
      | some v =>
        match v.toInt? with
        | some parsed => .ok parsed
        | none => .error .false
      | none => .error .false
  | .integer i => .ok i
  | _ => .error .false

/-- The comparison arm of the solver's `BooleanExpression` case
(`solver.rs` lines 43-254 minus the And/Or arms): the two edge-case
patterns (`(Cast Str) == (Cast Str)` and `Field == Boolean`, both
requiring the operator to be `Equal`) first, then the arithmetic
comparison over `comparisonSide`. -/
def solveComparison (left : Expression) (op : BoolSym) (right : Expression)
    (document : Document) : Option SolverResult :=
  match left, op, right with
  | .cast l .str, .equal, .cast r .str =>
    match find document l with
    | none => some .missing
    | some x =>
      match x.to_string with
      | none => some SolverResult.false
      | some x =>
        match find document r with
        | none => some .missing
        | some y =>
          match y.to_string with
          | none => some SolverResult.false
          | some y => if x = y then some .true else some SolverResult.false
  | .field l, .equal, .boolean b =>
    match find document l with
    | none => some .missing
    | some x =>
      match x.as_bool with
      | none => some SolverResult.false
      | some x => if x = b then some .true else some SolverResult.false
  | left, op, right =>
    match comparisonSide left document with
    | .error r => some r
    | .ok x =>
      match comparisonSide right document with
      | .error r => some r
      | .ok y =>
        let res : Bool :=
          match op with
          | .equal => x == y
          | .greaterThan => decide (x > y)
          | .greaterThanOrEqual => decide (x ≥ y)
          | .lessThan => decide (x < y)
          | _ => decide (x ≤ y)
        if res then some .true else some SolverResult.false

/-- `solver::solve_expression`.  The Rust recursion is modelled with
fuel consumed at every recursive call (the `Identifier` arm re-enters on
the mapped expression, which need not terminate on cyclic maps);
`none` models fuel exhaustion and the Rust panics (`unreachable!` arms,
an unresolved identifier, and the expression variants that postdate the
solver in `src`: groups, matches, floats and nulls).  The Rust checks
the two `Equal` edge-case patterns before dispatching on the operator;
both live in `solveComparison`, which is reached exactly when the
operator is not And/Or. -/
def solve_expression : Nat → Expression → Identifiers → Document → Option SolverResult
  | 0, _, _, _ => none
  | fuel + 1, expression, identifiers, document =>
  match expression with
  | .booleanExpression left op right =>
    match op with
    | .equal | .greaterThan | .greaterThanOrEqual | .lessThan | .lessThanOrEqual =>
      solveComparison left op right document
    | .and =>
        (solve_expression fuel left identifiers document).bind fun xr =>
          match xr with
          | .false => some SolverResult.false
          | .missing => some .missing
          | .true =>
            (solve_expression fuel right identifiers document).bind fun yr =>
              -- x/y mirror the Rust (matched, missing) pairs
              let x := (Bool.true, Bool.false)
              let y :=
                match yr with
                | .true => (Bool.true, Bool.false)
                | .false => (Bool.false, Bool.false)
                | .missing => (Bool.false, Bool.true)
              some (if x.2 || y.2 then .missing
                    else if x.1 && y.1 then .true else SolverResult.false)
    | .or =>
        (solve_expression fuel left identifiers document).bind fun xr =>
          match xr with
          | .true => some .true
          | _ =>
            let x :=
              match xr with
              | .true => (Bool.true, Bool.false)
              | .false => (Bool.false, Bool.false)
              | .missing => (Bool.false, Bool.true)
            (solve_expression fuel right identifiers document).bind fun yr =>
              let y :=
                match yr with
                | .true => (Bool.true, Bool.false)
                | .false => (Bool.false, Bool.false)
                | .missing => (Bool.false, Bool.true)
              some (if x.1 || y.1 then .true
                    else if x.2 && y.2 then .missing else SolverResult.false)
  | .identifier i =>
    match identifiers.lookup i with
    | some e => solve_expression fuel e identifiers document
    | none => none
  | .negate e =>
    (solve_expression fuel e identifiers document).map fun r =>
      match r with
      | .true => SolverResult.false
      | .false => .true
      | .missing => SolverResult.false
  | .nested s e =>
    match find document s with
    | none => some .missing
    | some (.obj o) => solve_expression fuel e identifiers o
    | some (.arr a) =>
      -- walk the array, recurse on each object element, stop at the
      -- first True; otherwise False
      a.foldl
        (fun acc v =>
          match acc with
          | some SolverResult.true => acc
          | none => none
          | _ =>
            match v.as_object with
            | some x =>
              match solve_expression fuel e identifiers x with
              | some SolverResult.true => some .true
              | some _ => acc
              | none => none
            | none => acc)
        (some SolverResult.false)
    | some _ => some SolverResult.false
  | .search s f _ =>
    match find document f with
    | none => some .missing
    | some (.str x) => some (search s x)
    | some (.arr a) => some (searchArr s a)
    | some _ => some .missing
  | _ => none

/-- `solver::solve` — the public boundary: `Missing` and `False` both
collapse to `false`.  The `Detection` bundle is passed as its two
components. -/
def solve (fuel : Nat) (expression : Expression) (identifiers : Identifiers)
    (document : Document) : Option Bool :=
  (solve_expression fuel expression identifiers document).map fun r =>
    match r with
    | .true => Bool.true
    | .false => Bool.false
    | .missing => Bool.false

/-- The acceptance condition the solver's Aho-Corasick arm applies to one
overlapping hit: the anchoring of the hit's context tag, checked against
the hit's span.  `len` is the length of the searched value. -/
def HitAccepted (contexts : List MatchType) (len : Nat) (hit : AhoHit) : Prop :=
  match contexts.get? hit.pattern with
  | some (.contains _) => True
  | some (.endsWith _) => hit.stop = len
  | some (.exact _) => hit.start = 0 ∧ hit.stop = len
  | some (.startsWith _) => hit.start = 0
  | none => False

/-! ### Concrete inputs used by counterexamples and witnesses -/

/-- Document with `p = "z"` and no `q` field. -/
def docPz : Document := [("p", .str "z")]

/-- A search whose field (`q`) is absent from `docPz`: evaluates Missing. -/
def searchMissingQ : Expression := .search (.exact "x") "q" false

/-- A search that finds `p = "z"` but does not match: evaluates False. -/
def searchFalseP : Expression := .search (.exact "y") "p" false

end Tau

namespace Tau

/-! ## The optimiser: `coalesce` (`optimiser.rs` lines 9-44) -/

mutual

/-- `optimiser::coalesce` — bottom-up traversal replacing every
`Identifier(name)` with a clone of `identifiers[name]` (no recursion
into the substituted value); an unknown name panics in Rust
(`expect("could not get identifier")`), modelled as `none`. -/
def coalesce (expression : Expression) (identifiers : Identifiers) : Option Expression :=
  match expression with
  | .booleanGroup symbol expressions =>
    (coalesceScratch expressions identifiers).map (.booleanGroup symbol ·)
  | .booleanExpression left symbol right => do
    let left ← coalesce left identifiers
    let right ← coalesce right identifiers
    pure (.booleanExpression left symbol right)
  | .identifier i =>
    match identifiers.lookup i with
    | some e => some e
    | none => none
  | .matchExpr symbol e => (coalesce e identifiers).map (.matchExpr symbol ·)
  | .negate e => (coalesce e identifiers).map (.negate ·)
  | .nested f e => (coalesce e identifiers).map (.nested f ·)
  | .boolean b => some (.boolean b)
  | .cast f m => some (.cast f m)
  | .field f => some (.field f)
  | .float x => some (.float x)
  | .integer i => some (.integer i)
  | .null => some .null
  | .search k f c => some (.search k f c)
termination_by sizeOf expression

/-- The `scratch` loop of `coalesce` over a group's children. -/
def coalesceScratch (expressions : List Expression) (identifiers : Identifiers) :
    Option (List Expression) :=
  match expressions with
  | [] => some []
  | e :: rest => do
    let e' ← coalesce e identifiers
    let rest' ← coalesceScratch rest identifiers
    pure (e' :: rest')
termination_by sizeOf expressions

end

mutual

/-- The names of all `Identifier` nodes occurring in an expression. -/
def identOccurs (expression : Expression) : List String :=
  match expression with
  | .identifier i => [i]
  | .booleanGroup _ expressions => identOccursList expressions
  | .booleanExpression left _ right => identOccurs left ++ identOccurs right
  | .matchExpr _ e => identOccurs e
  | .negate e => identOccurs e
  | .nested _ e => identOccurs e
  | _ => []
termination_by sizeOf expression

/-- `identOccurs` over a list of expressions. -/
def identOccursList (expressions : List Expression) : List String :=
  match expressions with
  | [] => []
  | e :: rest => identOccurs e ++ identOccursList rest
termination_by sizeOf expressions

end

/-- The statement of claim C3, as stated: whenever the identifier map's
keys cover every identifier name reachable from `e` — including names
occurring inside mapped expressions — the coalesced result contains no
`Identifier` node whose name is in the map. -/
def coalesceClaim : Prop :=
  ∀ (e : Expression) (identifiers : Identifiers),
    (∀ name ∈ identOccurs e, (identifiers.lookup name).isSome = true) →
    (∀ p ∈ identifiers, ∀ name ∈ identOccurs p.2, (identifiers.lookup name).isSome = true) →
    ∀ r, coalesce e identifiers = some r →
      ∀ name ∈ identOccurs r, identifiers.lookup name = none

/-! ## The optimiser: `shake` (`optimiser.rs` lines 46-394)

The `BooleanGroup(Or)` arm buckets the shaken children into hash maps
keyed by `(field, cast, insensitive)` (needles and patterns) or by field
name (nested); the maps are modelled as insertion-ordered association
lists.  The rebuilt children are then emitted bucket by bucket, each
bucket sorted with the comparator the Rust passes to `sort_by`. -/

/-- The `(field, cast, insensitive)` key of the needle and pattern
buckets. -/
abbrev NeedleKey := String × Bool × Bool

/-- `map.entry(key).or_insert(vec![]).push(value)` on an
insertion-ordered association list. -/
def mapPush {κ α : Type} [BEq κ] (m : List (κ × List α)) (k : κ) (v : α) : List (κ × List α) :=
  match m with
  | [] => [(k, [v])]
  | (k', vs) :: rest =>
    if k == k' then (k', vs ++ [v]) :: rest else (k', vs) :: mapPush rest k v

/-- The accumulators filled by the bucketing loop of the Or arm. -/
structure OrBuckets where
  needles : List (NeedleKey × List (MatchType × String))
  nested : List (String × List Expression)
  patterns : List (NeedleKey × List String)
  any : List Expression
  rest : List Expression

/-- All bucket accumulators start empty. -/
def emptyOrBuckets : OrBuckets := ⟨[], [], [], [], []⟩

/-- One step of the bucketing loop: distribute one shaken child.
Mirrors the `match shaken` in the Or arm: `Nested` children collect per
field; `AhoCorasick` children explode back into their contexts;
anchored literal children contribute `(tag, needle)` under
`(field, cast, false)`; `Any` children are kept verbatim; `Regex` and
`RegexSet` children contribute their pattern text; everything else goes
to `rest`. -/
def classifyOr (acc : OrBuckets) (shaken : Expression) : OrBuckets :=
  match shaken with
  | .nested field e => { acc with nested := mapPush acc.nested field e }
  | .search (.ahoCorasick _ contexts insensitive) field cast =>
    { acc with
      needles := contexts.foldl
        (fun m context => mapPush m (field, cast, insensitive) (context, context.value))
        acc.needles }
  | .search (.contains value) field cast =>
    { acc with needles := mapPush acc.needles (field, cast, false) (.contains value, value) }
  | .search (.endsWith value) field cast =>
    { acc with needles := mapPush acc.needles (field, cast, false) (.endsWith value, value) }
  | .search (.exact value) field cast =>
    { acc with needles := mapPush acc.needles (field, cast, false) (.exact value, value) }
  | .search (.startsWith value) field cast =>
    { acc with needles := mapPush acc.needles (field, cast, false) (.startsWith value, value) }
  | .search .any field cast => { acc with any := acc.any ++ [.search .any field cast] }
  | .search (.regex r insensitive) field cast =>
    { acc with patterns := mapPush acc.patterns (field, cast, insensitive) r }
  | .search (.regexSet rs insensitive) field cast =>
    { acc with
      patterns := rs.foldl (fun m p => mapPush m (field, cast, insensitive) p) acc.patterns }
  | other => { acc with rest := acc.rest ++ [other] }

/-- The per-anchoring output vectors filled from the needles map. -/
structure NeedleOut where
  exact : List Expression
  starts_with : List Expression
  ends_with : List Expression
  contains : List Expression
  aho : List Expression

/-- All needle output vectors start empty. -/
def emptyNeedleOut : NeedleOut := ⟨[], [], [], [], []⟩

/-- Emit one needles-map entry: a case-sensitive key holding exactly one
needle re-emits its original anchored `Search`; any other entry builds
one `AhoCorasick` search over all the entry's needles, whose contexts
are the tags in needle order and whose automaton is built from the raw
strings with the key's case flag. -/
def emitNeedleEntry (out : NeedleOut) (entry : NeedleKey × List (MatchType × String)) :
    NeedleOut :=
  match entry with
  | ((field, cast, insensitive), searches) =>
    match insensitive, searches with
    | false, [single] =>
      match single.1 with
      | .contains v =>
        { out with contains := out.contains ++ [.search (.contains v) field cast] }
      | .endsWith v =>
        { out with ends_with := out.ends_with ++ [.search (.endsWith v) field cast] }
      | .exact v => { out with exact := out.exact ++ [.search (.exact v) field cast] }
      | .startsWith v =>
        { out with starts_with := out.starts_with ++ [.search (.startsWith v) field cast] }
    | insensitive, searches =>
      { out with
        aho := out.aho ++ [.search
          (.ahoCorasick ⟨searches.map Prod.snd, insensitive⟩ (searches.map Prod.fst)
            insensitive)
          field cast] }

/-- Emit one patterns-map entry: a single pattern compiles to a `Regex`
search, several patterns to one `RegexSet` search (the compiled objects
are modelled by their pattern text, so compilation is the identity). -/
def emitPatternEntry (out : List Expression × List Expression)
    (entry : NeedleKey × List String) : List Expression × List Expression :=
  match entry with
  | ((field, cast, insensitive), patterns) =>
    match patterns with
    | [single] => (out.1 ++ [.search (.regex single insensitive) field cast], out.2)
    | patterns => (out.1, out.2 ++ [.search (.regexSet patterns insensitive) field cast])

/-! ### The `sort_by` comparators.

Each Rust comparator compares a key extracted from the two elements and
returns `Equal` when either element is not of the bucket's kind; the
sorted vectors only ever hold elements of their own kind, on which the
boolean `le` functions below agree with the Rust comparators. -/

/-- Sort key of the `exact` bucket: the needle length. -/
def exactLen : Expression → Nat
  | .search (.exact a) _ _ => a.length
  | _ => 0

/-- `exact` is sorted by needle length ascending. -/
def exactLe (x y : Expression) : Bool := exactLen x ≤ exactLen y

/-- Sort key of the `starts_with` bucket. -/
def startsWithLen : Expression → Nat
  | .search (.startsWith a) _ _ => a.length
  | _ => 0

/-- `starts_with` is sorted by needle length ascending. -/
def startsWithLe (x y : Expression) : Bool := startsWithLen x ≤ startsWithLen y

/-- Sort key of the `ends_with` bucket. -/
def endsWithLen : Expression → Nat
  | .search (.endsWith a) _ _ => a.length
  | _ => 0

/-- `ends_with` is sorted by needle length ascending. -/
def endsWithLe (x y : Expression) : Bool := endsWithLen x ≤ endsWithLen y

/-- Sort key of the `contains` bucket. -/
def containsLen : Expression → Nat
  | .search (.contains a) _ _ => a.length
  | _ => 0

/-- `contains` is sorted by needle length ascending. -/
def containsLe (x y : Expression) : Bool := containsLen x ≤ containsLen y

/-- Sort key of the `aho` bucket: context count and case flag. -/
def ahoKey : Expression → Nat × Bool
  | .search (.ahoCorasick _ b case1) _ _ => (b.length, case1)
  | _ => (0, Bool.false)

/-- Lexicographic `≤` on `(Nat, Bool)` with `false < true`. -/
def pairLeNB (a b : Nat × Bool) : Bool :=
  a.1 < b.1 || (a.1 == b.1 && (!a.2 || b.2))

/-- `aho` is sorted descending: `(b.len(), case1).cmp(&(a.len(), case0))`. -/
def ahoLe (x y : Expression) : Bool := pairLeNB (ahoKey y) (ahoKey x)

/-- Strict code-point lexicographic order on char lists.  Under UTF-8
this is the same order as Rust's byte-wise `str::cmp`. -/
def charListLtB : List Char → List Char → Bool
  | [], [] => Bool.false
  | [], _ :: _ => Bool.true
  | _ :: _, [] => Bool.false
  | a :: as, b :: bs =>
    if a.toNat < b.toNat then Bool.true
    else if a.toNat = b.toNat then charListLtB as bs
    else Bool.false

/-- Strict lexicographic order on strings (`str::cmp`). -/
def strLtB (a b : String) : Bool := charListLtB a.data b.data

/-- Sort key of the `regex` bucket: pattern text and case flag. -/
def regexKey : Expression → String × Bool
  | .search (.regex r case0) _ _ => (r, case0)
  | _ => ("", Bool.false)

/-- Lexicographic `≤` on `(String, Bool)` with `false < true`. -/
def pairLeSB (a b : String × Bool) : Bool :=
  strLtB a.1 b.1 || (a.1 == b.1 && (!a.2 || b.2))

/-- `regex` is sorted ascending by `(pattern_text, insensitive)`. -/
def regexLe (x y : Expression) : Bool := pairLeSB (regexKey x) (regexKey y)

/-- Strict lexicographic order on pattern vectors (`Vec<String>::cmp`). -/
def listStrLt : List String → List String → Bool
  | [], [] => Bool.false
  | [], _ :: _ => Bool.true
  | _ :: _, [] => Bool.false
  | a :: as, b :: bs =>
    if strLtB a b then Bool.true else if a == b then listStrLt as bs else Bool.false

/-- Sort key of the `regex_set` bucket: pattern vector and case flag. -/
def regexSetKey : Expression → List String × Bool
  | .search (.regexSet rs case0) _ _ => (rs, case0)
  | _ => ([], Bool.false)

/-- Lexicographic `≤` on `(Vec<String>, Bool)` with `false < true`. -/
def pairLeLB (a b : List String × Bool) : Bool :=
  listStrLt a.1 b.1 || (a.1 == b.1 && (!a.2 || b.2))

/-- `regex_set` is sorted ascending by `(patterns, insensitive)`. -/
def regexSetLe (x y : Expression) : Bool := pairLeLB (regexSetKey x) (regexSetKey y)

/-- Stable insertion of `x` into a sorted list: `x` is placed before
the first element `y` with `le x y`, hence after every earlier element
it ties with. -/
def orderedInsertB {α : Type} (le : α → α → Bool) (x : α) : List α → List α
  | [] => [x]
  | y :: rest => if le x y then x :: y :: rest else y :: orderedInsertB le x rest

/-- Stable sort by a boolean `le`.  Rust's `sort_by` is a stable merge
sort; for a total preorder comparator a stable sort's output is uniquely
determined (same multiset, sorted, ties in input order), so this
insertion sort computes exactly the `sort_by` result. -/
def sortByB {α : Type} (le : α → α → Bool) : List α → List α
  | [] => []
  | x :: rest => orderedInsertB le x (sortByB le rest)

/-- The instruction computed by the binary `BooleanExpression` dispatch
of `shake` after both sides are shaken: keep a result as-is, re-shake a
rebuilt tree, or apply the De Morgan rewrite (shake `left Or right`,
negate, and shake again). -/
inductive CombineStep where
  | keep (e : Expression)
  | reshake (e : Expression)
  | demorgan (left : Expression) (right : Expression)

/-- The binary `BooleanExpression` dispatch of `shake` (`optimiser.rs`
lines 307-362), arm for arm and in the Rust match order, with the
recursive re-invocations reified as `CombineStep` instructions. -/
def combineBool (left : Expression) (symbol : BoolSym) (right : Expression) : CombineStep :=
  match left, symbol, right with
  | .booleanGroup .and l, .and, .booleanGroup .and r => .reshake (.booleanGroup .and (l ++ r))
  | .booleanGroup .and l, .and, r => .reshake (.booleanGroup .and (l ++ [r]))
  | l, .and, .booleanGroup .and r => .reshake (.booleanGroup .and (l :: r))
  | .booleanGroup .or l, .or, .booleanGroup .or r => .reshake (.booleanGroup .or (l ++ r))
  | .booleanGroup .or l, .or, r => .reshake (.booleanGroup .or (l ++ [r]))
  | l, .or, .booleanGroup .or r => .reshake (.booleanGroup .or (l :: r))
  | .booleanExpression x .and y, .and, z => .reshake (.booleanGroup .and [x, y, z])
  | x, .and, .booleanExpression y .and z => .reshake (.booleanGroup .and [x, y, z])
  | .booleanExpression x .or y, .or, z => .reshake (.booleanGroup .or [x, y, z])
  | x, .or, .booleanExpression y .or z => .reshake (.booleanGroup .or [x, y, z])
  | .negate l, .and, .negate r => .demorgan l r
  | l, s, r => .keep (.booleanExpression l s r)

/-- `optimiser::shake`, with fuel consumed at every recursive call
(`none` = fuel exhausted, or the `unreachable!` on a non-And/Or group
symbol).  The group postlude re-shakes when the child count changed,
unwraps singleton groups, and otherwise rebuilds the group. -/
def shake : Nat → Expression → Option Expression
  | 0, _ => none
  | fuel + 1, expression =>
  match expression with
  | .booleanGroup symbol expressions =>
    let length := expressions.length
    (match symbol with
     | .and => expressions.mapM (shake fuel)
     | .or => do
       let shaken ← expressions.mapM (shake fuel)
       let buckets := shaken.foldl classifyOr emptyOrBuckets
       let needleOut := buckets.needles.foldl emitNeedleEntry emptyNeedleOut
       let nestedOut ← buckets.nested.mapM (fun (entry : String × List Expression) =>
         match entry.2 with
         | [e] => (shake fuel e).map (Expression.nested entry.1 ·)
         | es => (shake fuel (.booleanGroup .or es)).map (Expression.nested entry.1 ·))
       let patternOut := buckets.patterns.foldl emitPatternEntry ([], [])
       pure (buckets.any
         ++ sortByB exactLe needleOut.exact
         ++ sortByB startsWithLe needleOut.starts_with
         ++ sortByB endsWithLe needleOut.ends_with
         ++ sortByB containsLe needleOut.contains
         ++ sortByB ahoLe needleOut.aho
         ++ sortByB regexLe patternOut.1
         ++ sortByB regexSetLe patternOut.2
         ++ (buckets.rest ++ nestedOut))
     | _ => none).bind fun out =>
    if out.length ≠ length then
      shake fuel (.booleanGroup symbol out)
    else
      match out with
      | [x] => some x
      | _ => some (.booleanGroup symbol out)
  | .booleanExpression left symbol right => do
    let left ← shake fuel left
    let right ← shake fuel right
    match combineBool left symbol right with
    | .keep e => some e
    | .reshake e => shake fuel e
    | .demorgan l r =>
      (shake fuel (.booleanExpression l .or r)).bind fun inner => shake fuel (.negate inner)
  | .matchExpr .all expression =>
    match expression with
    | .booleanGroup .or expressions => some (.booleanGroup .and expressions)
    | _ => some (.matchExpr .all expression)
  | .negate expression =>
    match expression with
    | .booleanGroup .or expressions =>
      shake fuel (.matchExpr (.of 0) (.booleanGroup .or expressions))
    | .negate inner => shake fuel inner
    | _ => (shake fuel expression).map (.negate ·)
  | .nested field e => (shake fuel e).map (.nested field ·)
  | .boolean b => some (.boolean b)
  | .cast f m => some (.cast f m)
  | .field f => some (.field f)
  | .float x => some (.float x)
  | .identifier i => some (.identifier i)
  | .integer i => some (.integer i)
  | .matchExpr (.of k) e => some (.matchExpr (.of k) e)
  | .null => some .null
  | .search k f c => some (.search k f c)

/-- Modelled from the spec (§4.1, §6): `optimise = shake ∘ coalesce`.
The composition itself lives outside `src` (in the rule loader); both
passes are the `src` functions above. -/
def optimise (fuel : Nat) (expression : Expression) (identifiers : Identifiers) :
    Option Expression :=
  (coalesce expression identifiers).bind (shake fuel)

/-! ### Concrete expressions for the optimiser counterexamples -/

/-- `(¬ Search(Exact "x", q)) And (¬ Search(Exact "y", p))` — the De
Morgan rewrite applies to it. -/
def deMorganInput : Expression :=
  .booleanExpression (.negate (.search (.exact "x") "q" false)) .and
    (.negate (.search (.exact "y") "p" false))

/-- What `shake` rewrites `deMorganInput` into:
`¬ (Search(Exact "x", q) Or Search(Exact "y", p))`. -/
def deMorganShaken : Expression :=
  .negate (.booleanExpression (.search (.exact "x") "q" false) .or
    (.search (.exact "y") "p" false))

/-- `¬ (Null Or (Null Or Null))`: its shake leaves a `Negate` over a
freshly flattened Or-group, which a second shake rewrites again. -/
def negatedOrChain : Expression :=
  .negate (.booleanExpression .null .or (.booleanExpression .null .or .null))

/-- `shake negatedOrChain`. -/
def negatedOrChainShaken : Expression := .negate (.booleanGroup .or [.null, .null, .null])

/-- `shake (shake negatedOrChain)` — not the same expression. -/
def negatedOrChainShakenTwice : Expression :=
  .matchExpr (.of 0) (.booleanGroup .or [.null, .null, .null])

/-! ### Canonical-order and fusion checkers (for §4.1.2 / spec §8) -/

/-- The canonical bucket rank of an Or-group child: `any` (0), `exact`
(1), `starts_with` (2), `ends_with` (3), `contains` (4), `aho` (5),
`regex` (6), `regex_set` (7), everything else (8). -/
def kindRank : Expression → Nat
  | .search .any _ _ => 0
  | .search (.exact _) _ _ => 1
  | .search (.startsWith _) _ _ => 2
  | .search (.endsWith _) _ _ => 3
  | .search (.contains _) _ _ => 4
  | .search (.ahoCorasick _ _ _) _ _ => 5
  | .search (.regex _ _) _ _ => 6
  | .search (.regexSet _ _) _ _ => 7
  | _ => 8

/-- Adjacent-pair check of a boolean `le` along a list. -/
def chainB {α : Type} (le : α → α → Bool) : List α → Bool
  | [] => Bool.true
  | [_] => Bool.true
  | x :: y :: rest => le x y && chainB le (y :: rest)

/-- The canonical order of §4.1.2 as a comparison: buckets in rank order,
and inside a bucket the bucket's own sort comparator (`any` and the
trailing remainder are unsorted). -/
def canonLe (x y : Expression) : Bool :=
  if kindRank x < kindRank y then Bool.true
  else if kindRank x = kindRank y then
    if kindRank x = 1 then exactLe x y
    else if kindRank x = 2 then startsWithLe x y
    else if kindRank x = 3 then endsWithLe x y
    else if kindRank x = 4 then containsLe x y
    else if kindRank x = 5 then ahoLe x y
    else if kindRank x = 6 then regexLe x y
    else if kindRank x = 7 then regexSetLe x y
    else Bool.true
  else Bool.false

/-- Is a child list in the canonical order of §4.1.2?  Equivalent to
splitting into the nine segments: ranks never decrease along the list,
and same-rank neighbours satisfy the bucket's sort order. -/
def canonOrder (xs : List Expression) : Bool := chainB canonLe xs

/-- The `(field, cast)` key of a literal-needle anchored `Search` child
(its bucket key is `(field, cast, false)`); `none` for anything else. -/
def anchoredKey : Expression → Option (String × Bool)
  | .search (.exact _) f c => some (f, c)
  | .search (.contains _) f c => some (f, c)
  | .search (.endsWith _) f c => some (f, c)
  | .search (.startsWith _) f c => some (f, c)
  | _ => none

/-- Are the keys in a list pairwise distinct? -/
def keysDistinct {α : Type} [BEq α] : List α → Bool
  | [] => Bool.true
  | k :: rest => !(rest.contains k) && keysDistinct rest

/-- A fused `AhoCorasick` search is well-aligned when its automaton was
built from exactly the needles of its context tags, in order, with the
matching case flag (other expressions are trivially aligned). -/
def ahoAligned : Expression → Bool
  | .search (.ahoCorasick aut contexts insensitive) _ _ =>
    aut.patterns == contexts.map MatchType.value && aut.asciiCaseInsensitive == insensitive
  | _ => Bool.true

mutual

/-- The child lists of every `BooleanGroup(Or, …)` subterm. -/
def orGroupChildLists : Expression → List (List Expression)
  | .booleanGroup .or xs => xs :: orGroupChildListsL xs
  | .booleanGroup _ xs => orGroupChildListsL xs
  | .booleanExpression l _ r => orGroupChildLists l ++ orGroupChildLists r
  | .matchExpr _ e => orGroupChildLists e
  | .negate e => orGroupChildLists e
  | .nested _ e => orGroupChildLists e
  | _ => []
termination_by e => sizeOf e

/-- `orGroupChildLists` over a list of expressions. -/
def orGroupChildListsL : List Expression → List (List Expression)
  | [] => []
  | e :: rest => orGroupChildLists e ++ orGroupChildListsL rest
termination_by xs => sizeOf xs

end

/-- The statement of claim C5, as stated: every `BooleanGroup(Or, xs)`
anywhere in a shaken expression lists its children in the canonical
order of §4.1.2. -/
def canonicalOrderClaim : Prop :=
  ∀ (n : Nat) (e r : Expression), shake n e = some r →
    ∀ xs ∈ orGroupChildLists r, canonOrder xs = true

/-- The statement of the invariant half of claim C6, as stated: after
`shake`, no Or-group anywhere in the result has two or more
literal-needle `Search` children sharing a `(field, cast, false)` key. -/
def noSharedNeedleKeyClaim : Prop :=
  ∀ (n : Nat) (e r : Expression), shake n e = some r →
    ∀ xs ∈ orGroupChildLists r, keysDistinct (xs.filterMap anchoredKey) = true

/-- The bucket invariants maintained by the classification loop of the
Or arm: `any` holds only `Search(Any)` children, the needles map has
pairwise-distinct keys and nonempty entries whose stored needle is its
tag's value, and `rest` holds only non-`Search` children drawn from the
input list. -/
def ClassifyInv (inputs : List Expression) (b : OrBuckets) : Prop :=
  (∀ x ∈ b.any, ∃ f c, x = Expression.search .any f c) ∧
  (b.needles.map Prod.fst).Nodup ∧
  (∀ en ∈ b.needles, en.2 ≠ [] ∧ ∀ p ∈ en.2, p.2 = p.1.value) ∧
  (∀ x ∈ b.rest, kindRank x = 8 ∧ x ∈ inputs)

/-- The `(field, cast)` keys of the four anchored output vectors, in
emission order. -/
def anchoredOutKeys (out : NeedleOut) : List (String × Bool) :=
  (out.exact ++ out.starts_with ++ out.ends_with ++ out.contains).filterMap anchoredKey

/-- The invariants maintained by the needles-emission loop: each output
vector holds only its own kind of search, fused `AhoCorasick` children
are aligned, and the anchored children carry pairwise-distinct keys all
drawn from `allowed`. -/
def EmitInv (allowed : List NeedleKey) (out : NeedleOut) : Prop :=
  (∀ x ∈ out.exact, ∃ v f c, x = Expression.search (.exact v) f c) ∧
  (∀ x ∈ out.starts_with, ∃ v f c, x = Expression.search (.startsWith v) f c) ∧
  (∀ x ∈ out.ends_with, ∃ v f c, x = Expression.search (.endsWith v) f c) ∧
  (∀ x ∈ out.contains, ∃ v f c, x = Expression.search (.contains v) f c) ∧
  (∀ x ∈ out.aho, ahoAligned x = true ∧
    ∃ aut ctx ins f c, x = Expression.search (.ahoCorasick aut ctx ins) f c) ∧
  (anchoredOutKeys out).Nodup ∧
  (∀ k ∈ anchoredOutKeys out, (k.1, k.2, Bool.false) ∈ allowed)

mutual

/-- Does an expression avoid the `Or` symbol and the `Negate` node
everywhere?  On this fragment `shake` never flattens a fresh Or-group
behind a guard and never re-negates, and is structurally idempotent. -/
def noOrNeg : Expression → Bool
  | .booleanExpression l s r =>
    (match s with | .or => Bool.false | _ => Bool.true) && noOrNeg l && noOrNeg r
  | .booleanGroup s xs =>
    (match s with | .or => Bool.false | _ => Bool.true) && noOrNegL xs
  | .negate _ => Bool.false
  | .matchExpr _ e => noOrNeg e
  | .nested _ e => noOrNeg e
  | _ => Bool.true
termination_by e => sizeOf e

/-- `noOrNeg` over a list of expressions. -/
def noOrNegL : List Expression → Bool
  | [] => Bool.true
  | e :: rest => noOrNeg e && noOrNegL rest
termination_by xs => sizeOf xs

end

mutual

/-- Weighted node count used as the termination measure of `shake`:
every leaf weighs 1, `Negate` weighs 2 (the De Morgan and double-negate
rewrites strip it against a cheaper rewrite product), every other inner
node weighs 1 plus its children. -/
def sizeW : Expression → Nat
  | .booleanExpression l _ r => 1 + sizeW l + sizeW r
  | .booleanGroup _ xs => 1 + sizeWL xs
  | .negate e => 2 + sizeW e
  | .matchExpr _ e => 1 + sizeW e
  | .nested _ e => 1 + sizeW e
  | _ => 1
termination_by e => sizeOf e

/-- `sizeW` summed over a list. -/
def sizeWL : List Expression → Nat
  | [] => 0
  | e :: rest => sizeW e + sizeWL rest
termination_by xs => sizeOf xs

end

mutual

/-- Do all `BooleanGroup` nodes carry an `And` or `Or` symbol?  Any
other group symbol hits the `unreachable!` of `shake` (modelled as
`none`), so this is the code's own well-formedness invariant. -/
def wfGroups : Expression → Bool
  | .booleanExpression l _ r => wfGroups l && wfGroups r
  | .booleanGroup s xs =>
    (match s with | .and => Bool.true | .or => Bool.true | _ => Bool.false) && wfGroupsL xs
  | .negate e => wfGroups e
  | .matchExpr _ e => wfGroups e
  | .nested _ e => wfGroups e
  | _ => Bool.true
termination_by e => sizeOf e

/-- `wfGroups` over a list of expressions. -/
def wfGroupsL : List Expression → Bool
  | [] => Bool.true
  | e :: rest => wfGroups e && wfGroupsL rest
termination_by xs => sizeOf xs

end

/-- The child count of a group, 0 for anything else: the secondary
component of the termination measure (the Or postlude re-shakes with a
strictly shorter child list of possibly equal weight). -/
def glen : Expression → Nat
  | .booleanGroup _ xs => xs.length
  | _ => 0

/-- The termination measure of `shake`: every recursive call strictly
decreases it, so `nu e + 1` units of fuel always suffice. -/
def nu (e : Expression) : Nat := sizeW e * sizeW e + glen e

/-- The weight a nested-bucket entry accounts for: each collected
child `Nested(f, e)` contributed `1 + sizeW e`. -/
def nestedWeight : List (String × List Expression) → Nat
  | [] => 0
  | en :: rest => en.2.length + sizeWL en.2 + nestedWeight rest

/-- The total weight stored in the Or-arm buckets: needle and pattern
entries each emit exactly one weight-1 `Search` node, so they account
for their entry count. -/
def bucketsWeight (b : OrBuckets) : Nat :=
  sizeWL b.any + sizeWL b.rest + b.needles.length + b.patterns.length + nestedWeight b.nested

/-- The number of children the buckets will emit (an upper bound). -/
def bucketsCount (b : OrBuckets) : Nat :=
  b.any.length + b.rest.length + b.needles.length + b.patterns.length + b.nested.length

/-- Total number of children in the needle output vectors. -/
def needleCount (o : NeedleOut) : Nat :=
  o.exact.length + o.starts_with.length + o.ends_with.length + o.contains.length +
    o.aho.length

/-! ## Solver lemmas and claim theorems -/

/-- The array arm of search dispatch computes the existential: it is True
exactly when some element of the array is a string matched by the
search kind. -/
theorem searchArr_eq_true_iff (kind : Search) (vs : List Value) :
    searchArr kind vs = .true ↔ ∃ v ∈ vs, ∃ s, v = Value.str s ∧ search kind s = .true := by
  induction vs with
  | nil => simp [searchArr]
  | cons v rest ih =>
    rw [searchArr]
    cases hv : v.as_str with
    | none =>
      simp only [hv, ih]
      constructor
      · rintro ⟨w, hw, s, rfl, hs⟩
        exact ⟨_, List.mem_cons_of_mem _ hw, s, rfl, hs⟩
      · rintro ⟨w, hw, s, rfl, hs⟩
        rcases List.mem_cons.mp hw with h | h
        · subst h; simp [Value.as_str] at hv
        · exact ⟨_, h, s, rfl, hs⟩
    | some x =>
      have hveq : v = Value.str x := by
        cases v <;> simp_all [Value.as_str]
      subst hveq
      simp only [hv]
      cases hr : search kind x with
      | true =>
        simp only [hr]
        constructor
        · intro _
          exact ⟨_, List.mem_cons_self .., x, rfl, hr⟩
        · intro _; trivial
      | false =>
        simp only [hr, ih]
        constructor
        · rintro ⟨w, hw, s, rfl, hs⟩
          exact ⟨_, List.mem_cons_of_mem _ hw, s, rfl, hs⟩
        · rintro ⟨w, hw, s, hseq, hs⟩
          rcases List.mem_cons.mp hw with h | h
          · subst h; cases hseq; rw [hr] at hs; cases hs
          · exact ⟨_, h, s, hseq, hs⟩
      | missing =>
        simp only [hr, ih]
        constructor
        · rintro ⟨w, hw, s, rfl, hs⟩
          exact ⟨_, List.mem_cons_of_mem _ hw, s, rfl, hs⟩
        · rintro ⟨w, hw, s, hseq, hs⟩
          rcases List.mem_cons.mp hw with h | h
          · subst h; cases hseq; rw [hr] at hs; cases hs
          · exact ⟨_, h, s, hseq, hs⟩

/-- The array arm of search dispatch never yields Missing. -/
theorem searchArr_true_or_false (kind : Search) (vs : List Value) :
    searchArr kind vs = .true ∨ searchArr kind vs = SolverResult.false := by
  induction vs with
  | nil => exact Or.inr rfl
  | cons v rest ih =>
    rw [searchArr]
    cases hv : v.as_str with
    | none => simp only [hv]; exact ih
    | some x =>
      simp only [hv]
      cases hx : search kind x with
      | true => simp only [hx]; exact Or.inl trivial
      | false => simp only [hx]; exact ih
      | missing => simp only [hx]; exact ih

end Tau

namespace Tau

/-- The hit loop of the solver's Aho-Corasick arm is True exactly when
some hit in the list is accepted by its context tag. -/
theorem ahoLoop_eq_true_iff (contexts : List MatchType) (len : Nat) (hits : List AhoHit) :
    ahoLoop contexts len hits = .true ↔ ∃ hit ∈ hits, HitAccepted contexts len hit := by
  induction hits with
  | nil => simp [ahoLoop]
  | cons hit rest ih =>
    rw [ahoLoop]
    cases hc : contexts.get? hit.pattern with
    | none =>
      simp only [hc, ih]
      constructor
      · rintro ⟨w, hw, hacc⟩
        exact ⟨w, List.mem_cons_of_mem _ hw, hacc⟩
      · rintro ⟨w, hw, hacc⟩
        rcases List.mem_cons.mp hw with h | h
        · subst h; rw [HitAccepted, hc] at hacc; cases hacc
        · exact ⟨w, h, hacc⟩
    | some tag =>
      cases tag with
      | contains v =>
        simp only [hc]
        constructor
        · intro _
          exact ⟨hit, List.mem_cons_self .., by rw [HitAccepted, hc]; trivial⟩
        · intro _; trivial
      | endsWith v =>
        simp only [hc]
        by_cases hs : hit.stop = len
        · simp only [hs, if_pos rfl]
          constructor
          · intro _
            exact ⟨hit, List.mem_cons_self .., by rw [HitAccepted, hc]; exact hs⟩
          · intro _; rfl
        · rw [if_neg hs, ih]
          constructor
          · rintro ⟨w, hw, hacc⟩
            exact ⟨w, List.mem_cons_of_mem _ hw, hacc⟩
          · rintro ⟨w, hw, hacc⟩
            rcases List.mem_cons.mp hw with h | h
            · subst h; rw [HitAccepted, hc] at hacc; exact absurd hacc hs
            · exact ⟨w, h, hacc⟩
      | exact v =>
        simp only [hc]
        by_cases hs : hit.start = 0 ∧ hit.stop = len
        · rw [if_pos hs]
          constructor
          · intro _
            exact ⟨hit, List.mem_cons_self .., by rw [HitAccepted, hc]; exact hs⟩
          · intro _; rfl
        · rw [if_neg hs, ih]
          constructor
          · rintro ⟨w, hw, hacc⟩
            exact ⟨w, List.mem_cons_of_mem _ hw, hacc⟩
          · rintro ⟨w, hw, hacc⟩
            rcases List.mem_cons.mp hw with h | h
            · subst h; rw [HitAccepted, hc] at hacc; exact absurd hacc hs
            · exact ⟨w, h, hacc⟩
      | startsWith v =>
        simp only [hc]
        by_cases hs : hit.start = 0
        · simp only [hs, if_pos rfl]
          constructor
          · intro _
            exact ⟨hit, List.mem_cons_self .., by rw [HitAccepted, hc]; exact hs⟩
          · intro _; rfl
        · rw [if_neg hs, ih]
          constructor
          · rintro ⟨w, hw, hacc⟩
            exact ⟨w, List.mem_cons_of_mem _ hw, hacc⟩
          · rintro ⟨w, hw, hacc⟩
            rcases List.mem_cons.mp hw with h | h
            · subst h; rw [HitAccepted, hc] at hacc; exact absurd hacc hs
            · exact ⟨w, h, hacc⟩

/-- The hit loop never yields Missing. -/
theorem ahoLoop_true_or_false (contexts : List MatchType) (len : Nat) (hits : List AhoHit) :
    ahoLoop contexts len hits = .true ∨ ahoLoop contexts len hits = SolverResult.false := by
  induction hits with
  | nil => exact Or.inr rfl
  | cons hit rest ih =>
    rw [ahoLoop]
    cases hc : contexts.get? hit.pattern with
    | none => simp only [hc]; exact ih
    | some tag =>
      cases tag with
      | contains v => simp only [hc]; exact Or.inl trivial
      | endsWith v =>
        simp only [hc]
        by_cases hs : hit.stop = len
        · simp only [hs, if_pos rfl]; exact Or.inl rfl
        · rw [if_neg hs]; exact ih
      | exact v =>
        simp only [hc]
        by_cases hs : hit.start = 0 ∧ hit.stop = len
        · rw [if_pos hs]; exact Or.inl rfl
        · rw [if_neg hs]; exact ih
      | startsWith v =>
        simp only [hc]
        by_cases hs : hit.start = 0
        · simp only [hs, if_pos rfl]; exact Or.inl rfl
        · rw [if_neg hs]; exact ih

/-- C7: for an `AhoCorasick` search evaluated against a string value, the
result is True iff some overlapping hit of the automaton is accepted by
the anchoring of its context tag (`Contains` accepts any hit,
`StartsWith` requires `start = 0`, `EndsWith` requires `end = len`,
`Exact` requires both), and with no accepting hit the result is False. -/
theorem aho_search_anchored_hits (automaton : AhoCorasick) (contexts : List MatchType)
    (insensitive : Bool) (value : String) :
    (search (.ahoCorasick automaton contexts insensitive) value = .true ↔
      ∃ hit ∈ findOverlapping automaton value,
        HitAccepted contexts value.data.length hit)
    ∧ ((¬ ∃ hit ∈ findOverlapping automaton value,
        HitAccepted contexts value.data.length hit) →
      search (.ahoCorasick automaton contexts insensitive) value = SolverResult.false) := by
  constructor
  · exact ahoLoop_eq_true_iff contexts value.data.length (findOverlapping automaton value)
  · intro hno
    rcases ahoLoop_true_or_false contexts value.data.length (findOverlapping automaton value)
      with h | h
    · exact absurd ((ahoLoop_eq_true_iff _ _ _).mp h) hno
    · exact h

end Tau

namespace Tau

/-- C2 counterexample: a document in which the left conjunct evaluates
Missing and the right conjunct evaluates False, yet the conjunction
evaluates Missing — not False as the claimed truth table row
`M And F = F` demands.  The left Missing short-circuits the And before
the right side is consulted. -/
theorem and_missing_false_counterexample :
    solve_expression 1 searchMissingQ [] docPz = some .missing ∧
    solve_expression 1 searchFalseP [] docPz = some SolverResult.false ∧
    solve_expression 2 (.booleanExpression searchMissingQ .and searchFalseP) [] docPz
      = some .missing ∧
    (some SolverResult.missing ≠ some SolverResult.false) :=
  ⟨rfl, rfl, rfl, by decide⟩

/-- C2 (amended): the solver's And evaluates left to right and
short-circuits as soon as the left operand is conclusive False or
Missing; in particular whenever the left operand evaluates Missing the
conjunction evaluates Missing regardless of the right operand (so
`Missing And False = Missing`, not `False`). -/
theorem and_left_missing_short_circuits (fuel : Nat) (left right : Expression)
    (identifiers : Identifiers) (document : Document)
    (h : solve_expression fuel left identifiers document = some .missing) :
    solve_expression (fuel + 1) (.booleanExpression left .and right) identifiers document
      = some .missing := by
  simp only [solve_expression, h, Option.bind]

/-- Witness for `and_left_missing_short_circuits` at a concrete input. -/
theorem and_left_missing_short_circuits_witness :
    solve_expression 1 searchMissingQ [] docPz = some .missing ∧
    solve_expression 2 (.booleanExpression searchMissingQ .and searchFalseP) [] docPz
      = some .missing :=
  ⟨rfl, and_left_missing_short_circuits 1 searchMissingQ searchFalseP [] docPz rfl⟩

/-- C8: search dispatch — a missing field yields Missing; a string value
is matched directly by `search`; an array is matched existentially over
its string elements (via `searchArr`, which computes that existential
and never yields Missing); any other value shape yields Missing. -/
theorem search_dispatch (fuel : Nat) (kind : Search) (f : String) (c : Bool)
    (identifiers : Identifiers) (document : Document) :
    (find document f = none →
      solve_expression (fuel + 1) (.search kind f c) identifiers document = some .missing)
    ∧ (∀ s, find document f = some (.str s) →
      solve_expression (fuel + 1) (.search kind f c) identifiers document
        = some (search kind s))
    ∧ (∀ vs, find document f = some (.arr vs) →
      solve_expression (fuel + 1) (.search kind f c) identifiers document
          = some (searchArr kind vs)
        ∧ (searchArr kind vs = .true ↔ ∃ v ∈ vs, ∃ s, v = Value.str s ∧ search kind s = .true)
        ∧ (searchArr kind vs = .true ∨ searchArr kind vs = SolverResult.false))
    ∧ (∀ v, find document f = some v → (∀ s, v ≠ .str s) → (∀ vs, v ≠ .arr vs) →
      solve_expression (fuel + 1) (.search kind f c) identifiers document = some .missing) := by
  refine ⟨?_, ?_, ?_, ?_⟩
  · intro h
    simp only [solve_expression, h]
  · intro s h
    simp only [solve_expression, h]
  · intro vs h
    exact ⟨by simp only [solve_expression, h],
      searchArr_eq_true_iff kind vs, searchArr_true_or_false kind vs⟩
  · intro v h hstr harr
    cases v with
    | str s => exact absurd rfl (hstr s)
    | arr vs => exact absurd rfl (harr vs)
    | null => simp only [solve_expression, h]
    | bool b => simp only [solve_expression, h]
    | int i => simp only [solve_expression, h]
    | obj o => simp only [solve_expression, h]

/-- Witness for `search_dispatch` at concrete inputs: an absent field,
a string field, an array field and an object field. -/
theorem search_dispatch_witness :
    solve_expression 1 (.search (.exact "y") "absent" false) [] docPz = some .missing ∧
    solve_expression 1 (.search (.exact "z") "p" false) [] docPz
      = some (search (.exact "z") "z") ∧
    solve_expression 1 (.search (.exact "y") "a" false) [] [("a", .arr [.int 3, .str "y"])]
      = some (searchArr (.exact "y") [.int 3, .str "y"]) ∧
    solve_expression 1 (.search (.exact "y") "o" false) [] [("o", .obj [])]
      = some .missing := by
  refine ⟨(search_dispatch 0 (.exact "y") "absent" false [] docPz).1 rfl,
    (search_dispatch 0 (.exact "z") "p" false [] docPz).2.1 "z" rfl,
    ((search_dispatch 0 (.exact "y") "a" false [] [("a", .arr [.int 3, .str "y"])]).2.2.1
      [.int 3, .str "y"] rfl).1,
    (search_dispatch 0 (.exact "y") "o" false [] [("o", .obj [])]).2.2.2 (.obj []) rfl
      (fun s h => by cases h) (fun vs h => by cases h)⟩

/-- C10: when the field holds an array and no element is a string
matched by the search, the result is False (never Missing) — so for
empty arrays and arrays of non-strings too — while a present scalar that
is neither string nor array yields Missing. -/
theorem search_array_false_scalar_missing (fuel : Nat) (kind : Search) (f : String) (c : Bool)
    (identifiers : Identifiers) (document : Document) :
    (∀ vs, find document f = some (.arr vs) →
      (¬ ∃ v ∈ vs, ∃ s, v = Value.str s ∧ search kind s = .true) →
      solve_expression (fuel + 1) (.search kind f c) identifiers document
        = some SolverResult.false)
    ∧ (∀ v, find document f = some v → (∀ s, v ≠ .str s) → (∀ vs, v ≠ .arr vs) →
      solve_expression (fuel + 1) (.search kind f c) identifiers document = some .missing) := by
  constructor
  · intro vs h hno
    have harr : searchArr kind vs = SolverResult.false := by
      rcases searchArr_true_or_false kind vs with ht | hf
      · exact absurd ((searchArr_eq_true_iff kind vs).mp ht) hno
      · exact hf
    simp only [solve_expression, h, harr]
  · intro v h hstr harr
    cases v with
    | str s => exact absurd rfl (hstr s)
    | arr vs => exact absurd rfl (harr vs)
    | null => simp only [solve_expression, h]
    | bool b => simp only [solve_expression, h]
    | int i => simp only [solve_expression, h]
    | obj o => simp only [solve_expression, h]

/-- Witness for `search_array_false_scalar_missing`: an empty array and
an array of non-strings both yield False; an integer field yields
Missing. -/
theorem search_array_false_scalar_missing_witness :
    solve_expression 1 (.search (.exact "y") "a" false) [] [("a", .arr [])]
      = some SolverResult.false ∧
    solve_expression 1 (.search (.exact "y") "a" false) [] [("a", .arr [.int 1, .null])]
      = some SolverResult.false ∧
    solve_expression 1 (.search (.exact "y") "a" false) [] [("a", .int 7)] = some .missing := by
  refine ⟨(search_array_false_scalar_missing 0 (.exact "y") "a" false [] _).1 [] rfl ?_,
    (search_array_false_scalar_missing 0 (.exact "y") "a" false [] _).1 [.int 1, .null] rfl ?_,
    (search_array_false_scalar_missing 0 (.exact "y") "a" false [] _).2 (.int 7) rfl
      (fun s h => by cases h) (fun vs h => by cases h)⟩
  · rintro ⟨v, hv, -⟩
    cases hv
  · rintro ⟨v, hv, s, hs, -⟩
    rcases List.mem_cons.mp hv with h | h
    · subst h; cases hs
    · rcases List.mem_cons.mp h with h' | h'
      · subst h'; cases hs
      · cases h'

end Tau

namespace Tau

/-- Witness for `aho_search_anchored_hits`: fusing `Exact("brown")` with
`StartsWith("foobar")`, the value `"foobarbrown"` is matched — only via
the `StartsWith` hit at offset 0; the `Exact` hit at offset 6 is
rejected by its anchoring. -/
theorem aho_search_anchored_hits_witness :
    search (.ahoCorasick ⟨["brown", "foobar"], false⟩
      [.exact "brown", .startsWith "foobar"] false) "foobarbrown" = .true :=
  (aho_search_anchored_hits ⟨["brown", "foobar"], false⟩
    [.exact "brown", .startsWith "foobar"] false "foobarbrown").1.mpr
    ⟨⟨1, 0, 6⟩, by decide, rfl⟩

end Tau

namespace Tau

/-- A successful association-list lookup pins down a member pair. -/
theorem lookup_mem {α β : Type} [BEq α] [LawfulBEq α] {k : α} {v : β} :
    ∀ {l : List (α × β)}, l.lookup k = some v → (k, v) ∈ l := by
  intro l
  induction l with
  | nil => intro h; cases h
  | cons p rest ih =>
    obtain ⟨a, b⟩ := p
    intro h
    rw [List.lookup] at h
    by_cases he : k == a
    · simp only [he] at h
      cases h
      have hk : k = a := eq_of_beq he
      subst hk
      exact List.mem_cons_self ..
    · have he' : (k == a) = false := by simpa using he
      simp only [he'] at h
      exact List.mem_cons_of_mem _ (ih h)

/-- C3 counterexample: `coalesce` substitutes mapped expressions without
recursing into them, so with `A ↦ Identifier("B")`, `B ↦ Null` the
result of coalescing `Identifier("A")` is `Identifier("B")` — an
`Identifier` node whose name is in the map, although the map's keys
cover every reachable identifier name (including those inside mapped
expressions). -/
theorem coalesce_leaves_mapped_identifier_counterexample : ¬ coalesceClaim := by
  intro h
  have hc : coalesce (.identifier "A") [("A", .identifier "B"), ("B", .null)]
      = some (.identifier "B") := by
    simp [coalesce, List.lookup]
  have hres := h (.identifier "A") [("A", .identifier "B"), ("B", .null)]
    (by
      intro name hname
      simp [identOccurs] at hname
      subst hname
      rfl)
    (by
      intro p hp name hname
      rcases List.mem_cons.mp hp with rfl | hp'
      · simp [identOccurs] at hname
        subst hname
        rfl
      · rcases List.mem_cons.mp hp' with rfl | hp''
        · simp [identOccurs] at hname
        · cases hp'')
    (.identifier "B") hc "B" (by simp [identOccurs])
  simp [List.lookup] at hres

/-- Joint induction for the amended C3: when the map's values contain no
`Identifier` nodes and the keys cover the identifiers of the input,
`coalesce` succeeds and its result contains no `Identifier` at all. -/
theorem coalesce_amended_aux (N : Nat) :
    (∀ (e : Expression) (identifiers : Identifiers), sizeOf e ≤ N →
      (∀ name ∈ identOccurs e, (identifiers.lookup name).isSome = true) →
      (∀ p ∈ identifiers, identOccurs p.2 = []) →
      ∃ r, coalesce e identifiers = some r ∧ identOccurs r = []) ∧
    (∀ (xs : List Expression) (identifiers : Identifiers), sizeOf xs ≤ N →
      (∀ name ∈ identOccursList xs, (identifiers.lookup name).isSome = true) →
      (∀ p ∈ identifiers, identOccurs p.2 = []) →
      ∃ rs, coalesceScratch xs identifiers = some rs ∧ identOccursList rs = []) := by
  induction N using Nat.strong_induction_on with
  | _ N ih =>
    constructor
    · intro e identifiers hsize hkeys hvals
      match e, hsize, hkeys with
      | .identifier i, _, hkeys =>
        have hmem : i ∈ identOccurs (.identifier i) := by simp [identOccurs]
        obtain ⟨v, hv⟩ := Option.isSome_iff_exists.mp (hkeys i hmem)
        refine ⟨v, ?_, hvals (i, v) (lookup_mem hv)⟩
        simp [coalesce, hv]
      | .booleanGroup symbol expressions, hsize, hkeys =>
        have hlt : sizeOf expressions < sizeOf (Expression.booleanGroup symbol expressions) := by
          simp
        obtain ⟨rs, hrs, hocc⟩ := (ih (sizeOf expressions) (by omega)).2 expressions identifiers
          le_rfl (by intro name hname; exact hkeys name (by simp [identOccurs]; exact hname))
          hvals
        exact ⟨.booleanGroup symbol rs, by simp [coalesce, hrs], by simp [identOccurs, hocc]⟩
      | .booleanExpression left symbol right, hsize, hkeys =>
        have hlt : sizeOf left < sizeOf (Expression.booleanExpression left symbol right)
            ∧ sizeOf right < sizeOf (Expression.booleanExpression left symbol right) := by
          constructor <;> simp <;> omega
        obtain ⟨rl, hrl, holl⟩ := (ih (sizeOf left) (by omega)).1 left identifiers le_rfl
          (by intro name hname; exact hkeys name (by simp [identOccurs]; exact Or.inl hname))
          hvals
        obtain ⟨rr, hrr, holr⟩ := (ih (sizeOf right) (by omega)).1 right identifiers le_rfl
          (by intro name hname; exact hkeys name (by simp [identOccurs]; exact Or.inr hname))
          hvals
        refine ⟨.booleanExpression rl symbol rr, ?_, by simp [identOccurs, holl, holr]⟩
        simp [coalesce, hrl, hrr]
      | .matchExpr symbol e1, hsize, hkeys =>
        obtain ⟨r, hr, hor⟩ := (ih (sizeOf e1) (by simp at hsize; omega)).1 e1 identifiers le_rfl
          (by intro name hname; exact hkeys name (by simp [identOccurs]; exact hname)) hvals
        exact ⟨.matchExpr symbol r, by simp [coalesce, hr], by simp [identOccurs, hor]⟩
      | .negate e1, hsize, hkeys =>
        obtain ⟨r, hr, hor⟩ := (ih (sizeOf e1) (by simp at hsize; omega)).1 e1 identifiers le_rfl
          (by intro name hname; exact hkeys name (by simp [identOccurs]; exact hname)) hvals
        exact ⟨.negate r, by simp [coalesce, hr], by simp [identOccurs, hor]⟩
      | .nested f e1, hsize, hkeys =>
        obtain ⟨r, hr, hor⟩ := (ih (sizeOf e1) (by simp at hsize; omega)).1 e1 identifiers le_rfl
          (by intro name hname; exact hkeys name (by simp [identOccurs]; exact hname)) hvals
        exact ⟨.nested f r, by simp [coalesce, hr], by simp [identOccurs, hor]⟩
      | .boolean b, _, _ => exact ⟨.boolean b, by simp [coalesce], by simp [identOccurs]⟩
      | .cast f m, _, _ => exact ⟨.cast f m, by simp [coalesce], by simp [identOccurs]⟩
      | .field f, _, _ => exact ⟨.field f, by simp [coalesce], by simp [identOccurs]⟩
      | .float x, _, _ => exact ⟨.float x, by simp [coalesce], by simp [identOccurs]⟩
      | .integer i, _, _ => exact ⟨.integer i, by simp [coalesce], by simp [identOccurs]⟩
      | .null, _, _ => exact ⟨.null, by simp [coalesce], by simp [identOccurs]⟩
      | .search k f c, _, _ => exact ⟨.search k f c, by simp [coalesce], by simp [identOccurs]⟩
    · intro xs identifiers hsize hkeys hvals
      match xs, hsize, hkeys with
      | [], _, _ => exact ⟨[], by simp [coalesceScratch], by simp [identOccursList]⟩
      | e :: rest, hsize, hkeys =>
        have h1 : sizeOf e < sizeOf (e :: rest) ∧ sizeOf rest < sizeOf (e :: rest) := by
          constructor <;> simp <;> omega
        obtain ⟨r, hr, hor⟩ := (ih (sizeOf e) (by omega)).1 e identifiers le_rfl
          (by intro name hname; exact hkeys name (by simp [identOccursList]; exact Or.inl hname))
          hvals
        obtain ⟨rs, hrs, hors⟩ := (ih (sizeOf rest) (by omega)).2 rest identifiers le_rfl
          (by intro name hname; exact hkeys name (by simp [identOccursList]; exact Or.inr hname))
          hvals
        refine ⟨r :: rs, ?_, by simp [identOccursList, hor, hors]⟩
        simp [coalesceScratch, hr, hrs]

/-- C3 (amended): if the identifier map's keys cover every identifier
name occurring in `e` and the mapped expressions themselves contain no
`Identifier` nodes, then `coalesce` succeeds and its result contains no
`Identifier` node at all — in particular none whose name is in the
map.  (As stated, the claim is false: `coalesce` does not recurse into
substituted values, see the counterexample.) -/
theorem coalesce_removes_identifiers (e : Expression) (identifiers : Identifiers)
    (hkeys : ∀ name ∈ identOccurs e, (identifiers.lookup name).isSome = true)
    (hvals : ∀ p ∈ identifiers, identOccurs p.2 = []) :
    ∃ r, coalesce e identifiers = some r ∧ identOccurs r = [] ∧
      ∀ name ∈ identOccurs r, ¬ (identifiers.lookup name).isSome = true := by
  obtain ⟨r, hc, hocc⟩ := (coalesce_amended_aux (sizeOf e)).1 e identifiers le_rfl hkeys hvals
  exact ⟨r, hc, hocc, by simp [hocc]⟩

/-- Witness for `coalesce_removes_identifiers` at a concrete input. -/
theorem coalesce_removes_identifiers_witness :
    ∃ r, coalesce (.booleanExpression (.identifier "A") .and (.identifier "A"))
        [("A", Expression.null)] = some r ∧ identOccurs r = [] ∧
      ∀ name ∈ identOccurs r,
        ¬ ((([("A", Expression.null)] : Identifiers).lookup name).isSome = true) :=
  coalesce_removes_identifiers _ _
    (by
      intro name hname
      simp [identOccurs] at hname
      subst hname
      rfl)
    (by
      intro p hp
      rcases List.mem_cons.mp hp with rfl | hp'
      · simp [identOccurs]
      · cases hp')

end Tau

namespace Tau

/-- C1: optimisation does not preserve the public solve verdict.  On the
document `{p: "z"}` (no `q` field) the original expression
`(¬ Search(Exact "x", q)) And (¬ Search(Exact "y", p))` solves to
`false` — the left search is Missing, its negation False, and the And
short-circuits — while its optimised form
`¬ (Search(Exact "x", q) Or Search(Exact "y", p))` solves to `true`,
because the code's Or arm turns `Missing Or False` into False, which the
negation flips to True.  The spec's own connective tables (§4.2.1) make
the De Morgan rewrite sound; the solver's deviating And/Or arms break
it. -/
theorem optimise_changes_solve_at_failing_input :
    optimise 9 deMorganInput [] = some deMorganShaken ∧
    solve 9 deMorganInput [] docPz = some Bool.false ∧
    solve 9 deMorganShaken [] docPz = some Bool.true ∧
    solve 9 deMorganInput [] docPz ≠ solve 9 deMorganShaken [] docPz := by
  have hc : coalesce deMorganInput [] = some deMorganInput := by
    simp [coalesce, deMorganInput]
  refine ⟨?_, rfl, rfl, by decide⟩
  simp only [optimise, hc, Option.bind]
  rfl

/-- C4 counterexample: `shake` (hence `optimise`) is not structurally
idempotent.  Shaking `¬ (Null Or (Null Or Null))` gives
`¬ BooleanGroup(Or, [Null, Null, Null])` — the `Negate` arm inspects its
operand before shaking it, so it misses the Or-group that flattening
produces — while shaking a second time rewrites that result to
`Match(Of(0), BooleanGroup(Or, [Null, Null, Null]))`. -/
theorem shake_not_idempotent_counterexample :
    shake 9 negatedOrChain = some negatedOrChainShaken ∧
    shake 9 negatedOrChainShaken = some negatedOrChainShakenTwice ∧
    negatedOrChainShaken ≠ negatedOrChainShakenTwice ∧
    optimise 9 negatedOrChain [] = some negatedOrChainShaken ∧
    (optimise 9 negatedOrChain []).bind (fun r => optimise 9 r [])
      = some negatedOrChainShakenTwice := by
  have hc : coalesce negatedOrChain [] = some negatedOrChain := by
    simp [coalesce, negatedOrChain]
  have hc2 : coalesce negatedOrChainShaken [] = some negatedOrChainShaken := by
    simp [coalesce, coalesceScratch, negatedOrChainShaken]
  have h1 : optimise 9 negatedOrChain [] = some negatedOrChainShaken := by
    simp only [optimise, hc, Option.bind]
    rfl
  refine ⟨rfl, rfl, fun h => Expression.noConfusion h, h1, ?_⟩
  rw [h1]
  simp only [Option.bind, optimise, hc2]
  rfl

end Tau

namespace Tau

/-- C5 counterexample: `shake` passes `Match(Of(k), …)` operands through
untouched, so a shaken result can contain an Or-group whose children are
not in canonical order (here two `Exact` needles with descending
lengths). -/
theorem canonical_order_claim_counterexample : ¬ canonicalOrderClaim := by
  intro h
  have hmem : ([.search (.exact "bb") "f" false, .search (.exact "a") "f" false] :
      List Expression) ∈ orGroupChildLists
        (.matchExpr (.of 1) (.booleanGroup .or
          [.search (.exact "bb") "f" false, .search (.exact "a") "f" false])) := by
    simp [orGroupChildLists, orGroupChildListsL]
  have hc := h 5
    (.matchExpr (.of 1) (.booleanGroup .or
      [.search (.exact "bb") "f" false, .search (.exact "a") "f" false]))
    (.matchExpr (.of 1) (.booleanGroup .or
      [.search (.exact "bb") "f" false, .search (.exact "a") "f" false]))
    rfl _ hmem
  exact absurd hc (by decide)

/-- C6 counterexample: `shake` passes `Match(Of(k), …)` operands through
untouched, so a shaken result can contain an Or-group with two
literal-needle `Search` children sharing the `(field, cast, false)` key
`("f", false, false)`. -/
theorem no_shared_needle_key_claim_counterexample : ¬ noSharedNeedleKeyClaim := by
  intro h
  have hmem : ([.search (.exact "a") "f" false, .search (.exact "b") "f" false] :
      List Expression) ∈ orGroupChildLists
        (.matchExpr (.of 1) (.booleanGroup .or
          [.search (.exact "a") "f" false, .search (.exact "b") "f" false])) := by
    simp [orGroupChildLists, orGroupChildListsL]
  have hc := h 5
    (.matchExpr (.of 1) (.booleanGroup .or
      [.search (.exact "a") "f" false, .search (.exact "b") "f" false]))
    (.matchExpr (.of 1) (.booleanGroup .or
      [.search (.exact "a") "f" false, .search (.exact "b") "f" false]))
    rfl _ hmem
  exact absurd hc (by decide)

end Tau

namespace Tau

/-! ### Sorting and chain infrastructure -/

theorem chainB_cons₂ {α : Type} (le : α → α → Bool) (x y : α) (t : List α) :
    chainB le (x :: y :: t) = (le x y && chainB le (y :: t)) := rfl

theorem orderedInsertB_perm {α : Type} (le : α → α → Bool) (x : α) :
    ∀ l : List α, (orderedInsertB le x l).Perm (x :: l) := by
  intro l
  induction l with
  | nil => rfl
  | cons y rest ih =>
    rw [orderedInsertB]
    by_cases h : le x y
    · rw [if_pos h]
    · rw [if_neg h]
      exact (ih.cons y).trans (List.Perm.swap x y rest)

theorem sortByB_perm {α : Type} (le : α → α → Bool) :
    ∀ l : List α, (sortByB le l).Perm l := by
  intro l
  induction l with
  | nil => rfl
  | cons x rest ih =>
    rw [sortByB]
    exact (orderedInsertB_perm le x (sortByB le rest)).trans (ih.cons x)

theorem mem_sortByB {α : Type} {le : α → α → Bool} {x : α} {l : List α} :
    x ∈ sortByB le l ↔ x ∈ l :=
  (sortByB_perm le l).mem_iff

theorem chainB_orderedInsertB {α : Type} {le : α → α → Bool}
    (htot : ∀ a b, le a b = true ∨ le b a = true) (x : α) :
    ∀ {l : List α}, chainB le l = true → chainB le (orderedInsertB le x l) = true := by
  intro l
  induction l with
  | nil => intro _; rfl
  | cons y rest ih =>
    intro hc
    rw [orderedInsertB]
    by_cases h : le x y
    · rw [if_pos h, chainB_cons₂, h, Bool.true_and]
      exact hc
    · rw [if_neg h]
      have hyx : le y x = true := (htot x y).resolve_left h
      cases rest with
      | nil =>
        rw [show orderedInsertB le x [] = [x] from rfl, chainB_cons₂, hyx, Bool.true_and]
        rfl
      | cons z rest' =>
        have hc' : chainB le (z :: rest') = true := by
          rw [chainB_cons₂] at hc
          exact (Bool.and_eq_true_iff.mp hc).2
        have hyz : le y z = true := by
          rw [chainB_cons₂] at hc
          exact (Bool.and_eq_true_iff.mp hc).1
        have hins := ih hc'
        rw [orderedInsertB]
        by_cases h2 : le x z
        · rw [if_pos h2, chainB_cons₂, hyx, Bool.true_and, chainB_cons₂, h2, Bool.true_and]
          exact hc'
        · rw [if_neg h2]
          have hstep := hins
          rw [orderedInsertB, if_neg h2] at hstep
          rw [chainB_cons₂, hyz, Bool.true_and]
          exact hstep

theorem chainB_sortByB {α : Type} {le : α → α → Bool}
    (htot : ∀ a b, le a b = true ∨ le b a = true) :
    ∀ l : List α, chainB le (sortByB le l) = true := by
  intro l
  induction l with
  | nil => rfl
  | cons x rest ih =>
    rw [sortByB]
    exact chainB_orderedInsertB htot x ih

theorem chainB_append {α : Type} {le : α → α → Bool} :
    ∀ {xs ys : List α}, chainB le xs = true → chainB le ys = true →
      (∀ x ∈ xs, ∀ y ∈ ys, le x y = true) → chainB le (xs ++ ys) = true := by
  intro xs
  induction xs with
  | nil => intro ys _ hy _; exact hy
  | cons x rest ih =>
    intro ys hx hy hcross
    cases rest with
    | nil =>
      cases ys with
      | nil => rfl
      | cons y t =>
        rw [List.singleton_append, chainB_cons₂,
          hcross x (List.mem_cons_self ..) y (List.mem_cons_self ..), Bool.true_and]
        exact hy
    | cons x2 t =>
      rw [chainB_cons₂] at hx
      obtain ⟨h1, h2⟩ := Bool.and_eq_true_iff.mp hx
      have hrec := ih h2 hy (fun a ha b hb => hcross a (List.mem_cons_of_mem _ ha) b hb)
      rw [List.cons_append] at hrec
      rw [List.cons_append, List.cons_append, chainB_cons₂, h1, Bool.true_and]
      exact hrec

theorem chainB_of_imp {α : Type} {le1 le2 : α → α → Bool} :
    ∀ {l : List α}, (∀ x ∈ l, ∀ y ∈ l, le1 x y = true → le2 x y = true) →
      chainB le1 l = true → chainB le2 l = true := by
  intro l
  induction l with
  | nil => intro _ _; rfl
  | cons x rest ih =>
    intro himp hc
    cases rest with
    | nil => rfl
    | cons y t =>
      rw [chainB_cons₂] at hc ⊢
      obtain ⟨h1, h2⟩ := Bool.and_eq_true_iff.mp hc
      rw [himp x (List.mem_cons_self ..) y (List.mem_cons_of_mem _ (List.mem_cons_self ..)) h1,
        Bool.true_and]
      exact ih (fun a ha b hb => himp a (List.mem_cons_of_mem _ ha) b (List.mem_cons_of_mem _ hb))
        h2

theorem chainB_of_pairs {α : Type} {le : α → α → Bool} :
    ∀ {l : List α}, (∀ x ∈ l, ∀ y ∈ l, le x y = true) → chainB le l = true := by
  intro l
  induction l with
  | nil => intro _; rfl
  | cons x rest ih =>
    intro hp
    cases rest with
    | nil => rfl
    | cons y t =>
      rw [chainB_cons₂, hp x (List.mem_cons_self ..) y
        (List.mem_cons_of_mem _ (List.mem_cons_self ..)), Bool.true_and]
      exact ih (fun a ha b hb => hp a (List.mem_cons_of_mem _ ha) b (List.mem_cons_of_mem _ hb))

end Tau

namespace Tau

/-! ### Totality of the bucket comparators -/

theorem exactLe_total (a b : Expression) : exactLe a b = true ∨ exactLe b a = true := by
  simp [exactLe]
  omega

theorem startsWithLe_total (a b : Expression) :
    startsWithLe a b = true ∨ startsWithLe b a = true := by
  simp [startsWithLe]
  omega

theorem endsWithLe_total (a b : Expression) :
    endsWithLe a b = true ∨ endsWithLe b a = true := by
  simp [endsWithLe]
  omega

theorem containsLe_total (a b : Expression) :
    containsLe a b = true ∨ containsLe b a = true := by
  simp [containsLe]
  omega

theorem pairLeNB_total (a b : Nat × Bool) : pairLeNB a b = true ∨ pairLeNB b a = true := by
  rcases Nat.lt_trichotomy a.1 b.1 with h | h | h
  · left; simp [pairLeNB, h]
  · cases ha : a.2 <;> cases hb : b.2 <;> simp [pairLeNB, h, ha, hb]
  · right; simp [pairLeNB, h]

theorem ahoLe_total (a b : Expression) : ahoLe a b = true ∨ ahoLe b a = true := by
  rcases pairLeNB_total (ahoKey b) (ahoKey a) with h | h
  · left; exact h
  · right; exact h

theorem charListLtB_connex :
    ∀ as bs : List Char, charListLtB as bs = false → charListLtB bs as = false → as = bs := by
  intro as
  induction as with
  | nil =>
    intro bs h1 _
    cases bs with
    | nil => rfl
    | cons b t => simp [charListLtB] at h1
  | cons a t ih =>
    intro bs h1 h2
    cases bs with
    | nil => simp [charListLtB] at h2
    | cons b t2 =>
      rw [charListLtB] at h1 h2
      by_cases hab : a.toNat < b.toNat
      · rw [if_pos hab] at h1; cases h1
      · rw [if_neg hab] at h1
        by_cases hba : b.toNat < a.toNat
        · rw [if_pos hba] at h2; cases h2
        · rw [if_neg hba] at h2
          have heq : a.toNat = b.toNat := by omega
          rw [if_pos heq] at h1
          rw [if_pos heq.symm] at h2
          have hchar : a = b := Char.ext (UInt32.ext heq)
          rw [hchar, ih t2 h1 h2]

theorem strLtB_connex {a b : String} (h1 : strLtB a b = false) (h2 : strLtB b a = false) :
    a = b := by
  cases a with
  | mk da =>
    cases b with
    | mk db =>
      rw [strLtB] at h1 h2
      rw [charListLtB_connex da db h1 h2]

theorem pairLeSB_total (a b : String × Bool) : pairLeSB a b = true ∨ pairLeSB b a = true := by
  cases h1 : strLtB a.1 b.1 with
  | true => left; simp [pairLeSB, h1]
  | false =>
    cases h2 : strLtB b.1 a.1 with
    | true => right; simp [pairLeSB, h2]
    | false =>
      have heq : a.1 = b.1 := strLtB_connex h1 h2
      cases ha : a.2 <;> cases hb : b.2 <;> simp [pairLeSB, h1, h2, heq, ha, hb]

theorem regexLe_total (a b : Expression) : regexLe a b = true ∨ regexLe b a = true :=
  pairLeSB_total (regexKey a) (regexKey b)

theorem listStrLt_connex :
    ∀ as bs : List String, listStrLt as bs = false → listStrLt bs as = false → as = bs := by
  intro as
  induction as with
  | nil =>
    intro bs h1 _
    cases bs with
    | nil => rfl
    | cons b t => simp [listStrLt] at h1
  | cons a t ih =>
    intro bs h1 h2
    cases bs with
    | nil => simp [listStrLt] at h2
    | cons b t2 =>
      rw [listStrLt] at h1 h2
      cases hab : strLtB a b with
      | true => rw [hab] at h1; cases h1
      | false =>
        cases hba : strLtB b a with
        | true => rw [hba] at h2; cases h2
        | false =>
          have heq : a = b := strLtB_connex hab hba
          have h1' : listStrLt t t2 = false := by
            simpa [hab, beq_iff_eq.mpr heq] using h1
          have h2' : listStrLt t2 t = false := by
            simpa [hba, beq_iff_eq.mpr heq.symm] using h2
          rw [heq, ih t2 h1' h2']

theorem pairLeLB_total (a b : List String × Bool) :
    pairLeLB a b = true ∨ pairLeLB b a = true := by
  cases h1 : listStrLt a.1 b.1 with
  | true => left; simp [pairLeLB, h1]
  | false =>
    cases h2 : listStrLt b.1 a.1 with
    | true => right; simp [pairLeLB, h2]
    | false =>
      have heq : a.1 = b.1 := listStrLt_connex a.1 b.1 h1 h2
      cases ha : a.2 <;> cases hb : b.2 <;> simp [pairLeLB, h1, h2, heq, ha, hb]

theorem regexSetLe_total (a b : Expression) : regexSetLe a b = true ∨ regexSetLe b a = true :=
  pairLeLB_total (regexSetKey a) (regexSetKey b)

end Tau

namespace Tau

/-! ### Rank and bucket-map lemmas -/

theorem canonLe_of_rank_lt {x y : Expression} (h : kindRank x < kindRank y) :
    canonLe x y = true := by
  simp [canonLe, h]

theorem mapPush_keys {κ α : Type} [BEq κ] [LawfulBEq κ] (m : List (κ × List α)) (k : κ)
    (v : α) :
    ((mapPush m k v).map Prod.fst = m.map Prod.fst ∧ k ∈ m.map Prod.fst) ∨
      ((mapPush m k v).map Prod.fst = m.map Prod.fst ++ [k] ∧ k ∉ m.map Prod.fst) := by
  induction m with
  | nil =>
    right
    exact ⟨rfl, by simp⟩
  | cons en rest ih =>
    obtain ⟨k', vs⟩ := en
    rw [mapPush]
    by_cases h : (k == k') = true
    · left
      rw [if_pos h]
      exact ⟨by simp, by simp [beq_iff_eq.mp h]⟩
    · rw [if_neg h]
      have hne : k ≠ k' := fun he => h (beq_iff_eq.mpr he)
      rcases ih with ⟨he, hm⟩ | ⟨he, hm⟩
      · left
        refine ⟨by simp [he], ?_⟩
        rw [List.map_cons]
        exact List.mem_cons_of_mem _ hm
      · right
        refine ⟨by simp [he], ?_⟩
        rw [List.map_cons]
        intro hmem
        rcases List.mem_cons.mp hmem with he2 | hm2
        · exact hne he2
        · exact hm hm2

theorem mapPush_keys_nodup {κ α : Type} [BEq κ] [LawfulBEq κ] {m : List (κ × List α)}
    {k : κ} {v : α} (h : (m.map Prod.fst).Nodup) : ((mapPush m k v).map Prod.fst).Nodup := by
  rcases mapPush_keys m k v with ⟨he, _⟩ | ⟨he, hm⟩
  · rw [he]; exact h
  · rw [he]
    exact h.append (List.nodup_singleton k) (by
      intro a ha hb
      rw [List.mem_singleton] at hb
      subst hb
      exact hm ha)

theorem mapPush_entries {κ α : Type} [BEq κ] (P : α → Prop) {m : List (κ × List α)}
    {k : κ} {v : α} (hv : P v) (hm : ∀ en ∈ m, en.2 ≠ [] ∧ ∀ p ∈ en.2, P p) :
    ∀ en ∈ mapPush m k v, en.2 ≠ [] ∧ ∀ p ∈ en.2, P p := by
  induction m with
  | nil =>
    intro en hen
    rw [mapPush] at hen
    rw [List.mem_singleton] at hen
    subst hen
    exact ⟨by simp, by intro p hp; rw [List.mem_singleton] at hp; subst hp; exact hv⟩
  | cons en0 rest ih =>
    obtain ⟨k', vs⟩ := en0
    intro en hen
    rw [mapPush] at hen
    by_cases h : (k == k') = true
    · rw [if_pos h] at hen
      rcases List.mem_cons.mp hen with rfl | hmem
      · have h0 := hm (k', vs) (List.mem_cons_self ..)
        refine ⟨by simp, ?_⟩
        intro p hp
        rcases List.mem_append.mp hp with hp | hp
        · exact h0.2 p hp
        · rw [List.mem_singleton] at hp; subst hp; exact hv
      · exact hm en (List.mem_cons_of_mem _ hmem)
    · rw [if_neg h] at hen
      rcases List.mem_cons.mp hen with rfl | hmem
      · exact hm _ (List.mem_cons_self ..)
      · exact ih (fun e he => hm e (List.mem_cons_of_mem _ he)) en hmem

end Tau

namespace Tau

theorem foldl_mapPush_inv {κ α β : Type} [BEq κ] [LawfulBEq κ] (P : α → Prop) (key : κ)
    (g : β → α) (hg : ∀ c, P (g c)) :
    ∀ (cs : List β) (m : List (κ × List α)), (m.map Prod.fst).Nodup →
      (∀ en ∈ m, en.2 ≠ [] ∧ ∀ p ∈ en.2, P p) →
      ((cs.foldl (fun m c => mapPush m key (g c)) m).map Prod.fst).Nodup ∧
      (∀ en ∈ cs.foldl (fun m c => mapPush m key (g c)) m, en.2 ≠ [] ∧ ∀ p ∈ en.2, P p) := by
  intro cs
  induction cs with
  | nil => intro m h1 h2; exact ⟨h1, h2⟩
  | cons c rest ih =>
    intro m h1 h2
    exact ih (mapPush m key (g c)) (mapPush_keys_nodup h1) (mapPush_entries P (hg c) h2)

theorem classifyOr_inv {inputs : List Expression} {b : OrBuckets}
    (hb : ClassifyInv inputs b) {x : Expression} (hx : x ∈ inputs) :
    ClassifyInv inputs (classifyOr b x) := by
  obtain ⟨h1, h2, h3, h4⟩ := hb
  have hrest : ∀ (b : OrBuckets), ClassifyInv inputs b → kindRank x = 8 →
      ClassifyInv inputs { b with rest := b.rest ++ [x] } := by
    intro b hb hrank
    refine ⟨hb.1, hb.2.1, hb.2.2.1, ?_⟩
    intro y hy
    rcases List.mem_append.mp hy with hy | hy
    · exact hb.2.2.2 y hy
    · rw [List.mem_singleton] at hy
      subst hy
      exact ⟨hrank, hx⟩
  cases x with
  | nested f e => exact ⟨h1, h2, h3, h4⟩
  | search k f c =>
    cases k with
    | any =>
      refine ⟨?_, h2, h3, h4⟩
      intro y hy
      rcases List.mem_append.mp hy with hy | hy
      · exact h1 y hy
      · rw [List.mem_singleton] at hy
        subst hy
        exact ⟨f, c, rfl⟩
    | exact v => exact ⟨h1, mapPush_keys_nodup h2, mapPush_entries _ rfl h3, h4⟩
    | contains v => exact ⟨h1, mapPush_keys_nodup h2, mapPush_entries _ rfl h3, h4⟩
    | endsWith v => exact ⟨h1, mapPush_keys_nodup h2, mapPush_entries _ rfl h3, h4⟩
    | startsWith v => exact ⟨h1, mapPush_keys_nodup h2, mapPush_entries _ rfl h3, h4⟩
    | regex r ins => exact ⟨h1, h2, h3, h4⟩
    | regexSet rs ins => exact ⟨h1, h2, h3, h4⟩
    | ahoCorasick aut contexts ins =>
      have := foldl_mapPush_inv (fun p => p.2 = p.1.value) (f, c, ins)
        (fun context => (context, context.value)) (fun _ => rfl) contexts b.needles h2 h3
      exact ⟨h1, this.1, this.2, h4⟩
  | boolean v => exact hrest b ⟨h1, h2, h3, h4⟩ rfl
  | booleanExpression l op r => exact hrest b ⟨h1, h2, h3, h4⟩ rfl
  | booleanGroup op xs => exact hrest b ⟨h1, h2, h3, h4⟩ rfl
  | cast f m => exact hrest b ⟨h1, h2, h3, h4⟩ rfl
  | field f => exact hrest b ⟨h1, h2, h3, h4⟩ rfl
  | float v => exact hrest b ⟨h1, h2, h3, h4⟩ rfl
  | identifier i => exact hrest b ⟨h1, h2, h3, h4⟩ rfl
  | integer i => exact hrest b ⟨h1, h2, h3, h4⟩ rfl
  | matchExpr m e => exact hrest b ⟨h1, h2, h3, h4⟩ rfl
  | negate e => exact hrest b ⟨h1, h2, h3, h4⟩ rfl
  | null => exact hrest b ⟨h1, h2, h3, h4⟩ rfl

theorem classify_foldl_inv (inputs : List Expression) :
    ∀ (todo : List Expression) (b : OrBuckets), (∀ x ∈ todo, x ∈ inputs) →
      ClassifyInv inputs b → ClassifyInv inputs (todo.foldl classifyOr b) := by
  intro todo
  induction todo with
  | nil => intro b _ hb; exact hb
  | cons x rest ih =>
    intro b hsub hb
    exact ih (classifyOr b x) (fun y hy => hsub y (List.mem_cons_of_mem _ hy))
      (classifyOr_inv hb (hsub x (List.mem_cons_self ..)))

theorem classifyInv_empty (inputs : List Expression) : ClassifyInv inputs emptyOrBuckets :=
  ⟨fun _ h => absurd h (List.not_mem_nil _), List.nodup_nil, fun _ h => absurd h
    (List.not_mem_nil _), fun _ h => absurd h (List.not_mem_nil _)⟩

end Tau

namespace Tau

theorem perm_of_eq {α : Type} {l1 l2 : List α} (h : l1 = l2) : l1.Perm l2 :=
  h ▸ List.Perm.refl l1

theorem perm_append_singleton_left {α : Type} (x : α) (l1 l2 : List α) :
    (l1 ++ ([x] ++ l2)).Perm ((l1 ++ l2) ++ [x]) := by
  have h : (([x] ++ l2) : List α).Perm (l2 ++ [x]) := List.perm_append_comm
  have h2 := h.append_left l1
  rw [← List.append_assoc l1 l2 [x]] at h2
  exact h2

/-- Inserting one element into the middle of a three-part concatenation
permutes, under `filterMap`, to appending its image at the end. -/
theorem filterMap_insert_perm {β : Type} (g : Expression → Option β)
    (pre mid post : List Expression) (node : Expression) :
    (List.filterMap g (pre ++ ((mid ++ [node]) ++ post))).Perm
      (List.filterMap g (pre ++ (mid ++ post)) ++ List.filterMap g [node]) := by
  rw [List.append_assoc mid]
  have hp := (perm_append_singleton_left node (pre ++ mid) post).filterMap g
  rw [List.append_assoc] at hp
  rw [List.filterMap_append (((pre ++ mid) ++ post)) [node]] at hp
  rw [List.append_assoc] at hp
  exact hp

theorem emitInv_mono {allowed allowed2 : List NeedleKey} {out : NeedleOut}
    (h : EmitInv allowed out) (hsub : ∀ k ∈ allowed, k ∈ allowed2) :
    EmitInv allowed2 out :=
  ⟨h.1, h.2.1, h.2.2.1, h.2.2.2.1, h.2.2.2.2.1, h.2.2.2.2.2.1,
    fun k hk => hsub _ (h.2.2.2.2.2.2 k hk)⟩

/-- Inserting one anchored search with a fresh key into one of the four
anchored output vectors preserves the key-distinctness invariants. -/
theorem anchored_insert_nodup {allowed : List NeedleKey} {out : NeedleOut}
    (h : EmitInv allowed out) {keysNew : List (String × Bool)} {f : String} {c : Bool}
    (hperm : keysNew.Perm (anchoredOutKeys out ++ [(f, c)]))
    (hfresh : ((f, c, Bool.false) : NeedleKey) ∉ allowed) :
    keysNew.Nodup ∧ ∀ k ∈ keysNew, ((k.1, k.2, Bool.false) : NeedleKey) ∈
      allowed ++ [(f, c, Bool.false)] := by
  have hnotin : (f, c) ∉ anchoredOutKeys out := by
    intro hmem
    exact hfresh (h.2.2.2.2.2.2 _ hmem)
  constructor
  · rw [hperm.nodup_iff]
    exact h.2.2.2.2.2.1.append (List.nodup_singleton _) (by
      intro a ha hb
      rw [List.mem_singleton] at hb
      subst hb
      exact hnotin ha)
  · intro k hk
    rcases List.mem_append.mp (hperm.mem_iff.mp hk) with hk | hk
    · exact List.mem_append_left _ (h.2.2.2.2.2.2 k hk)
    · rw [List.mem_singleton] at hk
      subst hk
      exact List.mem_append_right _ (List.mem_singleton.mpr rfl)

theorem emit_foldl_inv :
    ∀ (entries : List (NeedleKey × List (MatchType × String))) (allowed : List NeedleKey)
      (out : NeedleOut),
      EmitInv allowed out →
      (entries.map Prod.fst).Nodup →
      (∀ k ∈ entries.map Prod.fst, k ∉ allowed) →
      (∀ en ∈ entries, en.2 ≠ [] ∧ ∀ p ∈ en.2, p.2 = p.1.value) →
      EmitInv (allowed ++ entries.map Prod.fst) (entries.foldl emitNeedleEntry out) := by
  intro entries
  induction entries with
  | nil =>
    intro allowed out hout _ _ _
    simpa using hout
  | cons en rest ih =>
    intro allowed out hout hnodup hdisj hprops
    obtain ⟨⟨f, cst, ins⟩, vs⟩ := en
    have hkey : ((f, cst, ins) : NeedleKey) ∉ allowed := hdisj _ (by simp)
    have hnodup2 : (rest.map Prod.fst).Nodup := (List.nodup_cons.mp hnodup).2
    have hkeyrest : ((f, cst, ins) : NeedleKey) ∉ rest.map Prod.fst :=
      (List.nodup_cons.mp hnodup).1
    have hdisj2 : ∀ k ∈ rest.map Prod.fst, k ∉ allowed ++ [(f, cst, ins)] := by
      intro k hk hmem
      rcases List.mem_append.mp hmem with hm | hm
      · exact hdisj k (List.mem_cons_of_mem _ hk) hm
      · rw [List.mem_singleton] at hm
        subst hm
        exact hkeyrest hk
    have hprops2 : ∀ en ∈ rest, en.2 ≠ [] ∧ ∀ p ∈ en.2, p.2 = p.1.value :=
      fun e he => hprops e (List.mem_cons_of_mem _ he)
    have hstep : EmitInv (allowed ++ [(f, cst, ins)])
        (emitNeedleEntry out ((f, cst, ins), vs)) := by
    
      have hvs := hprops _ (List.mem_cons_self ..)
      obtain ⟨h1, h2, h3, h4, h5, h6, h7⟩ := hout
      have hallow : ∀ k ∈ allowed, k ∈ allowed ++ [((f, cst, ins) : NeedleKey)] :=
        fun k hk => List.mem_append_left _ hk
      have haho : ∀ insb, insb = ins →
          EmitInv (allowed ++ [(f, cst, ins)])
            { out with aho := out.aho ++ [.search
              (.ahoCorasick ⟨vs.map Prod.snd, insb⟩ (vs.map Prod.fst) insb) f cst] } := by
        intro insb hins
        refine ⟨h1, h2, h3, h4, ?_, h6, fun k hk => hallow _ (h7 k hk)⟩
        intro x hx
        rcases List.mem_append.mp hx with hx | hx
        · exact h5 x hx
        · rw [List.mem_singleton] at hx
          subst hx
          refine ⟨?_, _, _, _, _, _, rfl⟩
          have hmap : vs.map Prod.snd = (vs.map Prod.fst).map MatchType.value := by
            rw [List.map_map]
            exact List.map_congr_left (fun p hp => (hvs.2 p hp))
          simp [ahoAligned, hmap]
      cases ins with
      | true => exact haho true rfl
      | false =>
        match vs, hvs with
        | [], hvs => exact absurd rfl hvs.1
        | [single], hvs =>
          obtain ⟨tag, needle⟩ := single
          have hfresh : ((f, cst, Bool.false) : NeedleKey) ∉ allowed := hkey
          cases tag with
          | exact v =>
            have hp := filterMap_insert_perm anchoredKey ([] : List Expression) out.exact
              (out.starts_with ++ (out.ends_with ++ out.contains)) (Expression.search (.exact v) f cst)
            have hperm : (anchoredOutKeys { out with exact := out.exact ++
                [.search (.exact v) f cst] }).Perm (anchoredOutKeys out ++ [(f, cst)]) := by
              refine (perm_of_eq ?_).trans (hp.trans (perm_of_eq ?_))
              · simp [anchoredOutKeys, List.append_assoc]
              · simp [anchoredOutKeys, List.append_assoc, anchoredKey]
            obtain ⟨hn, hm⟩ := anchored_insert_nodup ⟨h1, h2, h3, h4, h5, h6, h7⟩ hperm hfresh
            refine ⟨?_, h2, h3, h4, h5, hn, hm⟩
            intro x hx
            rcases List.mem_append.mp hx with hx | hx
            · exact h1 x hx
            · rw [List.mem_singleton] at hx
              subst hx
              exact ⟨v, f, cst, rfl⟩
          | startsWith v =>
            have hp := filterMap_insert_perm anchoredKey out.exact out.starts_with
              (out.ends_with ++ out.contains) (Expression.search (.startsWith v) f cst)
            have hperm : (anchoredOutKeys { out with starts_with := out.starts_with ++
                [.search (.startsWith v) f cst] }).Perm (anchoredOutKeys out ++ [(f, cst)]) := by
              refine (perm_of_eq ?_).trans (hp.trans (perm_of_eq ?_))
              · simp [anchoredOutKeys, List.append_assoc]
              · simp [anchoredOutKeys, List.append_assoc, anchoredKey]
            obtain ⟨hn, hm⟩ := anchored_insert_nodup ⟨h1, h2, h3, h4, h5, h6, h7⟩ hperm hfresh
            refine ⟨h1, ?_, h3, h4, h5, hn, hm⟩
            intro x hx
            rcases List.mem_append.mp hx with hx | hx
            · exact h2 x hx
            · rw [List.mem_singleton] at hx
              subst hx
              exact ⟨v, f, cst, rfl⟩
          | endsWith v =>
            have hp := filterMap_insert_perm anchoredKey (out.exact ++ out.starts_with) out.ends_with
              out.contains (Expression.search (.endsWith v) f cst)
            have hperm : (anchoredOutKeys { out with ends_with := out.ends_with ++
                [.search (.endsWith v) f cst] }).Perm (anchoredOutKeys out ++ [(f, cst)]) := by
              refine (perm_of_eq ?_).trans (hp.trans (perm_of_eq ?_))
              · simp [anchoredOutKeys, List.append_assoc]
              · simp [anchoredOutKeys, List.append_assoc, anchoredKey]
            obtain ⟨hn, hm⟩ := anchored_insert_nodup ⟨h1, h2, h3, h4, h5, h6, h7⟩ hperm hfresh
            refine ⟨h1, h2, ?_, h4, h5, hn, hm⟩
            intro x hx
            rcases List.mem_append.mp hx with hx | hx
            · exact h3 x hx
            · rw [List.mem_singleton] at hx
              subst hx
              exact ⟨v, f, cst, rfl⟩
          | contains v =>
            have hp := filterMap_insert_perm anchoredKey ((out.exact ++ out.starts_with) ++ out.ends_with) out.contains
              ([] : List Expression) (Expression.search (.contains v) f cst)
            have hperm : (anchoredOutKeys { out with contains := out.contains ++
                [.search (.contains v) f cst] }).Perm (anchoredOutKeys out ++ [(f, cst)]) := by
              refine (perm_of_eq ?_).trans (hp.trans (perm_of_eq ?_))
              · simp [anchoredOutKeys, List.append_assoc]
              · simp [anchoredOutKeys, List.append_assoc, anchoredKey]
            obtain ⟨hn, hm⟩ := anchored_insert_nodup ⟨h1, h2, h3, h4, h5, h6, h7⟩ hperm hfresh
            refine ⟨h1, h2, h3, ?_, h5, hn, hm⟩
            intro x hx
            rcases List.mem_append.mp hx with hx | hx
            · exact h4 x hx
            · rw [List.mem_singleton] at hx
              subst hx
              exact ⟨v, f, cst, rfl⟩
        | v1 :: v2 :: t, hvs => exact haho false rfl
    have hfinal := ih (allowed ++ [(f, cst, ins)]) (emitNeedleEntry out ((f, cst, ins), vs))
      hstep hnodup2 hdisj2 hprops2
    rw [List.map_cons]
    rw [show allowed ++ (((f, cst, ins) : NeedleKey) :: rest.map Prod.fst) =
      (allowed ++ [(f, cst, ins)]) ++ rest.map Prod.fst from by simp]
    exact hfinal

end Tau

namespace Tau

theorem emitPatterns_shapes :
    ∀ (entries : List (NeedleKey × List String)) (acc : List Expression × List Expression),
      (∀ x ∈ acc.1, ∃ r ins f c, x = Expression.search (.regex r ins) f c) →
      (∀ x ∈ acc.2, ∃ rs ins f c, x = Expression.search (.regexSet rs ins) f c) →
      (∀ x ∈ (entries.foldl emitPatternEntry acc).1,
        ∃ r ins f c, x = Expression.search (.regex r ins) f c) ∧
      (∀ x ∈ (entries.foldl emitPatternEntry acc).2,
        ∃ rs ins f c, x = Expression.search (.regexSet rs ins) f c) := by
  intro entries
  induction entries with
  | nil => intro acc h1 h2; exact ⟨h1, h2⟩
  | cons en rest ih =>
    intro acc h1 h2
    obtain ⟨⟨f, cst, ins⟩, ps⟩ := en
    refine ih (emitPatternEntry acc ((f, cst, ins), ps)) ?_ ?_
    · match ps with
      | [] =>
        intro x hx
        exact h1 x hx
      | [single] =>
        intro x hx
        rcases List.mem_append.mp hx with hx | hx
        · exact h1 x hx
        · rw [List.mem_singleton] at hx
          subst hx
          exact ⟨single, ins, f, cst, rfl⟩
      | p1 :: p2 :: t =>
        intro x hx
        exact h1 x hx
    · match ps with
      | [] =>
        intro x hx
        rcases List.mem_append.mp hx with hx | hx
        · exact h2 x hx
        · rw [List.mem_singleton] at hx
          subst hx
          exact ⟨[], ins, f, cst, rfl⟩
      | [single] =>
        intro x hx
        exact h2 x hx
      | p1 :: p2 :: t =>
        intro x hx
        rcases List.mem_append.mp hx with hx | hx
        · exact h2 x hx
        · rw [List.mem_singleton] at hx
          subst hx
          exact ⟨p1 :: p2 :: t, ins, f, cst, rfl⟩

theorem canonLe_rank08 {x y : Expression} (h0 : kindRank x = kindRank y)
    (hr : kindRank x = 0 ∨ kindRank x = 8) : canonLe x y = true := by
  rcases hr with hr | hr <;> simp [canonLe, hr, h0.symm.trans hr]

theorem canonLe_rank1 {x y : Expression} (hx : kindRank x = 1) (hy : kindRank y = 1) :
    canonLe x y = exactLe x y := by simp [canonLe, hx, hy]

theorem canonLe_rank2 {x y : Expression} (hx : kindRank x = 2) (hy : kindRank y = 2) :
    canonLe x y = startsWithLe x y := by simp [canonLe, hx, hy]

theorem canonLe_rank3 {x y : Expression} (hx : kindRank x = 3) (hy : kindRank y = 3) :
    canonLe x y = endsWithLe x y := by simp [canonLe, hx, hy]

theorem canonLe_rank4 {x y : Expression} (hx : kindRank x = 4) (hy : kindRank y = 4) :
    canonLe x y = containsLe x y := by simp [canonLe, hx, hy]

theorem canonLe_rank5 {x y : Expression} (hx : kindRank x = 5) (hy : kindRank y = 5) :
    canonLe x y = ahoLe x y := by simp [canonLe, hx, hy]

theorem canonLe_rank6 {x y : Expression} (hx : kindRank x = 6) (hy : kindRank y = 6) :
    canonLe x y = regexLe x y := by simp [canonLe, hx, hy]

theorem canonLe_rank7 {x y : Expression} (hx : kindRank x = 7) (hy : kindRank y = 7) :
    canonLe x y = regexSetLe x y := by simp [canonLe, hx, hy]

theorem keysDistinct_of_nodup {α : Type} [BEq α] [LawfulBEq α] :
    ∀ {l : List α}, l.Nodup → keysDistinct l = true := by
  intro l
  induction l with
  | nil => intro _; rfl
  | cons k rest ih =>
    intro h
    obtain ⟨hk, hrest⟩ := List.nodup_cons.mp h
    rw [keysDistinct]
    have hc : rest.contains k = false := by
      rw [← Bool.not_eq_true]
      intro hcon
      obtain ⟨a, ham, hab⟩ := List.contains_iff_exists_mem_beq.mp hcon
      rw [beq_iff_eq.mp hab] at hk
      exact hk ham
    rw [hc]
    simp
    exact ih hrest

end Tau

namespace Tau

/-- The emission invariant holds of the empty output under no allowed keys. -/
theorem emitInv_empty : EmitInv [] emptyNeedleOut := by
  refine ⟨?_, ?_, ?_, ?_, ?_, ?_, ?_⟩ <;> simp [emptyNeedleOut, anchoredOutKeys]

/-- A successful `Option`-valued `mapM` preserves length. -/
theorem mapM_some_length {α β : Type} {f : α → Option β} :
    ∀ {l : List α} {ys : List β}, l.mapM f = some ys → ys.length = l.length := by
  intro l
  induction l with
  | nil =>
    intro ys h
    rw [List.mapM_nil] at h
    cases h
    rfl
  | cons x rest ih =>
    intro ys h
    rw [List.mapM_cons] at h
    simp only [Option.pure_def, Option.bind_eq_bind, Option.bind_eq_some,
      Option.some.injEq] at h
    obtain ⟨y, hy, ys2, hys2, rfl⟩ := h
    simp [ih hys2]

/-- Every element of a successful `Option`-valued `mapM` output is the
image of some input element. -/
theorem mapM_some_mem {α β : Type} {f : α → Option β} :
    ∀ {l : List α} {ys : List β}, l.mapM f = some ys → ∀ y ∈ ys, ∃ x ∈ l, f x = some y := by
  intro l
  induction l with
  | nil =>
    intro ys h
    rw [List.mapM_nil] at h
    cases h
    intro y hy
    exact absurd hy (List.not_mem_nil _)
  | cons x rest ih =>
    intro ys h
    rw [List.mapM_cons] at h
    simp only [Option.pure_def, Option.bind_eq_bind, Option.bind_eq_some,
      Option.some.injEq] at h
    obtain ⟨y, hy, ys2, hys2, rfl⟩ := h
    intro z hz
    rcases List.mem_cons.mp hz with hz | hz
    · exact ⟨x, List.mem_cons_self .., hz ▸ hy⟩
    · obtain ⟨a, ha, hfa⟩ := ih hys2 z hz
      exact ⟨a, List.mem_cons_of_mem _ ha, hfa⟩

/-- A rank-8 expression is not an anchored literal search. -/
theorem anchoredKey_none_of_rank8 : ∀ {x : Expression}, kindRank x = 8 → anchoredKey x = none := by
  intro x h
  cases x <;> try rfl
  case search kind f c =>
  cases kind <;> simp [kindRank] at h

/-- A rank-8 expression is not an `AhoCorasick` search, so it is
trivially aligned. -/
theorem ahoAligned_of_rank8 : ∀ {x : Expression}, kindRank x = 8 → ahoAligned x = true := by
  intro x h
  cases x <;> try rfl
  case search kind f c =>
  cases kind <;> first | rfl | simp [kindRank] at h

end Tau

namespace Tau

/-- The list assembled by the Or arm of `shake` from already-shaken
children is canonically ordered, has pairwise-distinct anchored keys,
holds only aligned `AhoCorasick` fusions, and draws every group child
from the shaken input list. -/
theorem orAssembly_inv (shaken nestedOut : List Expression)
    (buckets : OrBuckets) (needleOut : NeedleOut)
    (patternOut : List Expression × List Expression) (out : List Expression)
    (hb : buckets = shaken.foldl classifyOr emptyOrBuckets)
    (hno : needleOut = buckets.needles.foldl emitNeedleEntry emptyNeedleOut)
    (hpo : patternOut = buckets.patterns.foldl emitPatternEntry ([], []))
    (hnested : ∀ x ∈ nestedOut, ∃ f e, x = Expression.nested f e)
    (hout : out = buckets.any ++ sortByB exactLe needleOut.exact
      ++ sortByB startsWithLe needleOut.starts_with
      ++ sortByB endsWithLe needleOut.ends_with
      ++ sortByB containsLe needleOut.contains
      ++ sortByB ahoLe needleOut.aho
      ++ sortByB regexLe patternOut.1
      ++ sortByB regexSetLe patternOut.2
      ++ (buckets.rest ++ nestedOut)) :
    canonOrder out = true ∧
    keysDistinct (out.filterMap anchoredKey) = true ∧
    (∀ x ∈ out, ahoAligned x = true) ∧
    (∀ x ∈ out, ∀ op ys, x = Expression.booleanGroup op ys → x ∈ shaken) := by
  have hcls : ClassifyInv shaken buckets := by
    rw [hb]
    exact classify_foldl_inv shaken shaken emptyOrBuckets (fun _ h => h) (classifyInv_empty shaken)
  have hemit : EmitInv ([] ++ buckets.needles.map Prod.fst) needleOut := by
    rw [hno]
    exact emit_foldl_inv buckets.needles [] emptyNeedleOut emitInv_empty hcls.2.1
      (fun k _ hk => absurd hk (List.not_mem_nil _)) hcls.2.2.1
  obtain ⟨hE, hS, hW, hC, hA, hND, _⟩ := hemit
  have hpat := emitPatterns_shapes buckets.patterns ([], [])
    (fun x hx => absurd hx (List.not_mem_nil _)) (fun x hx => absurd hx (List.not_mem_nil _))
  have hR : ∀ x ∈ patternOut.1, ∃ r ins f c, x = Expression.search (.regex r ins) f c := by
    rw [hpo]
    exact hpat.1
  have hRS : ∀ x ∈ patternOut.2, ∃ rs ins f c, x = Expression.search (.regexSet rs ins) f c := by
    rw [hpo]
    exact hpat.2
  have rAny : ∀ x ∈ buckets.any, kindRank x = 0 := by
    intro x hx
    obtain ⟨f, c, rfl⟩ := hcls.1 x hx
    rfl
  have rE : ∀ x ∈ sortByB exactLe needleOut.exact, kindRank x = 1 := by
    intro x hx
    obtain ⟨v, f, c, rfl⟩ := hE x (mem_sortByB.mp hx)
    rfl
  have rS : ∀ x ∈ sortByB startsWithLe needleOut.starts_with, kindRank x = 2 := by
    intro x hx
    obtain ⟨v, f, c, rfl⟩ := hS x (mem_sortByB.mp hx)
    rfl
  have rW : ∀ x ∈ sortByB endsWithLe needleOut.ends_with, kindRank x = 3 := by
    intro x hx
    obtain ⟨v, f, c, rfl⟩ := hW x (mem_sortByB.mp hx)
    rfl
  have rC : ∀ x ∈ sortByB containsLe needleOut.contains, kindRank x = 4 := by
    intro x hx
    obtain ⟨v, f, c, rfl⟩ := hC x (mem_sortByB.mp hx)
    rfl
  have rA : ∀ x ∈ sortByB ahoLe needleOut.aho, kindRank x = 5 := by
    intro x hx
    obtain ⟨_, aut, ctx, ins, f, c, rfl⟩ := hA x (mem_sortByB.mp hx)
    rfl
  have rR : ∀ x ∈ sortByB regexLe patternOut.1, kindRank x = 6 := by
    intro x hx
    obtain ⟨r, ins, f, c, rfl⟩ := hR x (mem_sortByB.mp hx)
    rfl
  have rRS : ∀ x ∈ sortByB regexSetLe patternOut.2, kindRank x = 7 := by
    intro x hx
    obtain ⟨rs, ins, f, c, rfl⟩ := hRS x (mem_sortByB.mp hx)
    rfl
  have rRest : ∀ x ∈ buckets.rest, kindRank x = 8 := fun x hx => (hcls.2.2.2 x hx).1
  have rN : ∀ x ∈ nestedOut, kindRank x = 8 := by
    intro x hx
    obtain ⟨f, e, rfl⟩ := hnested x hx
    rfl
  have rTail : ∀ x ∈ buckets.rest ++ nestedOut, kindRank x = 8 := by
    intro x hx
    rcases List.mem_append.mp hx with hx | hx
    · exact rRest x hx
    · exact rN x hx
  have lb7 : ∀ y ∈ buckets.rest ++ nestedOut, 7 < kindRank y := by
    intro y hy
    rw [rTail y hy]
    omega
  have lb6 : ∀ y ∈ sortByB regexSetLe patternOut.2 ++ (buckets.rest ++ nestedOut),
      6 < kindRank y := by
    intro y hy
    rcases List.mem_append.mp hy with hy | hy
    · rw [rRS y hy]; omega
    · have := lb7 y hy; omega
  have lb5 : ∀ y ∈ sortByB regexLe patternOut.1 ++ (sortByB regexSetLe patternOut.2
      ++ (buckets.rest ++ nestedOut)), 5 < kindRank y := by
    intro y hy
    rcases List.mem_append.mp hy with hy | hy
    · rw [rR y hy]; omega
    · have := lb6 y hy; omega
  have lb4 : ∀ y ∈ sortByB ahoLe needleOut.aho ++ (sortByB regexLe patternOut.1
      ++ (sortByB regexSetLe patternOut.2 ++ (buckets.rest ++ nestedOut))),
      4 < kindRank y := by
    intro y hy
    rcases List.mem_append.mp hy with hy | hy
    · rw [rA y hy]; omega
    · have := lb5 y hy; omega
  have lb3 : ∀ y ∈ sortByB containsLe needleOut.contains ++ (sortByB ahoLe needleOut.aho
      ++ (sortByB regexLe patternOut.1 ++ (sortByB regexSetLe patternOut.2
      ++ (buckets.rest ++ nestedOut)))), 3 < kindRank y := by
    intro y hy
    rcases List.mem_append.mp hy with hy | hy
    · rw [rC y hy]; omega
    · have := lb4 y hy; omega
  have lb2 : ∀ y ∈ sortByB endsWithLe needleOut.ends_with ++ (sortByB containsLe
      needleOut.contains ++ (sortByB ahoLe needleOut.aho ++ (sortByB regexLe patternOut.1
      ++ (sortByB regexSetLe patternOut.2 ++ (buckets.rest ++ nestedOut))))),
      2 < kindRank y := by
    intro y hy
    rcases List.mem_append.mp hy with hy | hy
    · rw [rW y hy]; omega
    · have := lb3 y hy; omega
  have lb1 : ∀ y ∈ sortByB startsWithLe needleOut.starts_with ++ (sortByB endsWithLe
      needleOut.ends_with ++ (sortByB containsLe needleOut.contains ++ (sortByB ahoLe
      needleOut.aho ++ (sortByB regexLe patternOut.1 ++ (sortByB regexSetLe patternOut.2
      ++ (buckets.rest ++ nestedOut)))))), 1 < kindRank y := by
    intro y hy
    rcases List.mem_append.mp hy with hy | hy
    · rw [rS y hy]; omega
    · have := lb2 y hy; omega
  have lb0 : ∀ y ∈ sortByB exactLe needleOut.exact ++ (sortByB startsWithLe
      needleOut.starts_with ++ (sortByB endsWithLe needleOut.ends_with ++ (sortByB containsLe
      needleOut.contains ++ (sortByB ahoLe needleOut.aho ++ (sortByB regexLe patternOut.1
      ++ (sortByB regexSetLe patternOut.2 ++ (buckets.rest ++ nestedOut))))))),
      0 < kindRank y := by
    intro y hy
    rcases List.mem_append.mp hy with hy | hy
    · rw [rE y hy]; omega
    · have := lb1 y hy; omega
  have cTail : chainB canonLe (buckets.rest ++ nestedOut) = true := by
    apply chainB_of_pairs
    intro x hx y hy
    exact canonLe_rank08 ((rTail x hx).trans (rTail y hy).symm) (Or.inr (rTail x hx))
  have cRS : chainB canonLe (sortByB regexSetLe patternOut.2) = true := by
    refine chainB_of_imp ?_ (chainB_sortByB regexSetLe_total _)
    intro x hx y hy hle
    rw [canonLe_rank7 (rRS x hx) (rRS y hy)]
    exact hle
  have c7 := chainB_append cRS cTail
    (fun x hx y hy => canonLe_of_rank_lt (by rw [rRS x hx]; exact lb7 y hy))
  have cR : chainB canonLe (sortByB regexLe patternOut.1) = true := by
    refine chainB_of_imp ?_ (chainB_sortByB regexLe_total _)
    intro x hx y hy hle
    rw [canonLe_rank6 (rR x hx) (rR y hy)]
    exact hle
  have c6 := chainB_append cR c7
    (fun x hx y hy => canonLe_of_rank_lt (by rw [rR x hx]; exact lb6 y hy))
  have cA : chainB canonLe (sortByB ahoLe needleOut.aho) = true := by
    refine chainB_of_imp ?_ (chainB_sortByB ahoLe_total _)
    intro x hx y hy hle
    rw [canonLe_rank5 (rA x hx) (rA y hy)]
    exact hle
  have c5 := chainB_append cA c6
    (fun x hx y hy => canonLe_of_rank_lt (by rw [rA x hx]; exact lb5 y hy))
  have cC : chainB canonLe (sortByB containsLe needleOut.contains) = true := by
    refine chainB_of_imp ?_ (chainB_sortByB containsLe_total _)
    intro x hx y hy hle
    rw [canonLe_rank4 (rC x hx) (rC y hy)]
    exact hle
  have c4 := chainB_append cC c5
    (fun x hx y hy => canonLe_of_rank_lt (by rw [rC x hx]; exact lb4 y hy))
  have cW : chainB canonLe (sortByB endsWithLe needleOut.ends_with) = true := by
    refine chainB_of_imp ?_ (chainB_sortByB endsWithLe_total _)
    intro x hx y hy hle
    rw [canonLe_rank3 (rW x hx) (rW y hy)]
    exact hle
  have c3 := chainB_append cW c4
    (fun x hx y hy => canonLe_of_rank_lt (by rw [rW x hx]; exact lb3 y hy))
  have cS : chainB canonLe (sortByB startsWithLe needleOut.starts_with) = true := by
    refine chainB_of_imp ?_ (chainB_sortByB startsWithLe_total _)
    intro x hx y hy hle
    rw [canonLe_rank2 (rS x hx) (rS y hy)]
    exact hle
  have c2 := chainB_append cS c3
    (fun x hx y hy => canonLe_of_rank_lt (by rw [rS x hx]; exact lb2 y hy))
  have cE : chainB canonLe (sortByB exactLe needleOut.exact) = true := by
    refine chainB_of_imp ?_ (chainB_sortByB exactLe_total _)
    intro x hx y hy hle
    rw [canonLe_rank1 (rE x hx) (rE y hy)]
    exact hle
  have c1 := chainB_append cE c2
    (fun x hx y hy => canonLe_of_rank_lt (by rw [rE x hx]; exact lb1 y hy))
  have cAny : chainB canonLe buckets.any = true := by
    apply chainB_of_pairs
    intro x hx y hy
    exact canonLe_rank08 ((rAny x hx).trans (rAny y hy).symm) (Or.inl (rAny x hx))
  have c0 := chainB_append cAny c1
    (fun x hx y hy => canonLe_of_rank_lt (by rw [rAny x hx]; exact lb0 y hy))
  have hcanon : canonOrder out = true := by
    rw [canonOrder, hout]
    simp only [List.append_assoc]
    exact c0
  have nAny : List.filterMap anchoredKey buckets.any = [] :=
    List.filterMap_eq_nil_iff.mpr (fun x hx => by obtain ⟨f, c, rfl⟩ := hcls.1 x hx; rfl)
  have nA : List.filterMap anchoredKey (sortByB ahoLe needleOut.aho) = [] :=
    List.filterMap_eq_nil_iff.mpr (fun x hx => by
      obtain ⟨_, aut, ctx, ins, f, c, rfl⟩ := hA x (mem_sortByB.mp hx); rfl)
  have nR : List.filterMap anchoredKey (sortByB regexLe patternOut.1) = [] :=
    List.filterMap_eq_nil_iff.mpr (fun x hx => by
      obtain ⟨r, ins, f, c, rfl⟩ := hR x (mem_sortByB.mp hx); rfl)
  have nRS : List.filterMap anchoredKey (sortByB regexSetLe patternOut.2) = [] :=
    List.filterMap_eq_nil_iff.mpr (fun x hx => by
      obtain ⟨rs, ins, f, c, rfl⟩ := hRS x (mem_sortByB.mp hx); rfl)
  have nRest : List.filterMap anchoredKey buckets.rest = [] :=
    List.filterMap_eq_nil_iff.mpr (fun x hx => anchoredKey_none_of_rank8 (rRest x hx))
  have nN : List.filterMap anchoredKey nestedOut = [] :=
    List.filterMap_eq_nil_iff.mpr (fun x hx => by obtain ⟨f, e, rfl⟩ := hnested x hx; rfl)
  have pE : (List.filterMap anchoredKey (sortByB exactLe needleOut.exact)).Perm
      (List.filterMap anchoredKey needleOut.exact) :=
    (sortByB_perm exactLe needleOut.exact).filterMap _
  have pS : (List.filterMap anchoredKey (sortByB startsWithLe needleOut.starts_with)).Perm
      (List.filterMap anchoredKey needleOut.starts_with) :=
    (sortByB_perm startsWithLe needleOut.starts_with).filterMap _
  have pW : (List.filterMap anchoredKey (sortByB endsWithLe needleOut.ends_with)).Perm
      (List.filterMap anchoredKey needleOut.ends_with) :=
    (sortByB_perm endsWithLe needleOut.ends_with).filterMap _
  have pC : (List.filterMap anchoredKey (sortByB containsLe needleOut.contains)).Perm
      (List.filterMap anchoredKey needleOut.contains) :=
    (sortByB_perm containsLe needleOut.contains).filterMap _
  have hkey : (out.filterMap anchoredKey).Perm (anchoredOutKeys needleOut) := by
    rw [hout]
    simp only [List.append_assoc, List.filterMap_append, nAny, nA, nR, nRS, nRest, nN,
      List.nil_append, List.append_nil]
    refine (pE.append (pS.append (pW.append pC))).trans (perm_of_eq ?_)
    rw [anchoredOutKeys]
    simp [List.filterMap_append, List.append_assoc]
  have hdist : keysDistinct (out.filterMap anchoredKey) = true :=
    keysDistinct_of_nodup (hkey.nodup_iff.mpr hND)
  have haligned : ∀ x ∈ out, ahoAligned x = true := by
    intro x hx
    rw [hout] at hx
    simp only [List.append_assoc, List.mem_append] at hx
    rcases hx with hx | hx | hx | hx | hx | hx | hx | hx | hx | hx
    · obtain ⟨f, c, rfl⟩ := hcls.1 x hx; rfl
    · obtain ⟨v, f, c, rfl⟩ := hE x (mem_sortByB.mp hx); rfl
    · obtain ⟨v, f, c, rfl⟩ := hS x (mem_sortByB.mp hx); rfl
    · obtain ⟨v, f, c, rfl⟩ := hW x (mem_sortByB.mp hx); rfl
    · obtain ⟨v, f, c, rfl⟩ := hC x (mem_sortByB.mp hx); rfl
    · exact (hA x (mem_sortByB.mp hx)).1
    · obtain ⟨r, ins, f, c, rfl⟩ := hR x (mem_sortByB.mp hx); rfl
    · obtain ⟨rs, ins, f, c, rfl⟩ := hRS x (mem_sortByB.mp hx); rfl
    · exact ahoAligned_of_rank8 (rRest x hx)
    · obtain ⟨f, e, rfl⟩ := hnested x hx; rfl
  have hgroups : ∀ x ∈ out, ∀ op ys, x = Expression.booleanGroup op ys → x ∈ shaken := by
    intro x hx op ys hshape
    rw [hout] at hx
    simp only [List.append_assoc, List.mem_append] at hx
    rcases hx with hx | hx | hx | hx | hx | hx | hx | hx | hx | hx
    · obtain ⟨f, c, rfl⟩ := hcls.1 x hx; exact absurd hshape (by simp)
    · obtain ⟨v, f, c, rfl⟩ := hE x (mem_sortByB.mp hx); exact absurd hshape (by simp)
    · obtain ⟨v, f, c, rfl⟩ := hS x (mem_sortByB.mp hx); exact absurd hshape (by simp)
    · obtain ⟨v, f, c, rfl⟩ := hW x (mem_sortByB.mp hx); exact absurd hshape (by simp)
    · obtain ⟨v, f, c, rfl⟩ := hC x (mem_sortByB.mp hx); exact absurd hshape (by simp)
    · obtain ⟨_, aut, ctx, ins, f, c, rfl⟩ := hA x (mem_sortByB.mp hx)
      exact absurd hshape (by simp)
    · obtain ⟨r, ins, f, c, rfl⟩ := hR x (mem_sortByB.mp hx); exact absurd hshape (by simp)
    · obtain ⟨rs, ins, f, c, rfl⟩ := hRS x (mem_sortByB.mp hx); exact absurd hshape (by simp)
    · exact (hcls.2.2.2 x hx).2
    · obtain ⟨f, e, rfl⟩ := hnested x hx; exact absurd hshape (by simp)
  exact ⟨hcanon, hdist, haligned, hgroups⟩

end Tau

namespace Tau

set_option maxHeartbeats 2000000 in
/-- The `keep` instruction is only ever issued with the rebuilt binary
expression itself. -/
theorem combineBool_keep_shape {l r e : Expression} {s : BoolSym}
    (h : combineBool l s r = .keep e) : e = Expression.booleanExpression l s r := by
  unfold combineBool at h
  split at h <;> first | (cases h; rfl) | simp at h

/-- Whenever `shake` succeeds and returns a top-level `BooleanGroup(Or)`,
its child list is canonically ordered, its anchored literal children
carry pairwise-distinct `(field, cast)` keys, and its fused
`AhoCorasick` children are aligned with their context tags. -/
theorem shake_or_result_inv :
    ∀ (n : Nat) (e : Expression) (xs : List Expression),
      shake n e = some (.booleanGroup .or xs) →
      canonOrder xs = true ∧ keysDistinct (xs.filterMap anchoredKey) = true ∧
        ∀ x ∈ xs, ahoAligned x = true := by
  intro n
  induction n with
  | zero =>
    intro e xs h
    simp [shake] at h
  | succ n ih =>
    intro e xs h
    cases e with
    | boolean b => simp [shake] at h
    | cast f m => simp [shake] at h
    | field f => simp [shake] at h
    | float x => simp [shake] at h
    | identifier i => simp [shake] at h
    | integer i => simp [shake] at h
    | null => simp [shake] at h
    | search k f c => simp [shake] at h
    | nested f e0 => simp [shake, Option.map_eq_some'] at h
    | matchExpr sym e0 =>
      cases sym with
      | of k => simp [shake] at h
      | all =>
        cases e0 <;> try simp [shake] at h
        case booleanGroup op2 exprs2 =>
        cases op2 <;> simp [shake] at h
    | negate e0 =>
      cases e0 with
      | booleanGroup op2 exprs2 =>
        cases op2
        case or =>
          simp only [shake] at h
          exact ih _ _ h
        all_goals simp [shake, Option.map_eq_some'] at h
      | negate inner =>
        simp only [shake] at h
        exact ih _ _ h
      | boolean b => simp [shake, Option.map_eq_some'] at h
      | booleanExpression l s r => simp [shake, Option.map_eq_some'] at h
      | cast f m => simp [shake, Option.map_eq_some'] at h
      | field f => simp [shake, Option.map_eq_some'] at h
      | float x => simp [shake, Option.map_eq_some'] at h
      | identifier i => simp [shake, Option.map_eq_some'] at h
      | integer i => simp [shake, Option.map_eq_some'] at h
      | matchExpr s e1 => simp [shake, Option.map_eq_some'] at h
      | nested f e1 => simp [shake, Option.map_eq_some'] at h
      | null => simp [shake, Option.map_eq_some'] at h
      | search k f c => simp [shake, Option.map_eq_some'] at h
    | booleanExpression l s r =>
      simp only [shake, Option.pure_def, Option.bind_eq_bind, Option.bind_eq_some] at h
      obtain ⟨a, ha, b, hb, hm⟩ := h
      cases hcomb : combineBool a s b with
      | keep e0 =>
        rw [hcomb] at hm
        have he0 := combineBool_keep_shape hcomb
        rw [Option.some.injEq] at hm
        rw [hm] at he0
        exact absurd he0 (by simp)
      | reshake e0 =>
        rw [hcomb] at hm
        exact ih _ _ hm
      | demorgan l0 r0 =>
        rw [hcomb] at hm
        obtain ⟨inner, hinner, hneg⟩ := Option.bind_eq_some.mp hm
        exact ih _ _ hneg
    | booleanGroup op exprs =>
      cases op
      case and =>
        simp only [shake, Option.pure_def, Option.bind_eq_bind, Option.bind_eq_some] at h
        obtain ⟨out, hout, hpost⟩ := h
        have hlen := mapM_some_length hout
        rw [if_neg (by omega)] at hpost
        cases out with
        | nil => simp at hpost
        | cons x t =>
          cases t with
          | nil =>
            rw [Option.some.injEq] at hpost
            obtain ⟨orig, horig, hsh⟩ := mapM_some_mem hout x (List.mem_cons_self ..)
            rw [hpost] at hsh
            exact ih _ _ hsh
          | cons y t2 => simp at hpost
      case or =>
        simp only [shake, Option.pure_def, Option.bind_eq_bind, Option.bind_eq_some,
          Option.some.injEq] at h
        obtain ⟨out, ⟨shaken, hshaken, nestedOut, hnest, hassemble⟩, hpost⟩ := h
        have hnshape : ∀ x ∈ nestedOut, ∃ f e, x = Expression.nested f e := by
          intro x hx
          obtain ⟨entry, hentry, hfx⟩ := mapM_some_mem hnest x hx
          split at hfx <;>
            (obtain ⟨a, ha, rfl⟩ := Option.map_eq_some'.mp hfx; exact ⟨_, _, rfl⟩)
        have hinv := orAssembly_inv shaken nestedOut _ _ _ out rfl rfl rfl hnshape
          hassemble.symm
        by_cases hlen : out.length ≠ exprs.length
        · rw [if_pos hlen] at hpost
          exact ih _ _ hpost
        · rw [if_neg hlen] at hpost
          cases out with
          | nil =>
            simp only [Option.some.injEq, Expression.booleanGroup.injEq] at hpost
            rw [← hpost.2]
            exact ⟨hinv.1, hinv.2.1, hinv.2.2.1⟩
          | cons x t =>
            cases t with
            | nil =>
              rw [Option.some.injEq] at hpost
              have hmem := hinv.2.2.2 x (List.mem_cons_self ..) .or xs hpost
              obtain ⟨orig, horig, hsh⟩ := mapM_some_mem hshaken x hmem
              rw [hpost] at hsh
              exact ih _ _ hsh
            | cons y t2 =>
              simp only [Option.some.injEq, Expression.booleanGroup.injEq] at hpost
              rw [← hpost.2]
              exact ⟨hinv.1, hinv.2.1, hinv.2.2.1⟩
      all_goals simp [shake] at h

end Tau

namespace Tau

/-- C5 (amended): the claim as stated — canonical order of every
Or-group anywhere in the result — fails on `Match`-guarded passthrough
children (see the counterexample); what holds is that whenever `shake`
succeeds and its result is itself a `BooleanGroup(Or, xs)`, the child
list `xs` is in the canonical order of §4.1.2: `any` searches first,
then `exact`, `starts_with`, `ends_with` and `contains` each sorted by
needle length ascending, then `aho` sorted by needle count descending
with case tie-break, then `regex` and `regex_set` sorted by their keys,
then all remaining children. -/
theorem shake_top_level_or_canonical (n : Nat) (e : Expression) (xs : List Expression)
    (h : shake n e = some (.booleanGroup .or xs)) : canonOrder xs = true :=
  (shake_or_result_inv n e xs h).1

theorem shake_top_level_or_canonical_witness :
    canonOrder [Expression.search .any "p" false,
      Expression.search (.exact "b") "q" false] = true :=
  shake_top_level_or_canonical 2
    (.booleanGroup .or [.search (.exact "b") "q" false, .search .any "p" false]) _ (by rfl)

/-- C6 (amended): the claim as stated — no Or-group anywhere in the
result with duplicate `(field, cast, false)` needle keys — fails on
`Match`-guarded passthrough children (see the counterexample); what
holds is that whenever `shake` succeeds and its result is itself a
`BooleanGroup(Or, xs)`, no two literal-needle `Search` children of `xs`
share a `(field, cast)` key (single-needle case-sensitive keys re-emit
their original anchored `Search`, every other key fuses into one
`AhoCorasick`), and every fused `AhoCorasick` child's automaton is built
from exactly the needles of its context tags in order, with the key's
case flag. -/
theorem shake_top_level_or_fused (n : Nat) (e : Expression) (xs : List Expression)
    (h : shake n e = some (.booleanGroup .or xs)) :
    keysDistinct (xs.filterMap anchoredKey) = true ∧ ∀ x ∈ xs, ahoAligned x = true :=
  (shake_or_result_inv n e xs h).2

theorem shake_top_level_or_fused_witness :
    keysDistinct (List.filterMap anchoredKey
      [Expression.search (.exact "b") "g" false,
        Expression.search (.exact "ab") "f" false]) = true :=
  (shake_top_level_or_fused 2
    (.booleanGroup .or [.search (.exact "ab") "f" false, .search (.exact "b") "g" false])
    _ (by rfl)).1

end Tau

namespace Tau

/-- Monotonicity transfer through an `Option`-valued `mapM`. -/
theorem mapM_mono {α β : Type} {f g : α → Option β}
    (hfg : ∀ x y, f x = some y → g x = some y) :
    ∀ {l : List α} {ys : List β}, l.mapM f = some ys → l.mapM g = some ys := by
  intro l
  induction l with
  | nil =>
    intro ys h
    exact h
  | cons x rest ih =>
    intro ys h
    rw [List.mapM_cons] at h ⊢
    simp only [Option.pure_def, Option.bind_eq_bind, Option.bind_eq_some,
      Option.some.injEq] at h ⊢
    obtain ⟨y, hy, ys2, hys2, rfl⟩ := h
    exact ⟨y, hfg x y hy, ys2, ih hys2, rfl⟩

/-- `shake` is fuel-monotone: a successful shake stays the same under
one more unit of fuel. -/
theorem shake_mono : ∀ (n : Nat) (e r : Expression),
    shake n e = some r → shake (n + 1) e = some r := by
  intro n
  induction n with
  | zero =>
    intro e r h
    simp [shake] at h
  | succ n ih =>
    intro e r h
    cases e with
    | boolean b => simpa only [shake] using h
    | cast f m => simpa only [shake] using h
    | field f => simpa only [shake] using h
    | float x => simpa only [shake] using h
    | identifier i => simpa only [shake] using h
    | integer i => simpa only [shake] using h
    | null => simpa only [shake] using h
    | search k f c => simpa only [shake] using h
    | nested f e0 =>
      simp only [shake, Option.map_eq_some'] at h ⊢
      obtain ⟨a, ha, rfl⟩ := h
      exact ⟨a, ih e0 a ha, rfl⟩
    | matchExpr sym e0 =>
      cases sym with
      | of k => simpa only [shake] using h
      | all => cases e0 <;> simpa only [shake] using h
    | negate e0 =>
      cases e0 with
      | booleanGroup op2 exprs2 =>
        cases op2
        case or =>
          simp only [shake] at h
          exact ih _ _ h
        all_goals
          simp only [shake, Option.map_eq_some'] at h
          obtain ⟨a, ha, rfl⟩ := h
          exact Option.map_eq_some'.mpr ⟨a, ih _ _ ha, rfl⟩
      | negate inner =>
        simp only [shake] at h
        exact ih _ _ h
      | boolean b =>
        simp only [shake, Option.map_eq_some'] at h
        obtain ⟨a, ha, rfl⟩ := h
        exact Option.map_eq_some'.mpr ⟨a, ih _ _ ha, rfl⟩
      | booleanExpression l s r0 =>
        simp only [shake, Option.map_eq_some'] at h
        obtain ⟨a, ha, rfl⟩ := h
        exact Option.map_eq_some'.mpr ⟨a, ih _ _ ha, rfl⟩
      | cast f m =>
        simp only [shake, Option.map_eq_some'] at h
        obtain ⟨a, ha, rfl⟩ := h
        exact Option.map_eq_some'.mpr ⟨a, ih _ _ ha, rfl⟩
      | field f =>
        simp only [shake, Option.map_eq_some'] at h
        obtain ⟨a, ha, rfl⟩ := h
        exact Option.map_eq_some'.mpr ⟨a, ih _ _ ha, rfl⟩
      | float x =>
        simp only [shake, Option.map_eq_some'] at h
        obtain ⟨a, ha, rfl⟩ := h
        exact Option.map_eq_some'.mpr ⟨a, ih _ _ ha, rfl⟩
      | identifier i =>
        simp only [shake, Option.map_eq_some'] at h
        obtain ⟨a, ha, rfl⟩ := h
        exact Option.map_eq_some'.mpr ⟨a, ih _ _ ha, rfl⟩
      | integer i =>
        simp only [shake, Option.map_eq_some'] at h
        obtain ⟨a, ha, rfl⟩ := h
        exact Option.map_eq_some'.mpr ⟨a, ih _ _ ha, rfl⟩
      | matchExpr s e1 =>
        simp only [shake, Option.map_eq_some'] at h
        obtain ⟨a, ha, rfl⟩ := h
        exact Option.map_eq_some'.mpr ⟨a, ih _ _ ha, rfl⟩
      | nested f e1 =>
        simp only [shake, Option.map_eq_some'] at h
        obtain ⟨a, ha, rfl⟩ := h
        exact Option.map_eq_some'.mpr ⟨a, ih _ _ ha, rfl⟩
      | null =>
        simp only [shake, Option.map_eq_some'] at h
        obtain ⟨a, ha, rfl⟩ := h
        exact Option.map_eq_some'.mpr ⟨a, ih _ _ ha, rfl⟩
      | search k f c =>
        simp only [shake, Option.map_eq_some'] at h
        obtain ⟨a, ha, rfl⟩ := h
        exact Option.map_eq_some'.mpr ⟨a, ih _ _ ha, rfl⟩
    | booleanExpression l s r0 =>
      simp only [shake, Option.pure_def, Option.bind_eq_bind, Option.bind_eq_some] at h ⊢
      obtain ⟨a, ha, b, hb, hm⟩ := h
      refine ⟨a, ih _ _ ha, b, ih _ _ hb, ?_⟩
      cases hcomb : combineBool a s b with
      | keep e1 =>
        rw [hcomb] at hm
        exact hm
      | reshake e1 =>
        rw [hcomb] at hm
        exact ih _ _ hm
      | demorgan l1 r1 =>
        rw [hcomb] at hm
        obtain ⟨inner, hinner, hneg⟩ := Option.bind_eq_some.mp hm
        exact Option.bind_eq_some.mpr ⟨inner, ih _ _ hinner, ih _ _ hneg⟩
    | booleanGroup op exprs =>
      cases op
      case and =>
        simp only [shake, Option.pure_def, Option.bind_eq_bind, Option.bind_eq_some] at h ⊢
        obtain ⟨out, hout, hpost⟩ := h
        refine ⟨out, mapM_mono (fun x y hx => ih x y hx) hout, ?_⟩
        by_cases hlen : out.length ≠ exprs.length
        · rw [if_pos hlen] at hpost ⊢
          exact ih _ _ hpost
        · rw [if_neg hlen] at hpost ⊢
          exact hpost
      case or =>
        simp only [shake, Option.pure_def, Option.bind_eq_bind, Option.bind_eq_some,
          Option.some.injEq] at h ⊢
        obtain ⟨out, ⟨shaken, hshaken, nestedOut, hnest, hassemble⟩, hpost⟩ := h
        refine ⟨out, ⟨shaken, mapM_mono (fun x y hx => ih x y hx) hshaken, nestedOut,
          ?_, hassemble⟩, ?_⟩
        · refine mapM_mono (fun entry x hx => ?_) hnest
          obtain ⟨f, es⟩ := entry
          match es with
          | [e] =>
            obtain ⟨a, ha, rfl⟩ := Option.map_eq_some'.mp hx
            exact Option.map_eq_some'.mpr ⟨a, ih _ _ ha, rfl⟩
          | [] =>
            obtain ⟨a, ha, rfl⟩ := Option.map_eq_some'.mp hx
            exact Option.map_eq_some'.mpr ⟨a, ih _ _ ha, rfl⟩
          | e1 :: e2 :: t =>
            obtain ⟨a, ha, rfl⟩ := Option.map_eq_some'.mp hx
            exact Option.map_eq_some'.mpr ⟨a, ih _ _ ha, rfl⟩
        · by_cases hlen : out.length ≠ exprs.length
          · rw [if_pos hlen] at hpost ⊢
            exact ih _ _ hpost
          · rw [if_neg hlen] at hpost ⊢
            exact hpost
      all_goals simp [shake] at h

end Tau

namespace Tau

theorem noOrNegL_append : ∀ {xs ys : List Expression},
    noOrNegL (xs ++ ys) = (noOrNegL xs && noOrNegL ys) := by
  intro xs
  induction xs with
  | nil => intro ys; simp [noOrNegL]
  | cons x rest ih =>
    intro ys
    simp [noOrNegL, ih, Bool.and_assoc]

theorem noOrNegL_mem : ∀ {l : List Expression}, noOrNegL l = true →
    ∀ x ∈ l, noOrNeg x = true := by
  intro l
  induction l with
  | nil => intro _ x hx; exact absurd hx (List.not_mem_nil _)
  | cons y rest ih =>
    intro h x hx
    rw [noOrNegL, Bool.and_eq_true_iff] at h
    rcases List.mem_cons.mp hx with hx | hx
    · exact hx ▸ h.1
    · exact ih h.2 x hx

theorem noOrNegL_of_forall : ∀ {l : List Expression},
    (∀ x ∈ l, noOrNeg x = true) → noOrNegL l = true := by
  intro l
  induction l with
  | nil => intro _; simp [noOrNegL]
  | cons y rest ih =>
    intro h
    rw [noOrNegL, Bool.and_eq_true_iff]
    exact ⟨h y (List.mem_cons_self ..), ih (fun x hx => h x (List.mem_cons_of_mem _ hx))⟩

/-- A pointwise-identity `Option` function maps a list to itself. -/
theorem mapM_self {f : Expression → Option Expression} :
    ∀ {l : List Expression}, (∀ x ∈ l, f x = some x) → l.mapM f = some l := by
  intro l
  induction l with
  | nil => intro _; rfl
  | cons x rest ih =>
    intro h
    rw [List.mapM_cons]
    simp only [Option.pure_def, Option.bind_eq_bind, Option.bind_eq_some, Option.some.injEq]
    exact ⟨x, h x (List.mem_cons_self ..), rest,
      ih (fun y hy => h y (List.mem_cons_of_mem _ hy)), rfl⟩

set_option maxHeartbeats 2000000 in
/-- The De Morgan instruction is only issued for an `And` of two
negations. -/
theorem combineBool_demorgan_shape {l r l1 r1 : Expression} {s : BoolSym}
    (h : combineBool l s r = .demorgan l1 r1) :
    l = Expression.negate l1 ∧ r = Expression.negate r1 ∧ s = BoolSym.and := by
  unfold combineBool at h
  split at h <;> first | (cases h; exact ⟨rfl, rfl, rfl⟩) | simp at h

set_option maxHeartbeats 2000000 in
/-- The expression rebuilt by a `reshake` instruction stays inside the
Or-free, Negate-free fragment. -/
theorem combineBool_reshake_noOrNeg {l r e : Expression} {s : BoolSym}
    (hl : noOrNeg l = true) (hr : noOrNeg r = true)
    (h : combineBool l s r = .reshake e) : noOrNeg e = true := by
  unfold combineBool at h
  split at h
  all_goals first
    | exact CombineStep.noConfusion h
    | (cases h; simp_all [noOrNeg, noOrNegL, noOrNegL_append])

end Tau

namespace Tau

/-- On the Or-free, Negate-free fragment, a successful shake yields a
result that is again in the fragment and is a fixed point of `shake` at
the same fuel. -/
theorem noOrNeg_stable : ∀ (n : Nat) (e r : Expression), noOrNeg e = true →
    shake n e = some r → noOrNeg r = true ∧ shake n r = some r := by
  intro n
  induction n with
  | zero =>
    intro e r _ h
    simp [shake] at h
  | succ n ih =>
    intro e r hw h
    cases e with
    | boolean b =>
      simp only [shake, Option.some.injEq] at h
      subst h
      exact ⟨hw, rfl⟩
    | cast f m =>
      simp only [shake, Option.some.injEq] at h
      subst h
      exact ⟨hw, rfl⟩
    | field f =>
      simp only [shake, Option.some.injEq] at h
      subst h
      exact ⟨hw, rfl⟩
    | float x =>
      simp only [shake, Option.some.injEq] at h
      subst h
      exact ⟨hw, rfl⟩
    | identifier i =>
      simp only [shake, Option.some.injEq] at h
      subst h
      exact ⟨hw, rfl⟩
    | integer i =>
      simp only [shake, Option.some.injEq] at h
      subst h
      exact ⟨hw, rfl⟩
    | null =>
      simp only [shake, Option.some.injEq] at h
      subst h
      exact ⟨hw, rfl⟩
    | search k f c =>
      simp only [shake, Option.some.injEq] at h
      subst h
      exact ⟨hw, rfl⟩
    | negate e0 => simp [noOrNeg] at hw
    | nested f e0 =>
      simp only [shake, Option.map_eq_some'] at h
      obtain ⟨a, ha, rfl⟩ := h
      have hw0 : noOrNeg e0 = true := by simpa [noOrNeg] using hw
      obtain ⟨hwa, hsa⟩ := ih e0 a hw0 ha
      refine ⟨by simpa [noOrNeg] using hwa, ?_⟩
      exact Option.map_eq_some'.mpr ⟨a, hsa, rfl⟩
    | matchExpr sym e0 =>
      cases sym with
      | of k =>
        simp only [shake, Option.some.injEq] at h
        subst h
        exact ⟨hw, rfl⟩
      | all =>
        cases e0 with
        | booleanGroup op2 exprs2 =>
          cases op2
          case or => simp [noOrNeg, noOrNegL] at hw
          all_goals
            simp only [shake, Option.some.injEq] at h
            subst h
            exact ⟨hw, rfl⟩
        | _ =>
          simp only [shake, Option.some.injEq] at h
          subst h
          exact ⟨hw, rfl⟩
    | booleanExpression l s r0 =>
      cases s
      case or => simp [noOrNeg] at hw
      all_goals (
        simp only [shake, Option.pure_def, Option.bind_eq_bind, Option.bind_eq_some] at h
        obtain ⟨a, ha, b, hb, hm⟩ := h
        have hwl : noOrNeg l = true := by
          simp only [noOrNeg, Bool.and_eq_true_iff] at hw
          exact hw.1.2
        have hwr : noOrNeg r0 = true := by
          simp only [noOrNeg, Bool.and_eq_true_iff] at hw
          exact hw.2
        obtain ⟨hwa, hsa⟩ := ih l a hwl ha
        obtain ⟨hwb, hsb⟩ := ih r0 b hwr hb
        cases hcomb : combineBool a _ b with
        | keep e1 =>
          rw [hcomb] at hm
          rw [Option.some.injEq] at hm
          have he1 := combineBool_keep_shape hcomb
          rw [hm] at he1
          subst he1
          refine ⟨by simp [noOrNeg, hwa, hwb], ?_⟩
          simp only [shake, Option.pure_def, Option.bind_eq_bind, Option.bind_eq_some]
          refine ⟨a, hsa, b, hsb, ?_⟩
          rw [hcomb]
          exact congrArg some hm
        | reshake e1 =>
          rw [hcomb] at hm
          have hwe1 := combineBool_reshake_noOrNeg hwa hwb hcomb
          obtain ⟨hwr2, hsr2⟩ := ih e1 r hwe1 hm
          exact ⟨hwr2, shake_mono n r r hsr2⟩
        | demorgan l1 r1 =>
          obtain ⟨hal, _, _⟩ := combineBool_demorgan_shape hcomb
          rw [hal] at hwa
          simp [noOrNeg] at hwa)
    | booleanGroup op exprs =>
      cases op
      case or => simp [noOrNeg] at hw
      case and =>
        have hwl : noOrNegL exprs = true := by
          simpa [noOrNeg] using hw
        simp only [shake, Option.pure_def, Option.bind_eq_bind, Option.bind_eq_some] at h
        obtain ⟨out, hout, hpost⟩ := h
        have hlen := mapM_some_length hout
        have hchild : ∀ x ∈ out, noOrNeg x = true ∧ shake n x = some x := by
          intro x hx
          obtain ⟨orig, horig, hsh⟩ := mapM_some_mem hout x hx
          exact ih orig x (noOrNegL_mem hwl orig horig) hsh
        rw [if_neg (by omega)] at hpost
        cases out with
        | nil =>
          rw [Option.some.injEq] at hpost
          subst hpost
          refine ⟨by simp [noOrNeg, noOrNegL], ?_⟩
          simp only [shake, Option.pure_def, Option.bind_eq_bind, Option.bind_eq_some]
          refine ⟨[], by rfl, ?_⟩
          rw [if_neg (by simp)]
        | cons x t =>
          cases t with
          | nil =>
            rw [Option.some.injEq] at hpost
            subst hpost
            obtain ⟨hwx, hsx⟩ := hchild x (List.mem_cons_self ..)
            exact ⟨hwx, shake_mono n x x hsx⟩
          | cons y t2 =>
            rw [Option.some.injEq] at hpost
            subst hpost
            refine ⟨by
              simp only [noOrNeg]
              exact noOrNegL_of_forall (fun z hz => (hchild z hz).1), ?_⟩
            simp only [shake, Option.pure_def, Option.bind_eq_bind, Option.bind_eq_some]
            refine ⟨x :: y :: t2, mapM_self (fun z hz => (hchild z hz).2), ?_⟩
            rw [if_neg (by simp)]
      all_goals simp [shake] at h

end Tau

namespace Tau

/-- C4 (amended): `optimise`/`shake` is not idempotent in general (see
the counterexample: the `Negate` arm inspects its operand before shaking
it, so a freshly flattened Or-group under a `Negate` is rewritten again
by a second pass); on the fragment of expressions containing no `Or`
symbol and no `Negate` node, a successful `shake` is structurally
idempotent: its result is a fixed point of `shake` at the same fuel. -/
theorem shake_idempotent_on_or_negate_free (n : Nat) (e r : Expression)
    (hw : noOrNeg e = true) (h : shake n e = some r) : shake n r = some r :=
  (noOrNeg_stable n e r hw h).2

theorem shake_idempotent_on_or_negate_free_witness :
    shake 3 (.booleanExpression .null .and .null) =
      some (.booleanExpression .null .and .null) :=
  shake_idempotent_on_or_negate_free 3
    (.booleanExpression (.booleanGroup .and [.null]) .and .null)
    (.booleanExpression .null .and .null)
    (by simp [noOrNeg, noOrNegL]) (by rfl)

end Tau

namespace Tau

theorem sizeW_pos : ∀ e : Expression, 1 ≤ sizeW e := by
  intro e
  cases e <;> simp [sizeW] <;> omega

theorem sizeWL_append : ∀ {xs ys : List Expression},
    sizeWL (xs ++ ys) = sizeWL xs + sizeWL ys := by
  intro xs
  induction xs with
  | nil => intro ys; simp [sizeWL]
  | cons x rest ih => intro ys; simp [sizeWL, ih]; omega

theorem length_le_sizeWL : ∀ xs : List Expression, xs.length ≤ sizeWL xs := by
  intro xs
  induction xs with
  | nil => simp [sizeWL]
  | cons x rest ih =>
    rw [sizeWL, List.length_cons]
    have := sizeW_pos x
    omega

theorem glen_lt_sizeW : ∀ e : Expression, glen e < sizeW e := by
  intro e
  cases e <;> simp [glen, sizeW]
  case booleanGroup s xs =>
  have := length_le_sizeWL xs
  omega

theorem nu_lt_of_size_lt {a b : Expression} (h : sizeW a < sizeW b) : nu a < nu b := by
  have h1 := glen_lt_sizeW a
  have h2 : (sizeW a + 1) * (sizeW a + 1) ≤ sizeW b * sizeW b :=
    Nat.mul_le_mul h h
  unfold nu
  nlinarith [glen_lt_sizeW b]

theorem nu_lt_of_group_len_lt {s : BoolSym} {xs ys : List Expression}
    (hsize : sizeW (.booleanGroup s ys) ≤ sizeW (.booleanGroup s xs))
    (hlen : ys.length < xs.length) :
    nu (.booleanGroup s ys) < nu (.booleanGroup s xs) := by
  rcases Nat.lt_or_ge (sizeW (Expression.booleanGroup s ys))
      (sizeW (Expression.booleanGroup s xs)) with h | h
  · exact nu_lt_of_size_lt h
  · have heq : sizeW (Expression.booleanGroup s ys) = sizeW (Expression.booleanGroup s xs) :=
      Nat.le_antisymm hsize h
    unfold nu
    rw [heq]
    simp only [glen]
    omega

theorem sizeWL_mem_le : ∀ {xs : List Expression} {x : Expression}, x ∈ xs →
    sizeW x ≤ sizeWL xs := by
  intro xs
  induction xs with
  | nil => intro x hx; exact absurd hx (List.not_mem_nil _)
  | cons y rest ih =>
    intro x hx
    rw [sizeWL]
    rcases List.mem_cons.mp hx with hx | hx
    · subst hx
      have := Nat.zero_le (sizeWL rest)
      omega
    · have h2 := ih hx
      have := sizeW_pos y
      omega

theorem wfGroupsL_append : ∀ {xs ys : List Expression},
    wfGroupsL (xs ++ ys) = (wfGroupsL xs && wfGroupsL ys) := by
  intro xs
  induction xs with
  | nil => intro ys; simp [wfGroupsL]
  | cons x rest ih => intro ys; simp [wfGroupsL, ih, Bool.and_assoc]

theorem wfGroupsL_mem : ∀ {l : List Expression}, wfGroupsL l = true →
    ∀ x ∈ l, wfGroups x = true := by
  intro l
  induction l with
  | nil => intro _ x hx; exact absurd hx (List.not_mem_nil _)
  | cons y rest ih =>
    intro h x hx
    rw [wfGroupsL, Bool.and_eq_true_iff] at h
    rcases List.mem_cons.mp hx with hx | hx
    · exact hx ▸ h.1
    · exact ih h.2 x hx

theorem wfGroupsL_of_forall : ∀ {l : List Expression},
    (∀ x ∈ l, wfGroups x = true) → wfGroupsL l = true := by
  intro l
  induction l with
  | nil => intro _; simp [wfGroupsL]
  | cons y rest ih =>
    intro h
    rw [wfGroupsL, Bool.and_eq_true_iff]
    exact ⟨h y (List.mem_cons_self ..), ih (fun x hx => h x (List.mem_cons_of_mem _ hx))⟩

end Tau

namespace Tau

theorem mapPush_length_le {κ α : Type} [BEq κ] (m : List (κ × List α)) (k : κ) (v : α) :
    (mapPush m k v).length ≤ m.length + 1 := by
  induction m with
  | nil => simp [mapPush]
  | cons en rest ih =>
    obtain ⟨k', vs⟩ := en
    rw [mapPush]
    by_cases h : (k == k') = true
    · rw [if_pos h]
      simp
    · rw [if_neg h]
      simp only [List.length_cons]
      omega

theorem mapPush_length_mem {κ α : Type} [BEq κ] [LawfulBEq κ] {m : List (κ × List α)}
    {k : κ} (v : α) (hk : k ∈ m.map Prod.fst) :
    (mapPush m k v).length = m.length := by
  induction m with
  | nil => simp at hk
  | cons en rest ih =>
    obtain ⟨k', vs⟩ := en
    rw [mapPush]
    by_cases h : (k == k') = true
    · rw [if_pos h]
      simp
    · rw [if_neg h]
      simp only [List.length_cons]
      rw [List.map_cons] at hk
      rcases List.mem_cons.mp hk with hk | hk
      · exact absurd (beq_iff_eq.mpr hk) h
      · rw [ih hk]

theorem mapPush_key_mem {κ α : Type} [BEq κ] [LawfulBEq κ] (m : List (κ × List α))
    (k : κ) (v : α) : k ∈ (mapPush m k v).map Prod.fst := by
  rcases mapPush_keys m k v with ⟨he, hm⟩ | ⟨he, _⟩
  · rw [he]; exact hm
  · rw [he]; exact List.mem_append_right _ (List.mem_singleton.mpr rfl)

theorem mapPush_keys_mono {κ α : Type} [BEq κ] [LawfulBEq κ] {m : List (κ × List α)}
    {k k2 : κ} (v : α) (hk : k ∈ m.map Prod.fst) :
    k ∈ (mapPush m k2 v).map Prod.fst := by
  rcases mapPush_keys m k2 v with ⟨he, _⟩ | ⟨he, _⟩
  · rw [he]; exact hk
  · rw [he]; exact List.mem_append_left _ hk

theorem foldl_mapPush_length_mem {κ α γ : Type} [BEq κ] [LawfulBEq κ] (k : κ) (g : γ → α) :
    ∀ (cs : List γ) (m : List (κ × List α)), k ∈ m.map Prod.fst →
      (cs.foldl (fun acc c => mapPush acc k (g c)) m).length = m.length := by
  intro cs
  induction cs with
  | nil => intro m _; rfl
  | cons c rest ih =>
    intro m hk
    rw [List.foldl_cons]
    rw [ih (mapPush m k (g c)) (mapPush_keys_mono (g c) hk)]
    exact mapPush_length_mem (g c) hk

theorem foldl_mapPush_length_le {κ α γ : Type} [BEq κ] [LawfulBEq κ] (k : κ) (g : γ → α) :
    ∀ (cs : List γ) (m : List (κ × List α)),
      (cs.foldl (fun acc c => mapPush acc k (g c)) m).length ≤ m.length + 1 := by
  intro cs
  cases cs with
  | nil => intro m; simp
  | cons c rest =>
    intro m
    rw [List.foldl_cons]
    rw [foldl_mapPush_length_mem k g rest (mapPush m k (g c)) (mapPush_key_mem m k (g c))]
    exact mapPush_length_le m k (g c)

theorem nestedWeight_mapPush {m : List (String × List Expression)} (f : String)
    (e : Expression) : nestedWeight (mapPush m f e) = nestedWeight m + 1 + sizeW e := by
  induction m with
  | nil => simp [mapPush, nestedWeight, sizeWL]
  | cons en rest ih =>
    obtain ⟨k', vs⟩ := en
    rw [mapPush]
    by_cases h : (f == k') = true
    · rw [if_pos h]
      simp only [nestedWeight, List.length_append, List.length_singleton, sizeWL_append]
      simp [sizeWL]
      omega
    · rw [if_neg h]
      simp only [nestedWeight]
      rw [ih]
      omega

theorem nestedWeight_mem {m : List (String × List Expression)} {en : String × List Expression}
    (hen : en ∈ m) : en.2.length + sizeWL en.2 ≤ nestedWeight m := by
  induction m with
  | nil => exact absurd hen (List.not_mem_nil _)
  | cons en0 rest ih =>
    rw [nestedWeight]
    rcases List.mem_cons.mp hen with he | he
    · subst he; omega
    · have := ih he
      omega

end Tau

namespace Tau

/-- One bucketing step adds at most the child's weight to the stored
bucket weight and at most one future output child. -/
theorem classifyOr_weight_count (b : OrBuckets) (x : Expression) :
    bucketsWeight (classifyOr b x) ≤ bucketsWeight b + sizeW x ∧
    bucketsCount (classifyOr b x) ≤ bucketsCount b + 1 := by
  cases x with
  | nested f e =>
    constructor
    · simp only [classifyOr, bucketsWeight, nestedWeight_mapPush, sizeW]
      omega
    · simp only [classifyOr, bucketsCount]
      have := mapPush_length_le b.nested f e
      omega
  | search kind f c =>
    cases kind with
    | any =>
      constructor
      · simp only [classifyOr, bucketsWeight, sizeWL_append, sizeW, sizeWL]
        omega
      · simp only [classifyOr, bucketsCount, List.length_append, List.length_singleton]
        omega
    | exact v =>
      constructor
      · simp only [classifyOr, bucketsWeight, sizeW]
        have := mapPush_length_le b.needles ((f, c, false) : NeedleKey)
          ((MatchType.exact v, v) : MatchType × String)
        omega
      · simp only [classifyOr, bucketsCount]
        have := mapPush_length_le b.needles ((f, c, false) : NeedleKey)
          ((MatchType.exact v, v) : MatchType × String)
        omega
    | contains v =>
      constructor
      · simp only [classifyOr, bucketsWeight, sizeW]
        have := mapPush_length_le b.needles ((f, c, false) : NeedleKey)
          ((MatchType.contains v, v) : MatchType × String)
        omega
      · simp only [classifyOr, bucketsCount]
        have := mapPush_length_le b.needles ((f, c, false) : NeedleKey)
          ((MatchType.contains v, v) : MatchType × String)
        omega
    | endsWith v =>
      constructor
      · simp only [classifyOr, bucketsWeight, sizeW]
        have := mapPush_length_le b.needles ((f, c, false) : NeedleKey)
          ((MatchType.endsWith v, v) : MatchType × String)
        omega
      · simp only [classifyOr, bucketsCount]
        have := mapPush_length_le b.needles ((f, c, false) : NeedleKey)
          ((MatchType.endsWith v, v) : MatchType × String)
        omega
    | startsWith v =>
      constructor
      · simp only [classifyOr, bucketsWeight, sizeW]
        have := mapPush_length_le b.needles ((f, c, false) : NeedleKey)
          ((MatchType.startsWith v, v) : MatchType × String)
        omega
      · simp only [classifyOr, bucketsCount]
        have := mapPush_length_le b.needles ((f, c, false) : NeedleKey)
          ((MatchType.startsWith v, v) : MatchType × String)
        omega
    | ahoCorasick aut ctx ins =>
      have hlen := @foldl_mapPush_length_le NeedleKey (MatchType × String) MatchType _ _
        (f, c, ins) (fun context => (context, context.value)) ctx b.needles
      simp only [] at hlen
      constructor
      · simp only [classifyOr, bucketsWeight, sizeW]
        omega
      · simp only [classifyOr, bucketsCount]
        omega
    | regex r ins =>
      have hlen := mapPush_length_le b.patterns ((f, c, ins) : NeedleKey) r
      constructor
      · simp only [classifyOr, bucketsWeight, sizeW]
        omega
      · simp only [classifyOr, bucketsCount]
        omega
    | regexSet rs ins =>
      have hlen := @foldl_mapPush_length_le NeedleKey String String _ _
        (f, c, ins) (fun p => p) rs b.patterns
      simp only [] at hlen
      constructor
      · simp only [classifyOr, bucketsWeight, sizeW]
        omega
      · simp only [classifyOr, bucketsCount]
        omega
  | boolean v =>
    refine ⟨?_, ?_⟩ <;>
      simp only [classifyOr, bucketsWeight, bucketsCount, sizeWL_append, sizeW, sizeWL,
        List.length_append, List.length_singleton] <;> omega
  | booleanExpression l s r =>
    refine ⟨?_, ?_⟩ <;>
      simp only [classifyOr, bucketsWeight, bucketsCount, sizeWL_append, sizeW, sizeWL,
        List.length_append, List.length_singleton] <;> omega
  | booleanGroup s xs =>
    refine ⟨?_, ?_⟩ <;>
      simp only [classifyOr, bucketsWeight, bucketsCount, sizeWL_append, sizeW, sizeWL,
        List.length_append, List.length_singleton] <;> omega
  | cast f m =>
    refine ⟨?_, ?_⟩ <;>
      simp only [classifyOr, bucketsWeight, bucketsCount, sizeWL_append, sizeW, sizeWL,
        List.length_append, List.length_singleton] <;> omega
  | field f =>
    refine ⟨?_, ?_⟩ <;>
      simp only [classifyOr, bucketsWeight, bucketsCount, sizeWL_append, sizeW, sizeWL,
        List.length_append, List.length_singleton] <;> omega
  | float v =>
    refine ⟨?_, ?_⟩ <;>
      simp only [classifyOr, bucketsWeight, bucketsCount, sizeWL_append, sizeW, sizeWL,
        List.length_append, List.length_singleton] <;> omega
  | identifier i =>
    refine ⟨?_, ?_⟩ <;>
      simp only [classifyOr, bucketsWeight, bucketsCount, sizeWL_append, sizeW, sizeWL,
        List.length_append, List.length_singleton] <;> omega
  | integer i =>
    refine ⟨?_, ?_⟩ <;>
      simp only [classifyOr, bucketsWeight, bucketsCount, sizeWL_append, sizeW, sizeWL,
        List.length_append, List.length_singleton] <;> omega
  | matchExpr s e =>
    refine ⟨?_, ?_⟩ <;>
      simp only [classifyOr, bucketsWeight, bucketsCount, sizeWL_append, sizeW, sizeWL,
        List.length_append, List.length_singleton] <;> omega
  | negate e =>
    refine ⟨?_, ?_⟩ <;>
      simp only [classifyOr, bucketsWeight, bucketsCount, sizeWL_append, sizeW, sizeWL,
        List.length_append, List.length_singleton] <;> omega
  | null =>
    refine ⟨?_, ?_⟩ <;>
      simp only [classifyOr, bucketsWeight, bucketsCount, sizeWL_append, sizeW, sizeWL,
        List.length_append, List.length_singleton] <;> omega

/-- The bucketing fold stores at most the total child weight and emits
at most one output child per input child. -/
theorem classify_foldl_weight_count :
    ∀ (todo : List Expression) (b : OrBuckets),
      bucketsWeight (todo.foldl classifyOr b) ≤ bucketsWeight b + sizeWL todo ∧
      bucketsCount (todo.foldl classifyOr b) ≤ bucketsCount b + todo.length := by
  intro todo
  induction todo with
  | nil => intro b; simp [sizeWL]
  | cons x rest ih =>
    intro b
    rw [List.foldl_cons]
    obtain ⟨h1, h2⟩ := ih (classifyOr b x)
    obtain ⟨h3, h4⟩ := classifyOr_weight_count b x
    rw [sizeWL, List.length_cons]
    omega

end Tau

namespace Tau

/-- Each needles-map entry emits exactly one output child. -/
theorem emit_foldl_count :
    ∀ (entries : List (NeedleKey × List (MatchType × String))) (out : NeedleOut),
      needleCount (entries.foldl emitNeedleEntry out) = needleCount out + entries.length := by
  intro entries
  induction entries with
  | nil => intro out; simp
  | cons en rest ih =>
    intro out
    rw [List.foldl_cons, ih, List.length_cons]
    have hstep : needleCount (emitNeedleEntry out en) = needleCount out + 1 := by
      obtain ⟨⟨f, cst, ins⟩, vs⟩ := en
      cases ins with
      | true => simp [emitNeedleEntry, needleCount] <;> omega
      | false =>
        match vs with
        | [] => simp [emitNeedleEntry, needleCount] <;> omega
        | [single] =>
          obtain ⟨tag, needle⟩ := single
          cases tag <;> simp [emitNeedleEntry, needleCount] <;> omega
        | v1 :: v2 :: t => simp [emitNeedleEntry, needleCount] <;> omega
    omega

/-- Each patterns-map entry emits exactly one output child. -/
theorem emitPatterns_count :
    ∀ (entries : List (NeedleKey × List String)) (acc : List Expression × List Expression),
      (entries.foldl emitPatternEntry acc).1.length + (entries.foldl emitPatternEntry acc).2.length
        = acc.1.length + acc.2.length + entries.length := by
  intro entries
  induction entries with
  | nil => intro acc; simp
  | cons en rest ih =>
    intro acc
    rw [List.foldl_cons, ih, List.length_cons]
    have hstep : (emitPatternEntry acc en).1.length + (emitPatternEntry acc en).2.length
        = acc.1.length + acc.2.length + 1 := by
      obtain ⟨⟨f, cst, ins⟩, ps⟩ := en
      match ps with
      | [] => simp [emitPatternEntry] <;> omega
      | [single] => simp [emitPatternEntry] <;> omega
      | p1 :: p2 :: t => simp [emitPatternEntry] <;> omega
    omega

/-- A list of weight-1 expressions weighs its length. -/
theorem sizeWL_eq_length_of_unit {l : List Expression} (h : ∀ x ∈ l, sizeW x = 1) :
    sizeWL l = l.length := by
  induction l with
  | nil => simp [sizeWL]
  | cons x rest ih =>
    rw [sizeWL, List.length_cons, h x (List.mem_cons_self ..),
      ih (fun y hy => h y (List.mem_cons_of_mem _ hy))]
    omega

set_option maxHeartbeats 2000000 in
/-- The expression rebuilt by a `reshake` instruction weighs at most the
two sides together. -/
theorem combineBool_reshake_size {l r e : Expression} {s : BoolSym}
    (h : combineBool l s r = .reshake e) : sizeW e ≤ sizeW l + sizeW r := by
  unfold combineBool at h
  split at h
  all_goals first
    | exact CombineStep.noConfusion h
    | (cases h; simp [sizeW, sizeWL, sizeWL_append]; omega)

set_option maxHeartbeats 2000000 in
/-- The expression rebuilt by a `reshake` instruction stays well-formed
when both sides are. -/
theorem combineBool_reshake_wf {l r e : Expression} {s : BoolSym}
    (hl : wfGroups l = true) (hr : wfGroups r = true)
    (h : combineBool l s r = .reshake e) : wfGroups e = true := by
  unfold combineBool at h
  split at h
  all_goals first
    | exact CombineStep.noConfusion h
    | (cases h; simp_all [wfGroups, wfGroupsL, wfGroupsL_append])

/-- The weight of a successful `Option`-valued `mapM` output is bounded
by the input weight whenever the function is pointwise non-increasing. -/
theorem mapM_sizeWL {f : Expression → Option Expression}
    (hf : ∀ x y, f x = some y → sizeW y ≤ sizeW x) :
    ∀ {l ys : List Expression}, l.mapM f = some ys → sizeWL ys ≤ sizeWL l := by
  intro l
  induction l with
  | nil =>
    intro ys h
    rw [List.mapM_nil] at h
    cases h
    exact Nat.le_refl _
  | cons x rest ih =>
    intro ys h
    rw [List.mapM_cons] at h
    simp only [Option.pure_def, Option.bind_eq_bind, Option.bind_eq_some,
      Option.some.injEq] at h
    obtain ⟨y, hy, ys2, hys2, rfl⟩ := h
    rw [sizeWL, sizeWL]
    have := hf x y hy
    have := ih hys2
    omega

/-- Every element of a successful pointwise-`P` `mapM` output satisfies
the transported predicate. -/
theorem mapM_forall {α β : Type} {f : α → Option β} {P : α → Prop} {Q : β → Prop}
    (hf : ∀ x y, P x → f x = some y → Q y) :
    ∀ {l : List α} {ys : List β}, (∀ x ∈ l, P x) → l.mapM f = some ys →
      ∀ y ∈ ys, Q y := by
  intro l
  induction l with
  | nil =>
    intro ys _ h
    rw [List.mapM_nil] at h
    cases h
    intro y hy
    exact absurd hy (List.not_mem_nil _)
  | cons x rest ih =>
    intro ys hp h
    rw [List.mapM_cons] at h
    simp only [Option.pure_def, Option.bind_eq_bind, Option.bind_eq_some,
      Option.some.injEq] at h
    obtain ⟨y, hy, ys2, hys2, rfl⟩ := h
    intro z hz
    rcases List.mem_cons.mp hz with hz | hz
    · exact hz ▸ hf x y (hp x (List.mem_cons_self ..)) hy
    · exact ih (fun a ha => hp a (List.mem_cons_of_mem _ ha)) hys2 z hz

/-- A pointwise-successful `Option` function succeeds on `mapM`. -/
theorem mapM_isSome {α β : Type} {f : α → Option β} :
    ∀ {l : List α}, (∀ x ∈ l, ∃ y, f x = some y) → ∃ ys, l.mapM f = some ys := by
  intro l
  induction l with
  | nil => intro _; exact ⟨[], rfl⟩
  | cons x rest ih =>
    intro h
    obtain ⟨y, hy⟩ := h x (List.mem_cons_self ..)
    obtain ⟨ys, hys⟩ := ih (fun a ha => h a (List.mem_cons_of_mem _ ha))
    refine ⟨y :: ys, ?_⟩
    rw [List.mapM_cons]
    simp only [Option.pure_def, Option.bind_eq_bind, Option.bind_eq_some,
      Option.some.injEq]
    exact ⟨y, hy, ys, hys, rfl⟩

end Tau

namespace Tau

/-- The bucketing fold keeps every nested entry nonempty and filled with
well-formed collected children. -/
theorem classify_nested_wf :
    ∀ (todo : List Expression) (b : OrBuckets),
      (∀ x ∈ todo, wfGroups x = true) →
      (∀ en ∈ b.nested, en.2 ≠ [] ∧ ∀ e ∈ en.2, wfGroups e = true) →
      ∀ en ∈ (todo.foldl classifyOr b).nested, en.2 ≠ [] ∧ ∀ e ∈ en.2, wfGroups e = true := by
  intro todo
  induction todo with
  | nil => intro b _ hb; exact hb
  | cons x rest ih =>
    intro b hwf hb
    rw [List.foldl_cons]
    refine ih (classifyOr b x) (fun y hy => hwf y (List.mem_cons_of_mem _ hy)) ?_
    cases x with
    | nested f e =>
      have hwe : wfGroups e = true := by
        have := hwf _ (List.mem_cons_self ..)
        simpa [wfGroups] using this
      exact mapPush_entries (fun e2 => wfGroups e2 = true) hwe hb
    | search kind f c => cases kind <;> exact hb
    | boolean v => exact hb
    | booleanExpression l s r => exact hb
    | booleanGroup s xs => exact hb
    | cast f m => exact hb
    | field f => exact hb
    | float v => exact hb
    | identifier i => exact hb
    | integer i => exact hb
    | matchExpr s e => exact hb
    | negate e => exact hb
    | null => exact hb

/-- The nested-bucket emission: the emitted `Nested` children weigh at
most what the bucket accounted for, and stay well-formed — assuming the
size/well-formedness induction hypothesis at the inner fuel. -/
theorem nested_emission_wf_size (n : Nat)
    (IH : ∀ e r, wfGroups e = true → shake n e = some r →
      wfGroups r = true ∧ sizeW r ≤ sizeW e) :
    ∀ (entries : List (String × List Expression)),
      (∀ en ∈ entries, en.2 ≠ [] ∧ ∀ e ∈ en.2, wfGroups e = true) →
      ∀ (out : List Expression),
        entries.mapM (fun entry => match entry.2 with
          | [e] => (shake n e).map (Expression.nested entry.1 ·)
          | es => (shake n (.booleanGroup .or es)).map (Expression.nested entry.1 ·))
          = some out →
        sizeWL out ≤ nestedWeight entries ∧ ∀ x ∈ out, wfGroups x = true := by
  intro entries
  induction entries with
  | nil =>
    intro _ out h
    rw [List.mapM_nil] at h
    cases h
    exact ⟨by simp [sizeWL, nestedWeight], fun x hx => absurd hx (List.not_mem_nil _)⟩
  | cons en rest ih =>
    intro hprops out h
    rw [List.mapM_cons] at h
    simp only [Option.pure_def, Option.bind_eq_bind, Option.bind_eq_some,
      Option.some.injEq] at h
    obtain ⟨y, hy, ys, hys, rfl⟩ := h
    obtain ⟨hrest, hwrest⟩ := ih (fun e he => hprops e (List.mem_cons_of_mem _ he)) ys hys
    have hen := hprops en (List.mem_cons_self ..)
    obtain ⟨f, es⟩ := en
    have hstep : sizeW y ≤ es.length + sizeWL es ∧ wfGroups y = true := by
      match es, hen with
      | [], hen => exact absurd rfl hen.1
      | [e], hen =>
        obtain ⟨a, ha, rfl⟩ := Option.map_eq_some'.mp hy
        obtain ⟨hwa, hsa⟩ := IH e a (hen.2 e (List.mem_cons_self ..)) ha
        refine ⟨?_, by simpa [wfGroups] using hwa⟩
        simp only [sizeW, List.length_singleton, sizeWL]
        omega
      | e1 :: e2 :: t, hen =>
        obtain ⟨a, ha, rfl⟩ := Option.map_eq_some'.mp hy
        have hwg : wfGroups (.booleanGroup .or (e1 :: e2 :: t)) = true := by
          simp only [wfGroups, Bool.and_eq_true_iff]
          exact ⟨trivial, wfGroupsL_of_forall hen.2⟩
        obtain ⟨hwa, hsa⟩ := IH _ a hwg ha
        refine ⟨?_, by simpa [wfGroups] using hwa⟩
        have hs2 : sizeW (Expression.booleanGroup .or (e1 :: e2 :: t)) =
            1 + sizeWL (e1 :: e2 :: t) := by simp [sizeW]
        rw [hs2] at hsa
        simp only [sizeW, List.length_cons]
        omega
    simp only [nestedWeight, sizeWL]
    exact ⟨by omega, fun x hx => by
      rcases List.mem_cons.mp hx with hx | hx
      · exact hx ▸ hstep.2
      · exact hwrest x hx⟩

end Tau

namespace Tau

theorem sizeW_negate (e : Expression) : sizeW (Expression.negate e) = 2 + sizeW e := by
  simp [sizeW]

theorem sizeWL_perm : ∀ {l l' : List Expression}, l.Perm l' → sizeWL l = sizeWL l' := by
  intro l l' h
  induction h with
  | nil => rfl
  | cons x h ih => simp [sizeWL, ih]
  | swap x y l => simp [sizeWL]; omega
  | trans h1 h2 ih1 ih2 => exact ih1.trans ih2

/-- Pointwise transport of the size/well-formedness invariant through
the child `mapM` of a group arm. -/
theorem mapM_shake_wf_size (n : Nat)
    (IH : ∀ e r, wfGroups e = true → shake n e = some r →
      wfGroups r = true ∧ sizeW r ≤ sizeW e) :
    ∀ {l ys : List Expression}, (∀ x ∈ l, wfGroups x = true) → l.mapM (shake n) = some ys →
      sizeWL ys ≤ sizeWL l ∧ ys.length = l.length ∧ ∀ y ∈ ys, wfGroups y = true := by
  intro l
  induction l with
  | nil =>
    intro ys _ h
    rw [List.mapM_nil] at h
    cases h
    exact ⟨Nat.le_refl _, rfl, fun y hy => absurd hy (List.not_mem_nil _)⟩
  | cons x rest ih =>
    intro ys hwf h
    rw [List.mapM_cons] at h
    simp only [Option.pure_def, Option.bind_eq_bind, Option.bind_eq_some,
      Option.some.injEq] at h
    obtain ⟨y, hy, ys2, hys2, rfl⟩ := h
    obtain ⟨hwy, hsy⟩ := IH x y (hwf x (List.mem_cons_self ..)) hy
    obtain ⟨h1, h2, h3⟩ := ih (fun a ha => hwf a (List.mem_cons_of_mem _ ha)) hys2
    refine ⟨?_, by simp [h2], ?_⟩
    · rw [sizeWL, sizeWL]
      omega
    · intro z hz
      rcases List.mem_cons.mp hz with hz | hz
      · exact hz ▸ hwy
      · exact h3 z hz

set_option maxHeartbeats 2000000 in
/-- A successful `shake` preserves well-formedness and never increases
the weighted size. -/
theorem shake_wf_size : ∀ (n : Nat) (e r : Expression), wfGroups e = true →
    shake n e = some r → wfGroups r = true ∧ sizeW r ≤ sizeW e := by
  intro n
  induction n with
  | zero =>
    intro e r _ h
    simp [shake] at h
  | succ n ih =>
    intro e r hw h
    cases e with
    | boolean b =>
      simp only [shake, Option.some.injEq] at h
      exact h ▸ ⟨hw, Nat.le_refl _⟩
    | cast f m =>
      simp only [shake, Option.some.injEq] at h
      exact h ▸ ⟨hw, Nat.le_refl _⟩
    | field f =>
      simp only [shake, Option.some.injEq] at h
      exact h ▸ ⟨hw, Nat.le_refl _⟩
    | float x =>
      simp only [shake, Option.some.injEq] at h
      exact h ▸ ⟨hw, Nat.le_refl _⟩
    | identifier i =>
      simp only [shake, Option.some.injEq] at h
      exact h ▸ ⟨hw, Nat.le_refl _⟩
    | integer i =>
      simp only [shake, Option.some.injEq] at h
      exact h ▸ ⟨hw, Nat.le_refl _⟩
    | null =>
      simp only [shake, Option.some.injEq] at h
      exact h ▸ ⟨hw, Nat.le_refl _⟩
    | search k f c =>
      simp only [shake, Option.some.injEq] at h
      exact h ▸ ⟨hw, Nat.le_refl _⟩
    | nested f e0 =>
      simp only [shake, Option.map_eq_some'] at h
      obtain ⟨a, ha, rfl⟩ := h
      have hw0 : wfGroups e0 = true := by simpa [wfGroups] using hw
      obtain ⟨hwa, hsa⟩ := ih e0 a hw0 ha
      refine ⟨by simpa [wfGroups] using hwa, ?_⟩
      simp only [sizeW]
      omega
    | matchExpr sym e0 =>
      cases sym with
      | of k =>
        simp only [shake, Option.some.injEq] at h
        exact h ▸ ⟨hw, Nat.le_refl _⟩
      | all =>
        cases e0 with
        | booleanGroup op2 exprs2 =>
          cases op2
          case or =>
            simp only [shake, Option.some.injEq] at h
            subst h
            have hwl : wfGroupsL exprs2 = true := by
              simpa [wfGroups] using hw
            refine ⟨by simp [wfGroups, hwl], ?_⟩
            simp only [sizeW]
            omega
          all_goals
            simp only [shake, Option.some.injEq] at h
            exact h ▸ ⟨hw, Nat.le_refl _⟩
        | _ =>
          simp only [shake, Option.some.injEq] at h
          exact h ▸ ⟨hw, Nat.le_refl _⟩
    | negate e0 =>
      have hw0 : wfGroups e0 = true := by simpa [wfGroups] using hw
      cases e0 with
      | booleanGroup op2 exprs2 =>
        cases op2
        case or =>
          simp only [shake] at h
          have hwm : wfGroups (.matchExpr (.of 0) (.booleanGroup .or exprs2)) = true := by
            simpa [wfGroups] using hw0
          obtain ⟨hwr, hsr⟩ := ih _ r hwm h
          refine ⟨hwr, ?_⟩
          have h1 : sizeW (Expression.matchExpr (.of 0) (.booleanGroup .or exprs2)) =
              1 + (1 + sizeWL exprs2) := by simp [sizeW]
          have h2 : sizeW (Expression.negate (.booleanGroup .or exprs2)) =
              2 + (1 + sizeWL exprs2) := by simp [sizeW]
          omega
        all_goals
          simp only [shake, Option.map_eq_some'] at h
          obtain ⟨a, ha, rfl⟩ := h
          obtain ⟨hwa, hsa⟩ := ih _ a hw0 ha
          refine ⟨by simpa [wfGroups] using hwa, ?_⟩
          simp only [sizeW] at hsa ⊢
          omega
      | negate inner =>
        simp only [shake] at h
        have hwi : wfGroups inner = true := by simpa [wfGroups] using hw0
        obtain ⟨hwr, hsr⟩ := ih _ r hwi h
        refine ⟨hwr, ?_⟩
        have : sizeW (Expression.negate (.negate inner)) = 4 + sizeW inner := by
          simp [sizeW]
          omega
        omega
      | _ =>
        simp only [shake, Option.map_eq_some'] at h
        obtain ⟨a, ha, rfl⟩ := h
        obtain ⟨hwa, hsa⟩ := ih _ a hw0 ha
        refine ⟨by simpa [wfGroups] using hwa, ?_⟩
        rw [sizeW_negate, sizeW_negate]
        omega
    | booleanExpression l s r0 =>
      have hwl : wfGroups l = true := by
        simp only [wfGroups, Bool.and_eq_true_iff] at hw
        exact hw.1
      have hwr : wfGroups r0 = true := by
        simp only [wfGroups, Bool.and_eq_true_iff] at hw
        exact hw.2
      simp only [shake, Option.pure_def, Option.bind_eq_bind, Option.bind_eq_some] at h
      obtain ⟨a, ha, b, hb, hm⟩ := h
      obtain ⟨hwa, hsa⟩ := ih l a hwl ha
      obtain ⟨hwb, hsb⟩ := ih r0 b hwr hb
      cases hcomb : combineBool a s b with
      | keep e1 =>
        rw [hcomb] at hm
        rw [Option.some.injEq] at hm
        have he1 := combineBool_keep_shape hcomb
        rw [hm] at he1
        subst he1
        constructor
        · simp only [wfGroups, Bool.and_eq_true_iff]
          exact ⟨hwa, hwb⟩
        · simp only [sizeW]
          omega
      | reshake e1 =>
        rw [hcomb] at hm
        have hwe1 := combineBool_reshake_wf hwa hwb hcomb
        have hse1 := combineBool_reshake_size hcomb
        obtain ⟨hwr2, hsr2⟩ := ih e1 r hwe1 hm
        refine ⟨hwr2, ?_⟩
        simp only [sizeW]
        omega
      | demorgan l1 r1 =>
        rw [hcomb] at hm
        obtain ⟨hal, har, _⟩ := combineBool_demorgan_shape hcomb
        subst hal
        subst har
        have hwl1 : wfGroups l1 = true := by simpa [wfGroups] using hwa
        have hwr1 : wfGroups r1 = true := by simpa [wfGroups] using hwb
        obtain ⟨inner, hinner, hneg⟩ := Option.bind_eq_some.mp hm
        have hwo : wfGroups (.booleanExpression l1 .or r1) = true := by
          simp [wfGroups, hwl1, hwr1]
        obtain ⟨hwi, hsi⟩ := ih _ inner hwo hinner
        have hwn : wfGroups (.negate inner) = true := by simpa [wfGroups] using hwi
        obtain ⟨hwr2, hsr2⟩ := ih _ r hwn hneg
        refine ⟨hwr2, ?_⟩
        have e1 : sizeW (Expression.negate inner) = 2 + sizeW inner := by simp [sizeW]
        have e2 : sizeW (Expression.booleanExpression l1 .or r1) =
            1 + sizeW l1 + sizeW r1 := by simp [sizeW]
        have e3 : sizeW (Expression.negate l1) = 2 + sizeW l1 := by simp [sizeW]
        have e4 : sizeW (Expression.negate r1) = 2 + sizeW r1 := by simp [sizeW]
        have e5 : sizeW (Expression.booleanExpression l s r0) =
            1 + sizeW l + sizeW r0 := by simp [sizeW]
        omega
    | booleanGroup op exprs =>
      have hwl : wfGroupsL exprs = true := by
        cases op <;> simpa [wfGroups] using hw
      cases op
      case and =>
        simp only [shake, Option.pure_def, Option.bind_eq_bind, Option.bind_eq_some] at h
        obtain ⟨out, hout, hpost⟩ := h
        obtain ⟨hsout, hlout, hwout⟩ :=
          mapM_shake_wf_size n (fun e2 r2 => ih e2 r2) (wfGroupsL_mem hwl) hout
        rw [if_neg (by omega)] at hpost
        have hgoal : wfGroups (Expression.booleanGroup .and out) = true ∧
            sizeW (Expression.booleanGroup .and out) ≤
              sizeW (Expression.booleanGroup .and exprs) := by
          constructor
          · simp only [wfGroups, Bool.and_eq_true_iff]
            exact ⟨trivial, wfGroupsL_of_forall hwout⟩
          · simp only [sizeW]
            omega
        cases out with
        | nil =>
          rw [Option.some.injEq] at hpost
          exact hpost ▸ hgoal
        | cons x t =>
          cases t with
          | nil =>
            rw [Option.some.injEq] at hpost
            subst hpost
            refine ⟨hwout _ (List.mem_cons_self ..), ?_⟩
            have h1 : sizeWL [x] = sizeW x := by simp [sizeWL]
            simp only [sizeW]
            omega
          | cons y t2 =>
            rw [Option.some.injEq] at hpost
            exact hpost ▸ hgoal
      case or =>
        simp only [shake, Option.pure_def, Option.bind_eq_bind, Option.bind_eq_some,
          Option.some.injEq] at h
        obtain ⟨out, ⟨shaken, hshaken, nestedOut, hnest, hassemble⟩, hpost⟩ := h
        obtain ⟨hsshk, hlshk, hwshk⟩ :=
          mapM_shake_wf_size n (fun e2 r2 => ih e2 r2) (wfGroupsL_mem hwl) hshaken
        have hcls : ClassifyInv shaken (shaken.foldl classifyOr emptyOrBuckets) :=
          classify_foldl_inv shaken shaken emptyOrBuckets (fun _ hx => hx)
            (classifyInv_empty shaken)
        have hbw : sizeWL (shaken.foldl classifyOr emptyOrBuckets).any +
            sizeWL (shaken.foldl classifyOr emptyOrBuckets).rest +
            (shaken.foldl classifyOr emptyOrBuckets).needles.length +
            (shaken.foldl classifyOr emptyOrBuckets).patterns.length +
            nestedWeight (shaken.foldl classifyOr emptyOrBuckets).nested ≤
              sizeWL shaken := by
          have h0 := (classify_foldl_weight_count shaken emptyOrBuckets).1
          have hz : bucketsWeight emptyOrBuckets = 0 := by
            simp [bucketsWeight, emptyOrBuckets, sizeWL, nestedWeight]
          rw [hz] at h0
          simp only [bucketsWeight] at h0
          omega
        have hbc : (shaken.foldl classifyOr emptyOrBuckets).any.length +
            (shaken.foldl classifyOr emptyOrBuckets).rest.length +
            (shaken.foldl classifyOr emptyOrBuckets).needles.length +
            (shaken.foldl classifyOr emptyOrBuckets).patterns.length +
            (shaken.foldl classifyOr emptyOrBuckets).nested.length ≤ shaken.length := by
          have h0 := (classify_foldl_weight_count shaken emptyOrBuckets).2
          have hz : bucketsCount emptyOrBuckets = 0 := by
            simp [bucketsCount, emptyOrBuckets]
          rw [hz] at h0
          simp only [bucketsCount] at h0
          omega
        have hnwf := classify_nested_wf shaken emptyOrBuckets hwshk
          (fun en hen => absurd hen (List.not_mem_nil _))
        obtain ⟨hsnest, hwnest⟩ := nested_emission_wf_size n (fun e2 r2 => ih e2 r2)
          (shaken.foldl classifyOr emptyOrBuckets).nested hnwf nestedOut hnest
        have hlnest := mapM_some_length hnest
        have hemit : EmitInv ([] ++ ((shaken.foldl classifyOr emptyOrBuckets).needles.map
            Prod.fst)) ((shaken.foldl classifyOr emptyOrBuckets).needles.foldl
              emitNeedleEntry emptyNeedleOut) :=
          emit_foldl_inv _ [] emptyNeedleOut emitInv_empty hcls.2.1
            (fun k _ hk => absurd hk (List.not_mem_nil _)) hcls.2.2.1
        obtain ⟨hE, hS, hW, hC, hA, _, _⟩ := hemit
        have hnc : ((shaken.foldl classifyOr emptyOrBuckets).needles.foldl
              emitNeedleEntry emptyNeedleOut).exact.length +
            ((shaken.foldl classifyOr emptyOrBuckets).needles.foldl
              emitNeedleEntry emptyNeedleOut).starts_with.length +
            ((shaken.foldl classifyOr emptyOrBuckets).needles.foldl
              emitNeedleEntry emptyNeedleOut).ends_with.length +
            ((shaken.foldl classifyOr emptyOrBuckets).needles.foldl
              emitNeedleEntry emptyNeedleOut).contains.length +
            ((shaken.foldl classifyOr emptyOrBuckets).needles.foldl
              emitNeedleEntry emptyNeedleOut).aho.length =
            (shaken.foldl classifyOr emptyOrBuckets).needles.length := by
          have h0 := emit_foldl_count (shaken.foldl classifyOr emptyOrBuckets).needles
            emptyNeedleOut
          have hz : needleCount emptyNeedleOut = 0 := by simp [needleCount, emptyNeedleOut]
          rw [hz] at h0
          simp only [needleCount] at h0
          omega
        have hpat := emitPatterns_shapes (shaken.foldl classifyOr emptyOrBuckets).patterns
          ([], []) (fun x hx => absurd hx (List.not_mem_nil _))
          (fun x hx => absurd hx (List.not_mem_nil _))
        have hpc : ((shaken.foldl classifyOr emptyOrBuckets).patterns.foldl
              emitPatternEntry ([], [])).1.length +
            ((shaken.foldl classifyOr emptyOrBuckets).patterns.foldl
              emitPatternEntry ([], [])).2.length =
            (shaken.foldl classifyOr emptyOrBuckets).patterns.length := by
          have h0 := emitPatterns_count (shaken.foldl classifyOr emptyOrBuckets).patterns
            ([], [])
          simpa using h0
        have hqE : sizeWL (sortByB exactLe ((shaken.foldl classifyOr
            emptyOrBuckets).needles.foldl emitNeedleEntry emptyNeedleOut).exact) =
            ((shaken.foldl classifyOr emptyOrBuckets).needles.foldl
              emitNeedleEntry emptyNeedleOut).exact.length := by
          rw [sizeWL_perm (sortByB_perm _ _)]
          exact sizeWL_eq_length_of_unit (fun x hx => by
            obtain ⟨v, f2, c2, rfl⟩ := hE x hx
            simp [sizeW])
        have hqS : sizeWL (sortByB startsWithLe ((shaken.foldl classifyOr
            emptyOrBuckets).needles.foldl emitNeedleEntry emptyNeedleOut).starts_with) =
            ((shaken.foldl classifyOr emptyOrBuckets).needles.foldl
              emitNeedleEntry emptyNeedleOut).starts_with.length := by
          rw [sizeWL_perm (sortByB_perm _ _)]
          exact sizeWL_eq_length_of_unit (fun x hx => by
            obtain ⟨v, f2, c2, rfl⟩ := hS x hx
            simp [sizeW])
        have hqW : sizeWL (sortByB endsWithLe ((shaken.foldl classifyOr
            emptyOrBuckets).needles.foldl emitNeedleEntry emptyNeedleOut).ends_with) =
            ((shaken.foldl classifyOr emptyOrBuckets).needles.foldl
              emitNeedleEntry emptyNeedleOut).ends_with.length := by
          rw [sizeWL_perm (sortByB_perm _ _)]
          exact sizeWL_eq_length_of_unit (fun x hx => by
            obtain ⟨v, f2, c2, rfl⟩ := hW x hx
            simp [sizeW])
        have hqC : sizeWL (sortByB containsLe ((shaken.foldl classifyOr
            emptyOrBuckets).needles.foldl emitNeedleEntry emptyNeedleOut).contains) =
            ((shaken.foldl classifyOr emptyOrBuckets).needles.foldl
              emitNeedleEntry emptyNeedleOut).contains.length := by
          rw [sizeWL_perm (sortByB_perm _ _)]
          exact sizeWL_eq_length_of_unit (fun x hx => by
            obtain ⟨v, f2, c2, rfl⟩ := hC x hx
            simp [sizeW])
        have hqA : sizeWL (sortByB ahoLe ((shaken.foldl classifyOr
            emptyOrBuckets).needles.foldl emitNeedleEntry emptyNeedleOut).aho) =
            ((shaken.foldl classifyOr emptyOrBuckets).needles.foldl
              emitNeedleEntry emptyNeedleOut).aho.length := by
          rw [sizeWL_perm (sortByB_perm _ _)]
          exact sizeWL_eq_length_of_unit (fun x hx => by
            obtain ⟨_, aut, ctx, ins, f2, c2, rfl⟩ := hA x hx
            simp [sizeW])
        have hqR : sizeWL (sortByB regexLe ((shaken.foldl classifyOr
            emptyOrBuckets).patterns.foldl emitPatternEntry ([], [])).1) =
            ((shaken.foldl classifyOr emptyOrBuckets).patterns.foldl
              emitPatternEntry ([], [])).1.length := by
          rw [sizeWL_perm (sortByB_perm _ _)]
          exact sizeWL_eq_length_of_unit (fun x hx => by
            obtain ⟨p, ins, f2, c2, rfl⟩ := hpat.1 x hx
            simp [sizeW])
        have hqRS : sizeWL (sortByB regexSetLe ((shaken.foldl classifyOr
            emptyOrBuckets).patterns.foldl emitPatternEntry ([], [])).2) =
            ((shaken.foldl classifyOr emptyOrBuckets).patterns.foldl
              emitPatternEntry ([], [])).2.length := by
          rw [sizeWL_perm (sortByB_perm _ _)]
          exact sizeWL_eq_length_of_unit (fun x hx => by
            obtain ⟨ps, ins, f2, c2, rfl⟩ := hpat.2 x hx
            simp [sizeW])
        have hqany : sizeWL (shaken.foldl classifyOr emptyOrBuckets).any =
            (shaken.foldl classifyOr emptyOrBuckets).any.length :=
          sizeWL_eq_length_of_unit (fun x hx => by
            obtain ⟨f2, c2, rfl⟩ := hcls.1 x hx
            simp [sizeW])
        have hsize_out : sizeWL out ≤ sizeWL shaken := by
          rw [← hassemble]
          simp only [sizeWL_append]
          omega
        have hlen_out : out.length ≤ shaken.length := by
          rw [← hassemble]
          simp only [List.length_append]
          rw [(sortByB_perm exactLe _).length_eq, (sortByB_perm startsWithLe _).length_eq,
            (sortByB_perm endsWithLe _).length_eq, (sortByB_perm containsLe _).length_eq,
            (sortByB_perm ahoLe _).length_eq, (sortByB_perm regexLe _).length_eq,
            (sortByB_perm regexSetLe _).length_eq]
          omega
        have hwf_out : ∀ x ∈ out, wfGroups x = true := by
          intro x hx
          rw [← hassemble] at hx
          simp only [List.append_assoc, List.mem_append] at hx
          rcases hx with hx | hx | hx | hx | hx | hx | hx | hx | hx | hx
          · obtain ⟨f2, c2, rfl⟩ := hcls.1 x hx
            simp [wfGroups]
          · obtain ⟨v, f2, c2, rfl⟩ := hE x (mem_sortByB.mp hx)
            simp [wfGroups]
          · obtain ⟨v, f2, c2, rfl⟩ := hS x (mem_sortByB.mp hx)
            simp [wfGroups]
          · obtain ⟨v, f2, c2, rfl⟩ := hW x (mem_sortByB.mp hx)
            simp [wfGroups]
          · obtain ⟨v, f2, c2, rfl⟩ := hC x (mem_sortByB.mp hx)
            simp [wfGroups]
          · obtain ⟨_, aut, ctx, ins, f2, c2, rfl⟩ := hA x (mem_sortByB.mp hx)
            simp [wfGroups]
          · obtain ⟨p, ins, f2, c2, rfl⟩ := hpat.1 x (mem_sortByB.mp hx)
            simp [wfGroups]
          · obtain ⟨ps, ins, f2, c2, rfl⟩ := hpat.2 x (mem_sortByB.mp hx)
            simp [wfGroups]
          · exact hwshk x (hcls.2.2.2 x hx).2
          · exact hwnest x hx
        have hgoal : wfGroups (Expression.booleanGroup .or out) = true ∧
            sizeW (Expression.booleanGroup .or out) ≤
              sizeW (Expression.booleanGroup .or exprs) := by
          constructor
          · simp only [wfGroups, Bool.and_eq_true_iff]
            exact ⟨trivial, wfGroupsL_of_forall hwf_out⟩
          · simp only [sizeW]
            omega
        by_cases hlen2 : out.length ≠ exprs.length
        · rw [if_pos hlen2] at hpost
          obtain ⟨hwr, hsr⟩ := ih _ r hgoal.1 hpost
          exact ⟨hwr, Nat.le_trans hsr hgoal.2⟩
        · rw [if_neg hlen2] at hpost
          cases out with
          | nil =>
            rw [Option.some.injEq] at hpost
            exact hpost ▸ hgoal
          | cons x t =>
            cases t with
            | nil =>
              rw [Option.some.injEq] at hpost
              subst hpost
              refine ⟨hwf_out _ (List.mem_cons_self ..), ?_⟩
              have h1 : sizeWL [x] = sizeW x := by simp [sizeWL]
              have h2 : sizeW (Expression.booleanGroup BoolSym.or exprs) =
                  1 + sizeWL exprs := by simp [sizeW]
              simp only [sizeW]
              omega
            | cons y t2 =>
              rw [Option.some.injEq] at hpost
              exact hpost ▸ hgoal
      all_goals simp [shake] at h

end Tau

namespace Tau

set_option maxHeartbeats 1000000 in
/-- The Or-arm assembly of already-shaken, well-formed children weighs
at most the children, is at most as long, and stays well-formed. -/
theorem or_assembly_wf_size (n : Nat) (shaken nestedOut out : List Expression)
    (hwshk : ∀ x ∈ shaken, wfGroups x = true)
    (hnest : (shaken.foldl classifyOr emptyOrBuckets).nested.mapM (fun entry =>
        match entry.2 with
        | [e] => (shake n e).map (Expression.nested entry.1 ·)
        | es => (shake n (.booleanGroup .or es)).map (Expression.nested entry.1 ·))
      = some nestedOut)
    (hassemble : (shaken.foldl classifyOr emptyOrBuckets).any
      ++ sortByB exactLe ((shaken.foldl classifyOr emptyOrBuckets).needles.foldl
        emitNeedleEntry emptyNeedleOut).exact
      ++ sortByB startsWithLe ((shaken.foldl classifyOr emptyOrBuckets).needles.foldl
        emitNeedleEntry emptyNeedleOut).starts_with
      ++ sortByB endsWithLe ((shaken.foldl classifyOr emptyOrBuckets).needles.foldl
        emitNeedleEntry emptyNeedleOut).ends_with
      ++ sortByB containsLe ((shaken.foldl classifyOr emptyOrBuckets).needles.foldl
        emitNeedleEntry emptyNeedleOut).contains
      ++ sortByB ahoLe ((shaken.foldl classifyOr emptyOrBuckets).needles.foldl
        emitNeedleEntry emptyNeedleOut).aho
      ++ sortByB regexLe ((shaken.foldl classifyOr emptyOrBuckets).patterns.foldl
        emitPatternEntry ([], [])).1
      ++ sortByB regexSetLe ((shaken.foldl classifyOr emptyOrBuckets).patterns.foldl
        emitPatternEntry ([], [])).2
      ++ ((shaken.foldl classifyOr emptyOrBuckets).rest ++ nestedOut) = out) :
    sizeWL out ≤ sizeWL shaken ∧ out.length ≤ shaken.length ∧
      ∀ x ∈ out, wfGroups x = true := by
  have hcls : ClassifyInv shaken (shaken.foldl classifyOr emptyOrBuckets) :=
    classify_foldl_inv shaken shaken emptyOrBuckets (fun _ hx => hx)
      (classifyInv_empty shaken)
  have hbw : sizeWL (shaken.foldl classifyOr emptyOrBuckets).any +
      sizeWL (shaken.foldl classifyOr emptyOrBuckets).rest +
      (shaken.foldl classifyOr emptyOrBuckets).needles.length +
      (shaken.foldl classifyOr emptyOrBuckets).patterns.length +
      nestedWeight (shaken.foldl classifyOr emptyOrBuckets).nested ≤
        sizeWL shaken := by
    have h0 := (classify_foldl_weight_count shaken emptyOrBuckets).1
    have hz : bucketsWeight emptyOrBuckets = 0 := by
      simp [bucketsWeight, emptyOrBuckets, sizeWL, nestedWeight]
    rw [hz] at h0
    simp only [bucketsWeight] at h0
    omega
  have hbc : (shaken.foldl classifyOr emptyOrBuckets).any.length +
      (shaken.foldl classifyOr emptyOrBuckets).rest.length +
      (shaken.foldl classifyOr emptyOrBuckets).needles.length +
      (shaken.foldl classifyOr emptyOrBuckets).patterns.length +
      (shaken.foldl classifyOr emptyOrBuckets).nested.length ≤ shaken.length := by
    have h0 := (classify_foldl_weight_count shaken emptyOrBuckets).2
    have hz : bucketsCount emptyOrBuckets = 0 := by
      simp [bucketsCount, emptyOrBuckets]
    rw [hz] at h0
    simp only [bucketsCount] at h0
    omega
  have hnwf := classify_nested_wf shaken emptyOrBuckets hwshk
    (fun en hen => absurd hen (List.not_mem_nil _))
  obtain ⟨hsnest, hwnest⟩ := nested_emission_wf_size n (fun e2 r2 => shake_wf_size n e2 r2)
    (shaken.foldl classifyOr emptyOrBuckets).nested hnwf nestedOut hnest
  have hlnest := mapM_some_length hnest
  have hemit : EmitInv ([] ++ ((shaken.foldl classifyOr emptyOrBuckets).needles.map
      Prod.fst)) ((shaken.foldl classifyOr emptyOrBuckets).needles.foldl
        emitNeedleEntry emptyNeedleOut) :=
    emit_foldl_inv _ [] emptyNeedleOut emitInv_empty hcls.2.1
      (fun k _ hk => absurd hk (List.not_mem_nil _)) hcls.2.2.1
  obtain ⟨hE, hS, hW, hC, hA, _, _⟩ := hemit
  have hnc : ((shaken.foldl classifyOr emptyOrBuckets).needles.foldl
        emitNeedleEntry emptyNeedleOut).exact.length +
      ((shaken.foldl classifyOr emptyOrBuckets).needles.foldl
        emitNeedleEntry emptyNeedleOut).starts_with.length +
      ((shaken.foldl classifyOr emptyOrBuckets).needles.foldl
        emitNeedleEntry emptyNeedleOut).ends_with.length +
      ((shaken.foldl classifyOr emptyOrBuckets).needles.foldl
        emitNeedleEntry emptyNeedleOut).contains.length +
      ((shaken.foldl classifyOr emptyOrBuckets).needles.foldl
        emitNeedleEntry emptyNeedleOut).aho.length =
      (shaken.foldl classifyOr emptyOrBuckets).needles.length := by
    have h0 := emit_foldl_count (shaken.foldl classifyOr emptyOrBuckets).needles
      emptyNeedleOut
    have hz : needleCount emptyNeedleOut = 0 := by simp [needleCount, emptyNeedleOut]
    rw [hz] at h0
    simp only [needleCount] at h0
    omega
  have hpat := emitPatterns_shapes (shaken.foldl classifyOr emptyOrBuckets).patterns
    ([], []) (fun x hx => absurd hx (List.not_mem_nil _))
    (fun x hx => absurd hx (List.not_mem_nil _))
  have hpc : ((shaken.foldl classifyOr emptyOrBuckets).patterns.foldl
        emitPatternEntry ([], [])).1.length +
      ((shaken.foldl classifyOr emptyOrBuckets).patterns.foldl
        emitPatternEntry ([], [])).2.length =
      (shaken.foldl classifyOr emptyOrBuckets).patterns.length := by
    have h0 := emitPatterns_count (shaken.foldl classifyOr emptyOrBuckets).patterns
      ([], [])
    simpa using h0
  have hqE : sizeWL (sortByB exactLe ((shaken.foldl classifyOr
      emptyOrBuckets).needles.foldl emitNeedleEntry emptyNeedleOut).exact) =
      ((shaken.foldl classifyOr emptyOrBuckets).needles.foldl
        emitNeedleEntry emptyNeedleOut).exact.length := by
    rw [sizeWL_perm (sortByB_perm _ _)]
    exact sizeWL_eq_length_of_unit (fun x hx => by
      obtain ⟨v, f2, c2, rfl⟩ := hE x hx
      simp [sizeW])
  have hqS : sizeWL (sortByB startsWithLe ((shaken.foldl classifyOr
      emptyOrBuckets).needles.foldl emitNeedleEntry emptyNeedleOut).starts_with) =
      ((shaken.foldl classifyOr emptyOrBuckets).needles.foldl
        emitNeedleEntry emptyNeedleOut).starts_with.length := by
    rw [sizeWL_perm (sortByB_perm _ _)]
    exact sizeWL_eq_length_of_unit (fun x hx => by
      obtain ⟨v, f2, c2, rfl⟩ := hS x hx
      simp [sizeW])
  have hqW : sizeWL (sortByB endsWithLe ((shaken.foldl classifyOr
      emptyOrBuckets).needles.foldl emitNeedleEntry emptyNeedleOut).ends_with) =
      ((shaken.foldl classifyOr emptyOrBuckets).needles.foldl
        emitNeedleEntry emptyNeedleOut).ends_with.length := by
    rw [sizeWL_perm (sortByB_perm _ _)]
    exact sizeWL_eq_length_of_unit (fun x hx => by
      obtain ⟨v, f2, c2, rfl⟩ := hW x hx
      simp [sizeW])
  have hqC : sizeWL (sortByB containsLe ((shaken.foldl classifyOr
      emptyOrBuckets).needles.foldl emitNeedleEntry emptyNeedleOut).contains) =
      ((shaken.foldl classifyOr emptyOrBuckets).needles.foldl
        emitNeedleEntry emptyNeedleOut).contains.length := by
    rw [sizeWL_perm (sortByB_perm _ _)]
    exact sizeWL_eq_length_of_unit (fun x hx => by
      obtain ⟨v, f2, c2, rfl⟩ := hC x hx
      simp [sizeW])
  have hqA : sizeWL (sortByB ahoLe ((shaken.foldl classifyOr
      emptyOrBuckets).needles.foldl emitNeedleEntry emptyNeedleOut).aho) =
      ((shaken.foldl classifyOr emptyOrBuckets).needles.foldl
        emitNeedleEntry emptyNeedleOut).aho.length := by
    rw [sizeWL_perm (sortByB_perm _ _)]
    exact sizeWL_eq_length_of_unit (fun x hx => by
      obtain ⟨_, aut, ctx, ins, f2, c2, rfl⟩ := hA x hx
      simp [sizeW])
  have hqR : sizeWL (sortByB regexLe ((shaken.foldl classifyOr
      emptyOrBuckets).patterns.foldl emitPatternEntry ([], [])).1) =
      ((shaken.foldl classifyOr emptyOrBuckets).patterns.foldl
        emitPatternEntry ([], [])).1.length := by
    rw [sizeWL_perm (sortByB_perm _ _)]
    exact sizeWL_eq_length_of_unit (fun x hx => by
      obtain ⟨p, ins, f2, c2, rfl⟩ := hpat.1 x hx
      simp [sizeW])
  have hqRS : sizeWL (sortByB regexSetLe ((shaken.foldl classifyOr
      emptyOrBuckets).patterns.foldl emitPatternEntry ([], [])).2) =
      ((shaken.foldl classifyOr emptyOrBuckets).patterns.foldl
        emitPatternEntry ([], [])).2.length := by
    rw [sizeWL_perm (sortByB_perm _ _)]
    exact sizeWL_eq_length_of_unit (fun x hx => by
      obtain ⟨ps, ins, f2, c2, rfl⟩ := hpat.2 x hx
      simp [sizeW])
  have hqany : sizeWL (shaken.foldl classifyOr emptyOrBuckets).any =
      (shaken.foldl classifyOr emptyOrBuckets).any.length :=
    sizeWL_eq_length_of_unit (fun x hx => by
      obtain ⟨f2, c2, rfl⟩ := hcls.1 x hx
      simp [sizeW])
  refine ⟨?_, ?_, ?_⟩
  · rw [← hassemble]
    simp only [sizeWL_append]
    omega
  · rw [← hassemble]
    simp only [List.length_append]
    rw [(sortByB_perm exactLe _).length_eq, (sortByB_perm startsWithLe _).length_eq,
      (sortByB_perm endsWithLe _).length_eq, (sortByB_perm containsLe _).length_eq,
      (sortByB_perm ahoLe _).length_eq, (sortByB_perm regexLe _).length_eq,
      (sortByB_perm regexSetLe _).length_eq]
    omega
  · intro x hx
    rw [← hassemble] at hx
    simp only [List.append_assoc, List.mem_append] at hx
    rcases hx with hx | hx | hx | hx | hx | hx | hx | hx | hx | hx
    · obtain ⟨f2, c2, rfl⟩ := hcls.1 x hx
      simp [wfGroups]
    · obtain ⟨v, f2, c2, rfl⟩ := hE x (mem_sortByB.mp hx)
      simp [wfGroups]
    · obtain ⟨v, f2, c2, rfl⟩ := hS x (mem_sortByB.mp hx)
      simp [wfGroups]
    · obtain ⟨v, f2, c2, rfl⟩ := hW x (mem_sortByB.mp hx)
      simp [wfGroups]
    · obtain ⟨v, f2, c2, rfl⟩ := hC x (mem_sortByB.mp hx)
      simp [wfGroups]
    · obtain ⟨_, aut, ctx, ins, f2, c2, rfl⟩ := hA x (mem_sortByB.mp hx)
      simp [wfGroups]
    · obtain ⟨p, ins, f2, c2, rfl⟩ := hpat.1 x (mem_sortByB.mp hx)
      simp [wfGroups]
    · obtain ⟨ps, ins, f2, c2, rfl⟩ := hpat.2 x (mem_sortByB.mp hx)
      simp [wfGroups]
    · exact hwshk x (hcls.2.2.2 x hx).2
    · exact hwnest x hx

end Tau

namespace Tau

theorem nu_lt_negate (e : Expression) : nu e < nu (Expression.negate e) :=
  nu_lt_of_size_lt (by rw [sizeW_negate]; omega)

theorem nu_lt_bexp_left (l : Expression) (s : BoolSym) (r : Expression) :
    nu l < nu (Expression.booleanExpression l s r) :=
  nu_lt_of_size_lt (by
    have h1 : sizeW (Expression.booleanExpression l s r) = 1 + sizeW l + sizeW r := by
      simp [sizeW]
    have h2 := sizeW_pos r
    omega)

theorem nu_lt_bexp_right (l : Expression) (s : BoolSym) (r : Expression) :
    nu r < nu (Expression.booleanExpression l s r) :=
  nu_lt_of_size_lt (by
    have h1 : sizeW (Expression.booleanExpression l s r) = 1 + sizeW l + sizeW r := by
      simp [sizeW]
    have h2 := sizeW_pos l
    omega)

theorem nu_lt_group_mem (s : BoolSym) {x : Expression} {xs : List Expression}
    (hx : x ∈ xs) : nu x < nu (Expression.booleanGroup s xs) :=
  nu_lt_of_size_lt (by
    have h1 : sizeW (Expression.booleanGroup s xs) = 1 + sizeWL xs := by simp [sizeW]
    have h2 := sizeWL_mem_le hx
    omega)

set_option maxHeartbeats 2000000 in
/-- Fuel sufficiency: `nu e + 1` units of fuel make `shake` succeed on
every well-formed expression (every recursive call strictly decreases
`nu`). -/
theorem shake_total : ∀ (k : Nat) (e : Expression), wfGroups e = true → nu e < k →
    ∃ r, shake k e = some r := by
  intro k
  induction k with
  | zero =>
    intro e _ h
    exact absurd h (Nat.not_lt_zero _)
  | succ k ih =>
    intro e hw hnu
    cases e with
    | boolean b => exact ⟨.boolean b, rfl⟩
    | cast f m => exact ⟨.cast f m, rfl⟩
    | field f => exact ⟨.field f, rfl⟩
    | float x => exact ⟨.float x, rfl⟩
    | identifier i => exact ⟨.identifier i, rfl⟩
    | integer i => exact ⟨.integer i, rfl⟩
    | null => exact ⟨.null, rfl⟩
    | search k2 f c => exact ⟨.search k2 f c, rfl⟩
    | nested f e0 =>
      have hw0 : wfGroups e0 = true := by simpa [wfGroups] using hw
      have hlt : nu e0 < nu (Expression.nested f e0) :=
        nu_lt_of_size_lt (by simp [sizeW])
      obtain ⟨a, ha⟩ := ih e0 hw0 (by omega)
      exact ⟨.nested f a, by
        simp only [shake]
        rw [ha]
        rfl⟩
    | matchExpr sym e0 =>
      cases sym with
      | of k2 => exact ⟨.matchExpr (.of k2) e0, rfl⟩
      | all =>
        cases e0 with
        | booleanGroup op2 exprs2 =>
          cases op2 <;> exact ⟨_, rfl⟩
        | _ => exact ⟨_, rfl⟩
    | negate e0 =>
      have hw0 : wfGroups e0 = true := by simpa [wfGroups] using hw
      cases e0 with
      | booleanGroup op2 exprs2 =>
        cases op2
        case or =>
          have hlt : nu (Expression.matchExpr (.of 0) (.booleanGroup .or exprs2)) <
              nu (Expression.negate (.booleanGroup .or exprs2)) :=
            nu_lt_of_size_lt (by simp [sizeW])
          have hwm : wfGroups (.matchExpr (.of 0) (.booleanGroup .or exprs2)) = true := by
            simpa [wfGroups] using hw0
          obtain ⟨r, hr⟩ := ih _ hwm (by omega)
          exact ⟨r, by simp only [shake]; exact hr⟩
        all_goals
          obtain ⟨a, ha⟩ := ih _ hw0 (Nat.lt_of_lt_of_le (nu_lt_negate _)
            (Nat.lt_succ_iff.mp hnu))
          exact ⟨.negate a, by
            simp only [shake]
            rw [ha]
            rfl⟩
      | negate inner =>
        have hwi : wfGroups inner = true := by simpa [wfGroups] using hw0
        have hlt : nu inner < nu (Expression.negate (.negate inner)) :=
          nu_lt_of_size_lt (by rw [sizeW_negate, sizeW_negate]; omega)
        obtain ⟨r, hr⟩ := ih _ hwi (by omega)
        exact ⟨r, by simp only [shake]; exact hr⟩
      | boolean b =>
        have hlt : nu (Expression.boolean b) < nu (Expression.negate (.boolean b)) :=
          nu_lt_of_size_lt (by rw [sizeW_negate]; omega)
        obtain ⟨a, ha⟩ := ih _ hw0 (by omega)
        exact ⟨.negate a, by simp only [shake]; rw [ha]; rfl⟩
      | booleanExpression l2 s2 r2 =>
        have hlt : nu (Expression.booleanExpression l2 s2 r2) <
            nu (Expression.negate (.booleanExpression l2 s2 r2)) :=
          nu_lt_of_size_lt (by rw [sizeW_negate]; omega)
        obtain ⟨a, ha⟩ := ih _ hw0 (by omega)
        exact ⟨.negate a, by simp only [shake]; rw [ha]; rfl⟩
      | cast f m =>
        have hlt : nu (Expression.cast f m) < nu (Expression.negate (.cast f m)) :=
          nu_lt_of_size_lt (by rw [sizeW_negate]; omega)
        obtain ⟨a, ha⟩ := ih _ hw0 (by omega)
        exact ⟨.negate a, by simp only [shake]; rw [ha]; rfl⟩
      | field f =>
        have hlt : nu (Expression.field f) < nu (Expression.negate (.field f)) :=
          nu_lt_of_size_lt (by rw [sizeW_negate]; omega)
        obtain ⟨a, ha⟩ := ih _ hw0 (by omega)
        exact ⟨.negate a, by simp only [shake]; rw [ha]; rfl⟩
      | float x =>
        have hlt : nu (Expression.float x) < nu (Expression.negate (.float x)) :=
          nu_lt_of_size_lt (by rw [sizeW_negate]; omega)
        obtain ⟨a, ha⟩ := ih _ hw0 (by omega)
        exact ⟨.negate a, by simp only [shake]; rw [ha]; rfl⟩
      | identifier i =>
        have hlt : nu (Expression.identifier i) < nu (Expression.negate (.identifier i)) :=
          nu_lt_of_size_lt (by rw [sizeW_negate]; omega)
        obtain ⟨a, ha⟩ := ih _ hw0 (by omega)
        exact ⟨.negate a, by simp only [shake]; rw [ha]; rfl⟩
      | integer i =>
        have hlt : nu (Expression.integer i) < nu (Expression.negate (.integer i)) :=
          nu_lt_of_size_lt (by rw [sizeW_negate]; omega)
        obtain ⟨a, ha⟩ := ih _ hw0 (by omega)
        exact ⟨.negate a, by simp only [shake]; rw [ha]; rfl⟩
      | matchExpr s2 e2 =>
        have hlt : nu (Expression.matchExpr s2 e2) <
            nu (Expression.negate (.matchExpr s2 e2)) :=
          nu_lt_of_size_lt (by rw [sizeW_negate]; omega)
        obtain ⟨a, ha⟩ := ih _ hw0 (by omega)
        exact ⟨.negate a, by simp only [shake]; rw [ha]; rfl⟩
      | nested f e2 =>
        have hlt : nu (Expression.nested f e2) < nu (Expression.negate (.nested f e2)) :=
          nu_lt_of_size_lt (by rw [sizeW_negate]; omega)
        obtain ⟨a, ha⟩ := ih _ hw0 (by omega)
        exact ⟨.negate a, by simp only [shake]; rw [ha]; rfl⟩
      | null =>
        have hlt : nu Expression.null < nu (Expression.negate .null) :=
          nu_lt_of_size_lt (by rw [sizeW_negate]; omega)
        obtain ⟨a, ha⟩ := ih _ hw0 (by omega)
        exact ⟨.negate a, by simp only [shake]; rw [ha]; rfl⟩
      | search k2 f c =>
        have hlt : nu (Expression.search k2 f c) <
            nu (Expression.negate (.search k2 f c)) :=
          nu_lt_of_size_lt (by rw [sizeW_negate]; omega)
        obtain ⟨a, ha⟩ := ih _ hw0 (by omega)
        exact ⟨.negate a, by simp only [shake]; rw [ha]; rfl⟩
    | booleanExpression l s r0 =>
      have hwl : wfGroups l = true := by
        simp only [wfGroups, Bool.and_eq_true_iff] at hw
        exact hw.1
      have hwr : wfGroups r0 = true := by
        simp only [wfGroups, Bool.and_eq_true_iff] at hw
        exact hw.2
      have hsz : sizeW (Expression.booleanExpression l s r0) =
          1 + sizeW l + sizeW r0 := by simp [sizeW]
      obtain ⟨a, ha⟩ := ih l hwl (by
        have := nu_lt_bexp_left l s r0
        omega)
      obtain ⟨b, hb⟩ := ih r0 hwr (by
        have := nu_lt_bexp_right l s r0
        omega)
      obtain ⟨hwa, hsa⟩ := shake_wf_size k l a hwl ha
      obtain ⟨hwb, hsb⟩ := shake_wf_size k r0 b hwr hb
      cases hcomb : combineBool a s b with
      | keep e1 =>
        refine ⟨e1, ?_⟩
        simp only [shake, Option.bind_eq_bind]
        rw [ha, Option.some_bind, hb, Option.some_bind, hcomb]
      | reshake e1 =>
        have hwe1 := combineBool_reshake_wf hwa hwb hcomb
        have hse1 := combineBool_reshake_size hcomb
        have hlt : nu e1 < nu (Expression.booleanExpression l s r0) :=
          nu_lt_of_size_lt (by rw [hsz]; omega)
        obtain ⟨r, hr⟩ := ih e1 hwe1 (by omega)
        refine ⟨r, ?_⟩
        simp only [shake, Option.bind_eq_bind]
        rw [ha, Option.some_bind, hb, Option.some_bind, hcomb]
        exact hr
      | demorgan l1 r1 =>
        obtain ⟨hal, har, _⟩ := combineBool_demorgan_shape hcomb
        have hwl1 : wfGroups l1 = true := by
          rw [hal] at hwa
          simpa [wfGroups] using hwa
        have hwr1 : wfGroups r1 = true := by
          rw [har] at hwb
          simpa [wfGroups] using hwb
        have hsal : sizeW a = 2 + sizeW l1 := by rw [hal, sizeW_negate]
        have hsbr : sizeW b = 2 + sizeW r1 := by rw [har, sizeW_negate]
        have hso : sizeW (Expression.booleanExpression l1 .or r1) =
            1 + sizeW l1 + sizeW r1 := by simp [sizeW]
        have hwo : wfGroups (.booleanExpression l1 .or r1) = true := by
          simp [wfGroups, hwl1, hwr1]
        have hlt1 : nu (Expression.booleanExpression l1 .or r1) <
            nu (Expression.booleanExpression l s r0) :=
          nu_lt_of_size_lt (by rw [hsz, hso]; omega)
        obtain ⟨inner, hinner⟩ := ih _ hwo (by omega)
        obtain ⟨hwi, hsi⟩ := shake_wf_size k _ inner hwo hinner
        have hwn : wfGroups (.negate inner) = true := by simpa [wfGroups] using hwi
        have hlt2 : nu (Expression.negate inner) <
            nu (Expression.booleanExpression l s r0) :=
          nu_lt_of_size_lt (by rw [hsz, sizeW_negate]; rw [hso] at hsi; omega)
        obtain ⟨r, hr⟩ := ih _ hwn (by omega)
        refine ⟨r, ?_⟩
        simp only [shake, Option.bind_eq_bind]
        rw [ha, Option.some_bind, hb, Option.some_bind, hcomb]
        exact Option.bind_eq_some.mpr ⟨inner, hinner, hr⟩
    | booleanGroup op exprs =>
      have hsz : sizeW (Expression.booleanGroup op exprs) = 1 + sizeWL exprs := by
        simp [sizeW]
      cases op
      case and =>
        have hwl : wfGroupsL exprs = true := by simpa [wfGroups] using hw
        have hchild : ∀ x ∈ exprs, ∃ y, shake k x = some y := by
          intro x hx
          refine ih x (wfGroupsL_mem hwl x hx) ?_
          have := nu_lt_group_mem BoolSym.and hx
          omega
        obtain ⟨out, hout⟩ := mapM_isSome hchild
        have hlen := mapM_some_length hout
        cases out with
        | nil =>
          refine ⟨.booleanGroup .and [], ?_⟩
          simp only [shake, Option.bind_eq_bind]
          refine Option.bind_eq_some.mpr ⟨[], hout, ?_⟩
          rw [if_neg (by omega)]
        | cons x t =>
          cases t with
          | nil =>
            refine ⟨x, ?_⟩
            simp only [shake, Option.bind_eq_bind]
            refine Option.bind_eq_some.mpr ⟨[x], hout, ?_⟩
            rw [if_neg (by omega)]
          | cons y t2 =>
            refine ⟨.booleanGroup .and (x :: y :: t2), ?_⟩
            simp only [shake, Option.bind_eq_bind]
            refine Option.bind_eq_some.mpr ⟨x :: y :: t2, hout, ?_⟩
            rw [if_neg (by omega)]
      case or =>
        have hwl : wfGroupsL exprs = true := by simpa [wfGroups] using hw
        have hchild : ∀ x ∈ exprs, ∃ y, shake k x = some y := by
          intro x hx
          refine ih x (wfGroupsL_mem hwl x hx) ?_
          have := nu_lt_group_mem BoolSym.or hx
          omega
        obtain ⟨shaken, hshaken⟩ := mapM_isSome hchild
        obtain ⟨hsshk, hlshk, hwshk⟩ := mapM_shake_wf_size k
          (fun e2 r2 => shake_wf_size k e2 r2) (wfGroupsL_mem hwl) hshaken
        have hnwf := classify_nested_wf shaken emptyOrBuckets hwshk
          (fun en hen => absurd hen (List.not_mem_nil _))
        have hnwb : nestedWeight (shaken.foldl classifyOr emptyOrBuckets).nested ≤
            sizeWL shaken := by
          have h0 := (classify_foldl_weight_count shaken emptyOrBuckets).1
          have hz : bucketsWeight emptyOrBuckets = 0 := by
            simp [bucketsWeight, emptyOrBuckets, sizeWL, nestedWeight]
          rw [hz] at h0
          simp only [bucketsWeight] at h0
          omega
        have hentry : ∀ en ∈ (shaken.foldl classifyOr emptyOrBuckets).nested,
            ∃ y, (match en.2 with
              | [e] => (shake k e).map (Expression.nested en.1 ·)
              | es => (shake k (.booleanGroup .or es)).map (Expression.nested en.1 ·))
              = some y := by
          intro en hen
          have hnon := hnwf en hen
          have hwt := nestedWeight_mem hen
          obtain ⟨f, es⟩ := en
          match es, hnon, hwt with
          | [], hnon, _ => exact absurd rfl hnon.1
          | [e], hnon, hwt =>
            have hwe := hnon.2 e (List.mem_cons_self ..)
            have hse : sizeWL [e] = sizeW e := by simp [sizeWL]
            have hlt : nu e < nu (Expression.booleanGroup .or exprs) := by
              refine nu_lt_of_size_lt ?_
              rw [hsz]
              simp only [List.length_singleton] at hwt
              omega
            obtain ⟨a, ha⟩ := ih e hwe (by omega)
            exact ⟨.nested f a, Option.map_eq_some'.mpr ⟨a, ha, rfl⟩⟩
          | e1 :: e2 :: t, hnon, hwt =>
            have hwg : wfGroups (.booleanGroup .or (e1 :: e2 :: t)) = true := by
              simp only [wfGroups, Bool.and_eq_true_iff]
              exact ⟨trivial, wfGroupsL_of_forall hnon.2⟩
            have hsg : sizeW (Expression.booleanGroup .or (e1 :: e2 :: t)) =
                1 + sizeWL (e1 :: e2 :: t) := by simp [sizeW]
            have hlt : nu (Expression.booleanGroup .or (e1 :: e2 :: t)) <
                nu (Expression.booleanGroup .or exprs) := by
              refine nu_lt_of_size_lt ?_
              rw [hsz, hsg]
              simp only [List.length_cons] at hwt
              omega
            obtain ⟨a, ha⟩ := ih _ hwg (by omega)
            exact ⟨.nested f a, Option.map_eq_some'.mpr ⟨a, ha, rfl⟩⟩
        obtain ⟨nestedOut, hnest⟩ := mapM_isSome hentry
        obtain ⟨hsout, hlout, hwout⟩ := or_assembly_wf_size k shaken nestedOut _
          hwshk hnest rfl
        by_cases hne : ((shaken.foldl classifyOr emptyOrBuckets).any
            ++ sortByB exactLe ((shaken.foldl classifyOr emptyOrBuckets).needles.foldl
              emitNeedleEntry emptyNeedleOut).exact
            ++ sortByB startsWithLe ((shaken.foldl classifyOr emptyOrBuckets).needles.foldl
              emitNeedleEntry emptyNeedleOut).starts_with
            ++ sortByB endsWithLe ((shaken.foldl classifyOr emptyOrBuckets).needles.foldl
              emitNeedleEntry emptyNeedleOut).ends_with
            ++ sortByB containsLe ((shaken.foldl classifyOr emptyOrBuckets).needles.foldl
              emitNeedleEntry emptyNeedleOut).contains
            ++ sortByB ahoLe ((shaken.foldl classifyOr emptyOrBuckets).needles.foldl
              emitNeedleEntry emptyNeedleOut).aho
            ++ sortByB regexLe ((shaken.foldl classifyOr emptyOrBuckets).patterns.foldl
              emitPatternEntry ([], [])).1
            ++ sortByB regexSetLe ((shaken.foldl classifyOr emptyOrBuckets).patterns.foldl
              emitPatternEntry ([], [])).2
            ++ ((shaken.foldl classifyOr emptyOrBuckets).rest ++ nestedOut)).length ≠
            exprs.length
        · have hwgroup : wfGroups (.booleanGroup .or ((shaken.foldl classifyOr
              emptyOrBuckets).any
              ++ sortByB exactLe ((shaken.foldl classifyOr emptyOrBuckets).needles.foldl
                emitNeedleEntry emptyNeedleOut).exact
              ++ sortByB startsWithLe ((shaken.foldl classifyOr
                emptyOrBuckets).needles.foldl emitNeedleEntry emptyNeedleOut).starts_with
              ++ sortByB endsWithLe ((shaken.foldl classifyOr emptyOrBuckets).needles.foldl
                emitNeedleEntry emptyNeedleOut).ends_with
              ++ sortByB containsLe ((shaken.foldl classifyOr emptyOrBuckets).needles.foldl
                emitNeedleEntry emptyNeedleOut).contains
              ++ sortByB ahoLe ((shaken.foldl classifyOr emptyOrBuckets).needles.foldl
                emitNeedleEntry emptyNeedleOut).aho
              ++ sortByB regexLe ((shaken.foldl classifyOr emptyOrBuckets).patterns.foldl
                emitPatternEntry ([], [])).1
              ++ sortByB regexSetLe ((shaken.foldl classifyOr emptyOrBuckets).patterns.foldl
                emitPatternEntry ([], [])).2
              ++ ((shaken.foldl classifyOr emptyOrBuckets).rest ++ nestedOut))) = true := by
            simp only [wfGroups, Bool.and_eq_true_iff]
            exact ⟨trivial, wfGroupsL_of_forall hwout⟩
          have hnu2 : nu (.booleanGroup .or ((shaken.foldl classifyOr emptyOrBuckets).any
              ++ sortByB exactLe ((shaken.foldl classifyOr emptyOrBuckets).needles.foldl
                emitNeedleEntry emptyNeedleOut).exact
              ++ sortByB startsWithLe ((shaken.foldl classifyOr
                emptyOrBuckets).needles.foldl emitNeedleEntry emptyNeedleOut).starts_with
              ++ sortByB endsWithLe ((shaken.foldl classifyOr emptyOrBuckets).needles.foldl
                emitNeedleEntry emptyNeedleOut).ends_with
              ++ sortByB containsLe ((shaken.foldl classifyOr emptyOrBuckets).needles.foldl
                emitNeedleEntry emptyNeedleOut).contains
              ++ sortByB ahoLe ((shaken.foldl classifyOr emptyOrBuckets).needles.foldl
                emitNeedleEntry emptyNeedleOut).aho
              ++ sortByB regexLe ((shaken.foldl classifyOr emptyOrBuckets).patterns.foldl
                emitPatternEntry ([], [])).1
              ++ sortByB regexSetLe ((shaken.foldl classifyOr emptyOrBuckets).patterns.foldl
                emitPatternEntry ([], [])).2
              ++ ((shaken.foldl classifyOr emptyOrBuckets).rest ++ nestedOut))) <
              nu (.booleanGroup .or exprs) := by
            refine nu_lt_of_group_len_lt ?_ ?_
            · have h1 : sizeW (Expression.booleanGroup BoolSym.or ((shaken.foldl classifyOr
                emptyOrBuckets).any
                ++ sortByB exactLe ((shaken.foldl classifyOr emptyOrBuckets).needles.foldl
                  emitNeedleEntry emptyNeedleOut).exact
                ++ sortByB startsWithLe ((shaken.foldl classifyOr
                  emptyOrBuckets).needles.foldl emitNeedleEntry emptyNeedleOut).starts_with
                ++ sortByB endsWithLe ((shaken.foldl classifyOr
                  emptyOrBuckets).needles.foldl emitNeedleEntry emptyNeedleOut).ends_with
                ++ sortByB containsLe ((shaken.foldl classifyOr
                  emptyOrBuckets).needles.foldl emitNeedleEntry emptyNeedleOut).contains
                ++ sortByB ahoLe ((shaken.foldl classifyOr emptyOrBuckets).needles.foldl
                  emitNeedleEntry emptyNeedleOut).aho
                ++ sortByB regexLe ((shaken.foldl classifyOr emptyOrBuckets).patterns.foldl
                  emitPatternEntry ([], [])).1
                ++ sortByB regexSetLe ((shaken.foldl classifyOr
                  emptyOrBuckets).patterns.foldl emitPatternEntry ([], [])).2
                ++ ((shaken.foldl classifyOr emptyOrBuckets).rest ++ nestedOut))) =
                1 + sizeWL ((shaken.foldl classifyOr emptyOrBuckets).any
                ++ sortByB exactLe ((shaken.foldl classifyOr emptyOrBuckets).needles.foldl
                  emitNeedleEntry emptyNeedleOut).exact
                ++ sortByB startsWithLe ((shaken.foldl classifyOr
                  emptyOrBuckets).needles.foldl emitNeedleEntry emptyNeedleOut).starts_with
                ++ sortByB endsWithLe ((shaken.foldl classifyOr
                  emptyOrBuckets).needles.foldl emitNeedleEntry emptyNeedleOut).ends_with
                ++ sortByB containsLe ((shaken.foldl classifyOr
                  emptyOrBuckets).needles.foldl emitNeedleEntry emptyNeedleOut).contains
                ++ sortByB ahoLe ((shaken.foldl classifyOr emptyOrBuckets).needles.foldl
                  emitNeedleEntry emptyNeedleOut).aho
                ++ sortByB regexLe ((shaken.foldl classifyOr emptyOrBuckets).patterns.foldl
                  emitPatternEntry ([], [])).1
                ++ sortByB regexSetLe ((shaken.foldl classifyOr
                  emptyOrBuckets).patterns.foldl emitPatternEntry ([], [])).2
                ++ ((shaken.foldl classifyOr emptyOrBuckets).rest ++ nestedOut)) := by
                simp [sizeW]
              rw [h1, hsz]
              omega
            · omega
          obtain ⟨r, hr⟩ := ih _ hwgroup (by omega)
          refine ⟨r, ?_⟩
          simp only [shake, Option.bind_eq_bind, Option.pure_def]
          refine Option.bind_eq_some.mpr ⟨_, Option.bind_eq_some.mpr ⟨shaken, hshaken,
            Option.bind_eq_some.mpr ⟨nestedOut, hnest, rfl⟩⟩, ?_⟩
          rw [if_pos hne]
          exact hr
        · rcases hbig : (shaken.foldl classifyOr emptyOrBuckets).any
              ++ sortByB exactLe ((shaken.foldl classifyOr emptyOrBuckets).needles.foldl
                emitNeedleEntry emptyNeedleOut).exact
              ++ sortByB startsWithLe ((shaken.foldl classifyOr
                emptyOrBuckets).needles.foldl emitNeedleEntry emptyNeedleOut).starts_with
              ++ sortByB endsWithLe ((shaken.foldl classifyOr emptyOrBuckets).needles.foldl
                emitNeedleEntry emptyNeedleOut).ends_with
              ++ sortByB containsLe ((shaken.foldl classifyOr emptyOrBuckets).needles.foldl
                emitNeedleEntry emptyNeedleOut).contains
              ++ sortByB ahoLe ((shaken.foldl classifyOr emptyOrBuckets).needles.foldl
                emitNeedleEntry emptyNeedleOut).aho
              ++ sortByB regexLe ((shaken.foldl classifyOr emptyOrBuckets).patterns.foldl
                emitPatternEntry ([], [])).1
              ++ sortByB regexSetLe ((shaken.foldl classifyOr emptyOrBuckets).patterns.foldl
                emitPatternEntry ([], [])).2
              ++ ((shaken.foldl classifyOr emptyOrBuckets).rest ++ nestedOut)
            with _ | ⟨x, _ | ⟨y, t2⟩⟩
          · refine ⟨.booleanGroup .or [], ?_⟩
            simp only [shake, Option.bind_eq_bind, Option.pure_def]
            refine Option.bind_eq_some.mpr ⟨_, Option.bind_eq_some.mpr ⟨shaken, hshaken,
              Option.bind_eq_some.mpr ⟨nestedOut, hnest, rfl⟩⟩, ?_⟩
            rw [if_neg hne, hbig]
          · refine ⟨x, ?_⟩
            simp only [shake, Option.bind_eq_bind, Option.pure_def]
            refine Option.bind_eq_some.mpr ⟨_, Option.bind_eq_some.mpr ⟨shaken, hshaken,
              Option.bind_eq_some.mpr ⟨nestedOut, hnest, rfl⟩⟩, ?_⟩
            rw [if_neg hne, hbig]
          · refine ⟨.booleanGroup .or (x :: y :: t2), ?_⟩
            simp only [shake, Option.bind_eq_bind, Option.pure_def]
            refine Option.bind_eq_some.mpr ⟨_, Option.bind_eq_some.mpr ⟨shaken, hshaken,
              Option.bind_eq_some.mpr ⟨nestedOut, hnest, rfl⟩⟩, ?_⟩
            rw [if_neg hne, hbig]
      all_goals
        exfalso
        simp [wfGroups] at hw

end Tau

namespace Tau

/-- `shake` is fuel-monotone for any larger fuel. -/
theorem shake_mono_le : ∀ {n m : Nat}, n ≤ m → ∀ {e r : Expression},
    shake n e = some r → shake m e = some r := by
  intro n m
  induction m with
  | zero =>
    intro h e r hs
    have hn : n = 0 := Nat.le_zero.mp h
    subst hn
    exact hs
  | succ m ih =>
    intro h e r hs
    by_cases hnm : n = m + 1
    · subst hnm
      exact hs
    · exact shake_mono m e r (ih (by omega) hs)

/-- C9: `shake` terminates.  Well-formedness here is the code's own
`unreachable!` invariant (every `BooleanGroup` symbol is `And` or `Or`);
on such expressions `nu e + 1` units of fuel always suffice — every
recursive re-invocation (flattening, De Morgan, double negation,
`Negate(Or)` rewriting and the Or postlude re-shake) strictly decreases
the measure `nu` — and the result is stable under every larger fuel, so
the fuelled model reaches its fixed point: `shake` is a total function
on well-formed expressions. -/
theorem shake_terminates (e : Expression) (hw : wfGroups e = true) :
    ∃ r, shake (nu e + 1) e = some r ∧ ∀ m, nu e + 1 ≤ m → shake m e = some r := by
  obtain ⟨r, hr⟩ := shake_total (nu e + 1) e hw (Nat.lt_succ_self _)
  exact ⟨r, hr, fun m hm => shake_mono_le hm hr⟩

theorem shake_terminates_witness :
    ∃ r, shake (nu (.booleanExpression .null .and .null) + 1)
        (.booleanExpression .null .and .null) = some r ∧
      ∀ m, nu (.booleanExpression .null .and .null) + 1 ≤ m →
        shake m (.booleanExpression .null .and .null) = some r :=
  shake_terminates (.booleanExpression .null .and .null) (by simp [wfGroups])

end Tau
